import Mathlib

/-!
Perturbation-based attribution: a shallow embedding of the masking engine of `gninavis`
(`gninasrc/gninavis/cnn_visualization.cpp`).

Conventions:

* `std::string` is `List Char`, `std::getline` over a string stream is `getlines`;
* a C++ exception, a failed `assert`, a null dereference, an out-of-bounds vector access
  or the use of an invalidated iterator is a `Fault` carried by `Except`;
* the scores, which are `float` values, are exact rationals; the bounds of the spatial
  filter are rounded to single precision as the code computes them;
* a `std::unordered_set`, `std::unordered_map` or `std::map` is a list without repeated
  members or keys, the order of the list standing for the unspecified iteration order; the
  set of atom indices, into which the code inserts while it loops over it, carries the
  number of members it holds without rehashing;
* the external scorer is a function of the structure text it is handed.

The definitions come first: the program, then the notions the statements use, then a few
concrete inputs. The theorems follow.
-/

set_option autoImplicit false
set_option maxRecDepth 100000

namespace CnnVis

/-- Text as handled by the program: a `std::string`. -/
abbrev Str := List Char

/-- Ways in which a call can end without returning. -/
inductive Fault where
  /-- The `std::out_of_range` thrown by `std::string::substr`. -/
  | out_of_range
  /-- The `std::invalid_argument` thrown by `std::stoi`. -/
  | invalid_argument
  /-- A failed `assert`. -/
  | assertion_failed
  /-- Use of the null pointer returned by `OBMol::GetAtom`. -/
  | null_atom
  /-- A `std::vector` access outside the allocated entries. -/
  | vector_bounds
  /-- A bond index that `RWMol::getBondWithIdx` rejects. -/
  | bad_bond
  /-- Control reaches the end of a value-returning function. -/
  | no_return
  /-- Use of an iterator into a `std::unordered_set` after a rehash of the set. -/
  | invalidated_iterator
  deriving DecidableEq, Repr

deriving instance DecidableEq for Except

/-! ## Text primitives -/

/-- The lines `std::getline` delivers, `acc` holding the current line reversed. -/
def getlinesAux : Str → Str → List Str
  | [], [] => []
  | [], c :: acc => [(c :: acc).reverse]
  | c :: cs, acc =>
    if c = '\n' then acc.reverse :: getlinesAux cs [] else getlinesAux cs (c :: acc)

/-- All lines read by `while (std::getline(stream, line))`. -/
def getlines (s : Str) : List Str := getlinesAux s []

/-- The search of `std::string::find`, `i` being the offset already skipped. -/
def findFrom (pat : Str) : Str → Nat → Option Nat
  | [], i => if pat = [] then some i else none
  | c :: cs, i => if pat.isPrefixOf (c :: cs) then some i else findFrom pat cs (i + 1)

/-- `s.find(pat)`, with `none` for `std::string::npos`. -/
def find (s pat : Str) : Option Nat := findFrom pat s 0

/-- `s.substr(pos, n)`. -/
def substr (s : Str) (pos n : Nat) : Except Fault Str :=
  if pos ≤ s.length then .ok ((s.drop pos).take n) else .error .out_of_range

/-- `s.substr(pos)`. -/
def substrFrom (s : Str) (pos : Nat) : Except Fault Str :=
  if pos ≤ s.length then .ok (s.drop pos) else .error .out_of_range

/-- `std::isspace` in the classic locale. -/
def isspace (c : Char) : Bool :=
  c = ' ' || c = '\t' || c = '\n' || c = '\x0b' || c = '\x0c' || c = '\r'

/-- `boost::trim_left`. -/
def trim_left (s : Str) : Str := s.dropWhile isspace

/-- Value of a run of decimal digits. -/
def digitsValue (ds : Str) : Nat := ds.foldl (fun n c => 10 * n + (c.toNat - '0'.toNat)) 0

/-- `std::stoi(s)`: blanks, an optional sign, then the longest run of digits. -/
def stoi (s : Str) : Except Fault Int :=
  let t := s.dropWhile isspace
  let neg := t.head? = some '-'
  let u := if t.head? = some '-' ∨ t.head? = some '+' then t.tail else t
  let ds := u.takeWhile Char.isDigit
  if ds = [] then .error .invalid_argument
  else
    let v : Int := if neg then -(digitsValue ds : Int) else (digitsValue ds : Int)
    if v < -2147483648 ∨ 2147483647 < v then .error .out_of_range else .ok v

/-- The test `line.find("ATOM") < std::string::npos`. -/
def hasATOM (line : Str) : Bool := (find line ['A', 'T', 'O', 'M']).isSome

/-- The test `line.find("HETATM") < std::string::npos`. -/
def hasHETATM (line : Str) : Bool := (find line ['H', 'E', 'T', 'A', 'T', 'M']).isSome

/-- The test of `write_scores` for an atom record. -/
def is_atom_line (line : Str) : Bool := hasATOM line || hasHETATM line

/-- `get_xyz`: the three coordinate columns, left-trimmed and concatenated. -/
def get_xyz (line : Str) : Except Fault Str :=
  match substr line 31 7 with
  | .error e => .error e
  | .ok x =>
    match substr line 39 7 with
    | .error e => .error e
    | .ok y =>
      match substr line 48 6 with
      | .error e => .error e
      | .ok z => .ok (trim_left x ++ trim_left y ++ trim_left z)

/-! ## Perturbation builder -/

/-- The text `"ROOT\n"`. -/
def ROOT : Str := ['R', 'O', 'O', 'T', '\n']

/-- The text `"ENDROOT\n"`. -/
def ENDROOT : Str := ['E', 'N', 'D', 'R', 'O', 'O', 'T', '\n']

/-- The text `"TORSDOF 0\n"`. -/
def TORSDOF0 : Str := ['T', 'O', 'R', 'S', 'D', 'O', 'F', ' ', '0', '\n']

/-- Loop of `modify_pdbqt` (spatial-key overload); `ss` is the output stream so far. -/
def modify_pdbqt_key_loop (atoms_to_remove : List Str) : List Str → Str → Except Fault Str
  | [], ss => .ok ss
  | line :: rest, ss =>
    if hasATOM line then
      match get_xyz line with
      | .error e => .error e
      | .ok xyz =>
        if xyz ∈ atoms_to_remove then modify_pdbqt_key_loop atoms_to_remove rest ss
        else modify_pdbqt_key_loop atoms_to_remove rest (ss ++ line ++ ['\n'])
    else modify_pdbqt_key_loop atoms_to_remove rest ss

/-- `modify_pdbqt(const std::unordered_set<std::string>&, bool)` on the text `mol_string`
of the chosen molecule. -/
def modify_pdbqt_key (atoms_to_remove : List Str) (mol_string : Str) : Except Fault Str :=
  match modify_pdbqt_key_loop atoms_to_remove (getlines mol_string) ROOT with
  | .error e => .error e
  | .ok ss => .ok (ss ++ ENDROOT ++ TORSDOF0)

/-- Loop of `modify_pdbqt` (index overload). -/
def modify_pdbqt_idx_loop (atoms_to_remove : List Int) : List Str → Str → Except Fault Str
  | [], ss => .ok ss
  | line :: rest, ss =>
    if hasATOM line then
      match substr line 7 5 with
      | .error e => .error e
      | .ok index_string =>
        match stoi index_string with
        | .error e => .error e
        | .ok atom_index =>
          if atom_index ∈ atoms_to_remove then modify_pdbqt_idx_loop atoms_to_remove rest ss
          else modify_pdbqt_idx_loop atoms_to_remove rest (ss ++ line ++ ['\n'])
    else modify_pdbqt_idx_loop atoms_to_remove rest ss

/-- `modify_pdbqt(const std::unordered_set<int>&, bool)` on the text `mol_string`. -/
def modify_pdbqt_idx (atoms_to_remove : List Int) (mol_string : Str) : Except Fault Str :=
  match modify_pdbqt_idx_loop atoms_to_remove (getlines mol_string) ROOT with
  | .error e => .error e
  | .ok ss => .ok (ss ++ ENDROOT ++ TORSDOF0)

/-! ## Molecules, options and the session -/

/-- What the program reads of an `OBAtom`. -/
structure OBAtom where
  /-- Value of `GetAtomicNum()`. -/
  atomic_num : Nat
  /-- Value of `GetX()`. -/
  x : ℚ
  /-- Value of `GetY()`. -/
  y : ℚ
  /-- Value of `GetZ()`. -/
  z : ℚ
  deriving DecidableEq

/-- An `OBMol`: the atom with `GetIdx() = i` is entry `i - 1` of `atoms`; a bond is the
pair of the indices it joins. -/
structure OBMol where
  /-- Atoms in index order. -/
  atoms : List OBAtom
  /-- Bonds as (begin index, end index). -/
  bonds : List (Int × Int)

/-- `mol.NumAtoms()`. -/
def OBMol.NumAtoms (mol : OBMol) : Nat := mol.atoms.length

/-- `mol.GetAtom(idx)`, `none` being the null pointer returned outside `1 .. NumAtoms()`. -/
def OBMol.GetAtom (mol : OBMol) (idx : Int) : Option OBAtom :=
  if 1 ≤ idx ∧ idx ≤ (mol.NumAtoms : Int) then mol.atoms.get? (idx.toNat - 1) else none

/-- Indices met by `OBAtomAtomIter` on the atom of index `idx`. -/
def OBMol.neighbors (mol : OBMol) (idx : Int) : List Int :=
  mol.bonds.filterMap (fun b =>
    if b.1 = idx then some b.2 else if b.2 = idx then some b.1 else none)

/-- Whether `neighbor->GetAtomicNum() == 1` for the atom of index `idx`. -/
def OBMol.is_hydrogen (mol : OBMol) (idx : Int) : Bool :=
  match mol.GetAtom idx with
  | some a => decide (a.atomic_num = 1)
  | none => false

/-- The heavy-atom molecule RDKit works on: atoms `0 .. numAtoms - 1`, a bond being the pair
(`getBeginAtomIdx()`, `getEndAtomIdx()`). -/
structure RWMol where
  /-- Number of atoms left by `removeHs`. -/
  numAtoms : Nat
  /-- Bonds in bond-index order. -/
  bonds : List (Nat × Nat)

/-- `rdkit_mol.getBondWithIdx(idx)`. -/
def RWMol.getBondWithIdx (m : RWMol) (idx : Nat) : Except Fault (Nat × Nat) :=
  match m.bonds.get? idx with
  | some b => .ok b
  | none => .error .bad_bond

/-- Modelled from the spec: `struct vis_options` is declared in a header that is not among
the sources. These are the fields the masking engine reads, typed as the code uses them;
`box_size` is taken to be of type `float`, as is the local that holds half of it. -/
structure vis_options where
  /-- Scoring target, `"pose"` or `"affinity"`. -/
  target : Str
  /-- Edge of the box around the ligand centre. -/
  box_size : ℚ
  /-- Admit every residue. -/
  skip_bound_check : Bool
  /-- Run the fragment pass only. -/
  frags_only : Bool
  /-- Run the single-atom pass only. -/
  atoms_only : Bool
  /-- Layer named in the header of gradient and LRP output. -/
  layer_to_ignore : Str
  /-- Leave out the residue pass. -/
  skip_receptor_output : Bool
  /-- Leave out the ligand passes. -/
  skip_ligand_output : Bool
  /-- Name of the additivity file, empty when none is asked for. -/
  additivity : Str

/-- Modelled from the spec: the class `cnn_visualization` is declared in a header that is
not among the sources. The members are those its methods read once `setup` has run; the
calls into OpenBabel, RDKit, the scorer and the standard library are functions of their
arguments. -/
structure Session where
  /-- Member `visopts`. -/
  visopts : vis_options
  /-- Member `lig_mol`. -/
  lig_mol : OBMol
  /-- Member `rec_mol`. -/
  rec_mol : OBMol
  /-- Member `lig_string`. -/
  lig_string : Str
  /-- Member `rec_string`. -/
  rec_string : Str
  /-- Member `original_score`. -/
  original_score : ℚ
  /-- Member `cenCoords`. -/
  cenCoords : ℚ × ℚ × ℚ
  /-- OpenBabel `AddHydrogens()` on a copy of a molecule. -/
  AddHydrogens : OBMol → OBMol
  /-- The shared scorer on a ligand text: `score_val` and `aff`. -/
  ligand_scorer : Str → ℚ × ℚ
  /-- A fresh scorer on a receptor text: `score_val` and `aff`. -/
  receptor_scorer : Str → ℚ × ℚ
  /-- Member `cnnopts.cnn_model`. -/
  cnn_model : Str
  /-- Member `cnnopts.cnn_weights`. -/
  cnn_weights : Str
  /-- Text of a `float` written to a stream with default formatting. -/
  print_float : ℚ → Str
  /-- The heavy-atom molecule RDKit builds from the MOL text of a molecule. -/
  to_rdkit : OBMol → RWMol
  /-- RDKit `findAllSubgraphsOfLengthsMtoN`: path length, then the bond paths of that length. -/
  findAllSubgraphsOfLengthsMtoN : RWMol → Nat → Nat → List (Nat × List (List Nat))
  /-- The standard library: the number of members a default-constructed
  `std::unordered_set<int>` holds before an insertion rehashes it. -/
  set_capacity : Nat
  /-- The standard library: the number of members a `std::unordered_set<int>` holds without
  rehashing once an insertion has rehashed it, given that number before the insertion and
  the number of members after it. -/
  set_rehash : Nat → Nat → Nat

/-- The text `"pose"`. -/
def pose : Str := ['p', 'o', 's', 'e']

/-- The text `"affinity"`. -/
def affinity : Str := ['a', 'f', 'f', 'i', 'n', 'i', 't', 'y']

/-! ## Scoring a perturbed structure -/

/-- Outcome of `score_modified_ligand`: whether `cnn_scorer.score` was called, and the
value returned. -/
structure ScoreCall where
  /-- Whether the external scorer was called. -/
  scorer_invoked : Bool
  /-- The returned value. -/
  result : Except Fault ℚ

/-- `score_modified_ligand`. -/
def score_modified_ligand (env : Session) (mol_string : Str) : ScoreCall :=
  if find mol_string ['A', 'T', 'O', 'M'] = none then ⟨false, .ok 0⟩
  else
    let r := env.ligand_scorer mol_string
    if env.visopts.target = pose then ⟨true, .ok r.1⟩
    else if env.visopts.target = affinity then ⟨true, .ok r.2⟩
    else ⟨true, .error .no_return⟩

/-- `score_modified_receptor`. -/
def score_modified_receptor (env : Session) (modified_rec_string : Str) : ℚ :=
  let r := env.receptor_scorer modified_rec_string
  if env.visopts.target = affinity then r.2 else r.1

/-! ## Hydrogens of a removal set

The set `atoms_to_remove` is a `std::unordered_set<int>` that its owner fills, hands to
`add_adjacent_hydrogens` and clears again; `clear` keeps what the set has grown to. Next to
the members of the set goes its capacity, the number of members it holds without
rehashing. -/

/-- `std::unordered_set::insert`, as to the members of the set. -/
def set_insert {α : Type} [DecidableEq α] (a : α) (s : List α) : List α :=
  if a ∈ s then s else s ++ [a]

/-- `atoms_to_remove.insert(a)` while no loop runs over the set: the members and the
capacity afterwards. An insertion that takes the set beyond its capacity rehashes it. -/
def insert_rehashing (env : Session) (a : Int) (st : List Int × Nat) : List Int × Nat :=
  if a ∈ st.1 then st
  else if st.1.length + 1 ≤ st.2 then (st.1 ++ [a], st.2)
  else (st.1 ++ [a], env.set_rehash st.2 (st.1.length + 1))

/-- `atoms_to_remove.insert(a)` inside the range-based loop over `atoms_to_remove`: an
insertion that takes the set beyond its capacity rehashes it, and the rehash invalidates
the iterator with which the loop goes on. -/
def insert_visiting (capacity : Nat) (a : Int) (atoms_to_remove : List Int) :
    Except Fault (List Int) :=
  if a ∈ atoms_to_remove then .ok atoms_to_remove
  else if atoms_to_remove.length + 1 ≤ capacity then .ok (atoms_to_remove ++ [a])
  else .error .invalidated_iterator

/-- The inner loop of `add_adjacent_hydrogens`: the neighbours of one member that are
hydrogens are inserted one after the other. -/
def insert_hydrogens (capacity : Nat) : List Int → List Int → Except Fault (List Int)
  | [], atoms_to_remove => .ok atoms_to_remove
  | j :: rest, atoms_to_remove =>
    match insert_visiting capacity j atoms_to_remove with
    | .error e => .error e
    | .ok atoms_to_remove' => insert_hydrogens capacity rest atoms_to_remove'

/-- Loop of `add_adjacent_hydrogens` over the members `todo` of the set. -/
def add_adjacent_hydrogens_loop (mol : OBMol) (capacity : Nat) :
    List Int → List Int → Except Fault (List Int)
  | [], atoms_to_remove => .ok atoms_to_remove
  | i :: todo, atoms_to_remove =>
    match mol.GetAtom i with
    | none => .error .null_atom
    | some _ =>
      match insert_hydrogens capacity ((mol.neighbors i).filter mol.is_hydrogen)
          atoms_to_remove with
      | .error e => .error e
      | .ok atoms_to_remove' => add_adjacent_hydrogens_loop mol capacity todo atoms_to_remove'

/-- `add_adjacent_hydrogens(atoms_to_remove, isRec)` on a set of the given capacity. The
members visited are those the set holds on entry: while no rehash occurs they keep their
places in the set; whether a hydrogen inserted by the loop is visited in its turn is not
specified by the library, and such a visit adds nothing unless a hydrogen is bonded to a
hydrogen. -/
def add_adjacent_hydrogens (env : Session) (atoms_to_remove : List Int) (isRec : Bool)
    (capacity : Nat) : Except Fault (List Int) :=
  let mol := env.AddHydrogens (if isRec then env.rec_mol else env.lig_mol)
  add_adjacent_hydrogens_loop mol capacity atoms_to_remove atoms_to_remove

/-! ## Vectors -/

/-- `v[i] = x` on a `std::vector`. -/
def vset {α : Type} (v : List α) (i : Int) (x : α) : Except Fault (List α) :=
  if 0 ≤ i ∧ i.toNat < v.length then .ok (v.set i.toNat x) else .error .vector_bounds

/-- `v[i]` on a `std::vector`. -/
def vget {α : Type} (v : List α) (i : Int) : Except Fault α :=
  if 0 ≤ i then
    match v.get? i.toNat with
    | some x => .ok x
    | none => .error .vector_bounds
  else .error .vector_bounds

/-- `v[i] += x`. -/
def vadd {α : Type} [Add α] (v : List α) (i : Int) (x : α) : Except Fault (List α) :=
  match vget v i with
  | .error e => .error e
  | .ok old => vset v i (old + x)

/-! ## Fragment pass -/

/-- Loop over the bonds of one path: both ends of every bond, shifted by one, go into
`atoms_to_remove`. -/
def fragment_core (env : Session) (rdkit_mol : RWMol) :
    List Nat → List Int × Nat → Except Fault (List Int × Nat)
  | [], st => .ok st
  | b :: bond_list, st =>
    match rdkit_mol.getBondWithIdx b with
    | .error e => .error e
    | .ok bond =>
      fragment_core env rdkit_mol bond_list
        (insert_rehashing env ((bond.2 : Int) + 1)
          (insert_rehashing env ((bond.1 : Int) + 1) st))

/-- What one turn of the fragment loop computes before it accumulates. -/
structure FragmentUnit where
  /-- Local `size_without_hydrogens`. -/
  size_without_hydrogens : Nat
  /-- The set `atoms_to_remove` once hydrogens are added. -/
  atoms_to_remove : List Int
  /-- Local `score`. -/
  score : ℚ
  deriving DecidableEq

/-- First half of a turn of the fragment loop, on the cleared set of the given capacity:
core, hydrogens, perturbed text, score, and the capacity the set is left with. -/
def score_fragment (env : Session) (rdkit_mol : RWMol) (bond_list : List Nat)
    (capacity : Nat) : Except Fault (FragmentUnit × Nat) :=
  match fragment_core env rdkit_mol bond_list ([], capacity) with
  | .error e => .error e
  | .ok (core, capacity') =>
    match add_adjacent_hydrogens env core false capacity' with
    | .error e => .error e
    | .ok atoms_to_remove =>
      match modify_pdbqt_idx atoms_to_remove env.lig_string with
      | .error e => .error e
      | .ok modified_ligand =>
        match (score_modified_ligand env modified_ligand).result with
        | .error e => .error e
        | .ok score => .ok (⟨core.length, atoms_to_remove, score⟩, capacity')

/-- Second half of a turn: every member of the set gets `share` added and its count
raised by one. -/
def accumulate (share : ℚ) :
    List Int → List ℚ × List Int → Except Fault (List ℚ × List Int)
  | [], st => .ok st
  | index :: rest, (score_diffs, score_counts) =>
    match vadd score_diffs index share with
    | .error e => .error e
    | .ok score_diffs' =>
      match vadd score_counts index 1 with
      | .error e => .error e
      | .ok score_counts' => accumulate share rest (score_diffs', score_counts')

/-- The loop over all paths, in the order they are enumerated; the state is the two
vectors and the capacity of `atoms_to_remove`. -/
def remove_fragments_loop (env : Session) (rdkit_mol : RWMol) :
    List (List Nat) → (List ℚ × List Int) × Nat → Except Fault ((List ℚ × List Int) × Nat)
  | [], st => .ok st
  | bond_list :: rest, (st, capacity) =>
    match score_fragment env rdkit_mol bond_list capacity with
    | .error e => .error e
    | .ok (u, capacity') =>
      match accumulate ((env.original_score - u.score) / (u.size_without_hydrogens : ℚ))
          u.atoms_to_remove st with
      | .error e => .error e
      | .ok st' => remove_fragments_loop env rdkit_mol rest (st', capacity')

/-- The closing loop over the atoms of `rdkit_mol`. -/
def average_loop (score_diffs : List ℚ) (score_counts : List Int) :
    List Nat → List ℚ → Except Fault (List ℚ)
  | [], avg_score_diffs => .ok avg_score_diffs
  | r_index :: rest, avg_score_diffs =>
    match vget score_counts ((r_index : Int) + 1) with
    | .error e => .error e
    | .ok count =>
      if 0 < count then
        match vget score_diffs ((r_index : Int) + 1) with
        | .error e => .error e
        | .ok diff =>
          match vset avg_score_diffs ((r_index : Int) + 1) (diff / (count : ℚ)) with
          | .error e => .error e
          | .ok avg' => average_loop score_diffs score_counts rest avg'
      else
        match vset avg_score_diffs ((r_index : Int) + 1) 0 with
        | .error e => .error e
        | .ok avg' => average_loop score_diffs score_counts rest avg'

/-- The paths of a `INT_PATH_LIST_MAP` in the order the two nested loops visit them. -/
def all_paths (paths : List (Nat × List (List Nat))) : List (List Nat) :=
  (paths.map (fun p => p.2)).flatten

/-- Body of `remove_fragments` once RDKit has delivered the heavy-atom molecule and the
map from path length to paths; `atoms_to_remove` starts default-constructed. -/
def remove_fragments_over (env : Session) (rdkit_mol : RWMol)
    (paths : List (Nat × List (List Nat))) : Except Fault (List ℚ) :=
  let lig_mol_h := env.AddHydrogens env.lig_mol
  match remove_fragments_loop env rdkit_mol (all_paths paths)
      ((List.replicate (lig_mol_h.NumAtoms + 1) 0, List.replicate (lig_mol_h.NumAtoms + 1) 0),
        env.set_capacity) with
  | .error e => .error e
  | .ok ((score_diffs, score_counts), _) =>
    average_loop score_diffs score_counts (List.range rdkit_mol.numAtoms)
      (List.replicate (env.lig_mol.NumAtoms + 1) 0)

/-- `remove_fragments(size)`. -/
def remove_fragments (env : Session) (size : Nat) : Except Fault (List ℚ) :=
  let rdkit_mol := env.to_rdkit env.lig_mol
  remove_fragments_over env rdkit_mol (env.findAllSubgraphsOfLengthsMtoN rdkit_mol 1 size)

/-! ## Single-atom pass -/

/-- The turn of `remove_each_atom` for a heavy atom, on the cleared set of the given
capacity: the score of the ligand without that atom and the hydrogens bonded to it, and
the capacity the set is left with. -/
def removal_score (env : Session) (capacity : Nat) (atom_index : Int) :
    Except Fault (ℚ × Nat) :=
  match insert_rehashing env atom_index ([], capacity) with
  | (atoms, capacity') =>
    match add_adjacent_hydrogens env atoms false capacity' with
    | .error e => .error e
    | .ok atoms_to_remove =>
      match modify_pdbqt_idx atoms_to_remove env.lig_string with
      | .error e => .error e
      | .ok modified_mol_string =>
        match (score_modified_ligand env modified_mol_string).result with
        | .error e => .error e
        | .ok score_val => .ok (score_val, capacity')

/-- Loop of `remove_each_atom` over the lines of `lig_string`; the state is the vector and
the capacity of `atoms_to_remove`. -/
def remove_each_atom_loop (env : Session) :
    List Str → List ℚ × Nat → Except Fault (List ℚ × Nat)
  | [], st => .ok st
  | line :: rest, (score_diffs, capacity) =>
    if hasATOM line then
      match substr line 6 5 with
      | .error e => .error e
      | .ok index_string =>
        match stoi index_string with
        | .error e => .error e
        | .ok atom_index =>
          match env.lig_mol.GetAtom atom_index with
          | none => .error .null_atom
          | some atom =>
            if atom.atomic_num ≠ 1 then
              match removal_score env capacity atom_index with
              | .error e => .error e
              | .ok (score_val, capacity') =>
                match vset score_diffs atom_index (env.original_score - score_val) with
                | .error e => .error e
                | .ok score_diffs' => remove_each_atom_loop env rest (score_diffs', capacity')
            else remove_each_atom_loop env rest (score_diffs, capacity)
    else remove_each_atom_loop env rest (score_diffs, capacity)

/-- `remove_each_atom`; `atoms_to_remove` starts default-constructed. -/
def remove_each_atom (env : Session) : Except Fault (List ℚ) :=
  let lig_mol_h := env.AddHydrogens env.lig_mol
  match remove_each_atom_loop env (getlines env.lig_string)
      (List.replicate lig_mol_h.NumAtoms 0, env.set_capacity) with
  | .error e => .error e
  | .ok (score_diffs, _) => .ok score_diffs

/-! ## Additivity record -/

/-- One of the two summing loops of `write_additivity`: `i` runs from `1` while
`i < diffs.size()`. -/
def additivity_total (env : Session) (diffs : List ℚ) : ℚ :=
  (List.range' 1 (diffs.length - 1)).foldl (fun total i =>
    if i ≤ env.lig_mol.NumAtoms then
      match env.lig_mol.GetAtom (i : Int) with
      | some atom => if atom.atomic_num ≠ 1 then total + diffs.getD i 0 else total
      | none => total
    else total) 0

/-- `write_additivity`: the numbers of the appended record, that is `original_score`,
`single_total` and `frag_total`. -/
def write_additivity (env : Session) (single_score_diffs frag_score_diffs : List ℚ) :
    ℚ × ℚ × ℚ :=
  let single_total := if !env.visopts.frags_only then additivity_total env single_score_diffs else 0
  let frag_total := if !env.visopts.atoms_only then additivity_total env frag_score_diffs else 0
  (env.original_score, single_total, frag_total)

/-! ## Writing annotated structures -/

/-- A `std::unordered_map<std::string, float>`: the first pair with a given key is the
entry of that key. -/
abbrev ScoreMap := List (Str × ℚ)

/-- `m.find(key)` on a map kept as a list of pairs, `none` for `m.end()`. -/
def map_find {κ β : Type} [DecidableEq κ] (m : List (κ × β)) (key : κ) : Option β :=
  match m with
  | [] => none
  | (k, v) :: rest => if k = key then some v else map_find rest key

/-- `scores.size()`: the number of keys. -/
def map_size (scores : ScoreMap) : Nat := (scores.map (fun p => p.1)).dedup.length

/-- `m[key] = v`. -/
def map_set {κ β : Type} [DecidableEq κ] (m : List (κ × β)) (key : κ) (v : β) : List (κ × β) :=
  match m with
  | [] => [(key, v)]
  | (k, w) :: rest => if k = key then (k, v) :: rest else (k, w) :: map_set rest key v

/-- Decimal digits of `n`, at least `width` of them. -/
def zero_padded (width n : Nat) : Str :=
  List.replicate (width - (Nat.toDigits 10 n).length) '0' ++ Nat.toDigits 10 n

/-- The text of `std::fixed << std::setprecision(5) << score`: the value rounded to five
decimals, ties to even. -/
def fixed5 (score : ℚ) : Str :=
  let scaled := score.num.natAbs * 100000
  let q := scaled / score.den
  let r := scaled % score.den
  let n := if 2 * r < score.den then q else if score.den < 2 * r then q + 1
    else if q % 2 = 0 then q else q + 1
  (if score < 0 then ['-'] else []) ++ Nat.toDigits 10 (n / 100000) ++ ['.']
    ++ zero_padded 5 (n % 100000)

/-- `s.resize(n)`. -/
def resize (s : Str) (n : Nat) : Str := s.take n ++ List.replicate (n - s.length) '\x00'

/-- Output of a text under `width(w)`, `fill(c)` and `std::right`. -/
def right_aligned (w : Nat) (c : Char) (s : Str) : Str := List.replicate (w - s.length) c ++ s

/-- One turn of the line loop of `write_scores` for file `i` (`0` narrow, `1` extended):
the text written and the new `found_count`. -/
def write_scores_line (scores : ScoreMap) (i : Nat) (line : Str) (found_count : Nat) :
    Except Fault (Str × Nat) :=
  if is_atom_line line then
    match substr line 6 5 with
    | .error e => .error e
    | .ok index_string =>
      match substr line 77 2 with
      | .error e => .error e
      | .ok _ =>
        match stoi index_string with
        | .error e => .error e
        | .ok _ =>
          match get_xyz line with
          | .error e => .error e
          | .ok xyz =>
            let score : ℚ := (map_find scores xyz).getD 0
            let found_count' := if (map_find scores xyz).isSome then found_count + 1
              else found_count
            let score_string := resize (fixed5 score) (if i = 0 then 5 else 7)
            match substr line 0 61 with
            | .error e => .error e
            | .ok head =>
              match substrFrom line 66 with
              | .error e => .error e
              | .ok tail =>
                .ok (head ++ right_aligned 5 '.' score_string ++ tail ++ ['\n'], found_count')
  else .ok (line ++ ['\n'], found_count)

/-- The line loop of `write_scores`: text written so far and `found_count`. -/
def write_scores_lines (scores : ScoreMap) (i : Nat) :
    List Str → Str × Nat → Except Fault (Str × Nat)
  | [], st => .ok st
  | line :: rest, (out, found_count) =>
    match write_scores_line scores i line found_count with
    | .error e => .error e
    | .ok (text, found_count') => write_scores_lines scores i rest (out ++ text, found_count')

/-- The lines `write_scores` puts before the records. -/
def write_scores_header (env : Session) (method : Str) : Str :=
  "VIS METHOD: ".toList ++ method ++ ['\n']
  ++ (if method = "masking".toList then "MASKING TARGET: ".toList ++ env.visopts.target ++ ['\n']
      else [])
  ++ (if method = "gradient".toList ∨ method = "lrp".toList then
        "LAYER IGNORED: ".toList ++ env.visopts.layer_to_ignore ++ ['\n']
      else [])
  ++ (if env.visopts.target = pose then
        "POSE SCORE: ".toList ++ env.print_float env.original_score ++ ['\n']
      else [])
  ++ (if env.visopts.target = affinity then
        "AFFINITY SCORE: ".toList ++ env.print_float env.original_score ++ ['\n']
      else "CNN SCORE: ".toList ++ env.print_float env.original_score ++ ['\n'])
  ++ "MODEL: ".toList ++ env.cnn_model ++ ['\n']
  ++ "WEIGHTS: ".toList ++ env.cnn_weights ++ ['\n']

/-- One turn of the loop over the two files of `write_scores`: the content of file `i`,
or the failed `assert(found_count == scores.size())`. -/
def write_scores_file (env : Session) (scores : ScoreMap) (isRec : Bool) (method : Str)
    (i : Nat) : Except Fault Str :=
  let mol_string := if isRec then env.rec_string else env.lig_string
  match write_scores_lines scores i (getlines mol_string) (write_scores_header env method, 0) with
  | .error e => .error e
  | .ok (out, found_count) =>
    if found_count = map_size scores then .ok out else .error .assertion_failed

/-- `write_scores(std::unordered_map<std::string, float>, bool, std::string)`: the contents
of the narrow and of the extended file. -/
def write_scores (env : Session) (scores : ScoreMap) (isRec : Bool) (method : Str) :
    Except Fault (Str × Str) :=
  match write_scores_file env scores isRec method 0 with
  | .error e => .error e
  | .ok narrow =>
    match write_scores_file env scores isRec method 1 with
    | .error e => .error e
    | .ok extended => .ok (narrow, extended)

/-! ## Identity index -/

/-- The loop filling one map of `get_openbabel_index`: spatial key to index. -/
def openbabel_index_loop : List Str → List (Str × Int) → Except Fault (List (Str × Int))
  | [], indices => .ok indices
  | line :: rest, indices =>
    if is_atom_line line then
      match get_xyz line with
      | .error e => .error e
      | .ok line_xyz =>
        match substr line 7 5 with
        | .error e => .error e
        | .ok index_string =>
          match stoi index_string with
          | .error e => .error e
          | .ok atom_index => openbabel_index_loop rest (map_set indices line_xyz atom_index)
    else openbabel_index_loop rest indices

/-- `get_openbabel_index(xyz, rec)`: both maps are filled from the two texts, then the entry
of `xyz` is read, `0` when there is none. -/
def get_openbabel_index (env : Session) (xyz : Str) (isRec : Bool) : Except Fault Int :=
  match openbabel_index_loop (getlines env.lig_string) [] with
  | .error e => .error e
  | .ok lig_indices =>
    match openbabel_index_loop (getlines env.rec_string) [] with
    | .error e => .error e
    | .ok rec_indices =>
      .ok ((map_find (if isRec then rec_indices else lig_indices) xyz).getD 0)

/-- The loop filling one map of `get_xyz_from_index`: index to spatial key. -/
def xyz_index_loop : List Str → List (Int × Str) → Except Fault (List (Int × Str))
  | [], indices => .ok indices
  | line :: rest, indices =>
    if is_atom_line line then
      match get_xyz line with
      | .error e => .error e
      | .ok line_xyz =>
        match substr line 7 5 with
        | .error e => .error e
        | .ok index_string =>
          match stoi index_string with
          | .error e => .error e
          | .ok atom_index => xyz_index_loop rest (map_set indices atom_index line_xyz)
    else xyz_index_loop rest indices

/-- `get_xyz_from_index(index, rec)`: both maps are filled from the two texts, then the entry
of `index` is read, the empty text when there is none. -/
def get_xyz_from_index (env : Session) (index : Int) (isRec : Bool) : Except Fault Str :=
  match xyz_index_loop (getlines env.lig_string) [] with
  | .error e => .error e
  | .ok lig_indices =>
    match xyz_index_loop (getlines env.rec_string) [] with
    | .error e => .error e
    | .ok rec_indices =>
      .ok ((map_find (if isRec then rec_indices else lig_indices) index).getD [])

/-! ## Single precision

The bounds of the spatial filter are values of type `float`: a real number is rounded to
the nearest number of 24 significant bits, to the even one of two that are equally near. -/

/-- A value of type `float`. -/
inductive FloatValue where
  /-- Not a number. -/
  | nan
  /-- Minus infinity. -/
  | neg_inf
  /-- A number. -/
  | finite (q : ℚ)
  /-- Plus infinity. -/
  | pos_inf
  deriving DecidableEq

/-- The power `2 ^ e`. -/
def two_pow (e : Int) : ℚ :=
  if 0 ≤ e then ((2 ^ e.toNat : Nat) : ℚ) else 1 / ((2 ^ (-e).toNat : Nat) : ℚ)

/-- The number of binary digits of `n`, `fuel` bounding the number of halvings. -/
def binary_digits : Nat → Nat → Nat
  | 0, _ => 0
  | fuel + 1, n => if n = 0 then 0 else binary_digits fuel (n / 2) + 1

/-- For `q` other than zero, the exponent `e` with `2 ^ e ≤ |q| < 2 ^ (e + 1)`. -/
def binary_exponent (q : ℚ) : Int :=
  let e : Int :=
    (binary_digits q.num.natAbs q.num.natAbs : Int) - (binary_digits q.den q.den : Int)
  if two_pow e ≤ |q| then e else e - 1

/-- The integer nearest to `q`, the even one of the two when `q` lies half-way. -/
def round_half_even (q : ℚ) : Int :=
  if q - ⌊q⌋ < 1 / 2 then ⌊q⌋
  else if 1 / 2 < q - ⌊q⌋ then ⌊q⌋ + 1
  else if ⌊q⌋ % 2 = 0 then ⌊q⌋ else ⌊q⌋ + 1

/-- The largest number of type `float`, `(2 - 2 ^ (-23)) * 2 ^ 127`. -/
def max_float : ℚ := (2 ^ 24 - 1) * 2 ^ 104

/-- Conversion of a real number to `float`: 24 significant bits, exponents from -126 on
(smaller numbers are multiples of `2 ^ (-149)`), infinity beyond the largest number. -/
def round_float (q : ℚ) : FloatValue :=
  if q = 0 then .finite 0
  else
    let quantum := two_pow (max (binary_exponent q) (-126) - 23)
    let r : ℚ := (round_half_even (q / quantum) : ℚ) * quantum
    if max_float < r then .pos_inf else if r < -max_float then .neg_inf else .finite r

/-- The sum of two values of type `float`. -/
def float_add : FloatValue → FloatValue → FloatValue
  | .finite a, .finite b => round_float (a + b)
  | .nan, _ => .nan
  | _, .nan => .nan
  | .pos_inf, .neg_inf => .nan
  | .neg_inf, .pos_inf => .nan
  | .pos_inf, _ => .pos_inf
  | _, .pos_inf => .pos_inf
  | .neg_inf, _ => .neg_inf
  | _, .neg_inf => .neg_inf

/-- The difference of two values of type `float`. -/
def float_sub : FloatValue → FloatValue → FloatValue
  | .finite a, .finite b => round_float (a - b)
  | .nan, _ => .nan
  | _, .nan => .nan
  | .pos_inf, .pos_inf => .nan
  | .neg_inf, .neg_inf => .nan
  | .pos_inf, _ => .pos_inf
  | _, .neg_inf => .pos_inf
  | .neg_inf, _ => .neg_inf
  | _, .pos_inf => .neg_inf

/-- The comparison `a < b` of a `double` with a `float`. -/
def double_lt (a : ℚ) : FloatValue → Bool
  | .finite b => decide (a < b)
  | .pos_inf => true
  | _ => false

/-- The comparison `a > b` of a `double` with a `float`. -/
def double_gt (a : ℚ) : FloatValue → Bool
  | .finite b => decide (a > b)
  | .neg_inf => true
  | _ => false

/-! ## Spatial filter -/

/-- The atom `rec_mol.GetAtom(get_openbabel_index(xyz, true))`. -/
def receptor_atom (env : Session) (xyz : Str) : Except Fault OBAtom :=
  match get_openbabel_index env xyz true with
  | .error e => .error e
  | .ok idx =>
    match env.rec_mol.GetAtom idx with
    | none => .error .null_atom
    | some atom => .ok atom

/-- The six nested comparisons of `check_in_range`. The locals `x`, `y`, `z` and
`allowed_dist` are of type `float`, so the sums and differences are computed in single
precision; the coordinate of the atom is a `double`, with which the bound is compared
exactly. -/
def within_box (env : Session) (atom : OBAtom) : Bool :=
  let x := round_float env.cenCoords.1
  let y := round_float env.cenCoords.2.1
  let z := round_float env.cenCoords.2.2
  let allowed_dist := round_float (env.visopts.box_size / 2)
  double_lt atom.x (float_add x allowed_dist) && double_lt atom.y (float_add y allowed_dist)
    && double_lt atom.z (float_add z allowed_dist) && double_gt atom.x (float_sub x allowed_dist)
    && double_gt atom.y (float_sub y allowed_dist) && double_gt atom.z (float_sub z allowed_dist)

/-- `check_in_range(atom_xyzs)`. -/
def check_in_range (env : Session) : List Str → Except Fault Bool
  | [] => .ok false
  | i :: rest =>
    match receptor_atom env i with
    | .error e => .error e
    | .ok atom => if within_box env atom then .ok true else check_in_range env rest

/-! ## Residue pass -/

/-- `residues[res].insert(xyz)`. -/
def residues_insert (residues : List (Str × List Str)) (res xyz : Str) :
    List (Str × List Str) :=
  match residues with
  | [] => [(res, [xyz])]
  | (k, atoms) :: rest =>
    if k = res then (k, set_insert xyz atoms) :: rest
    else (k, atoms) :: residues_insert rest res xyz

/-- The first loop of `remove_residues`: the spatial keys of the `ATOM` lines, grouped by
the residue columns. -/
def collect_residues : List Str → List (Str × List Str) →
    Except Fault (List (Str × List Str))
  | [], residues => .ok residues
  | line :: rest, residues =>
    if hasATOM line then
      match substr line 23 4 with
      | .error e => .error e
      | .ok res =>
        match get_xyz line with
        | .error e => .error e
        | .ok xyz => collect_residues rest (residues_insert residues res xyz)
    else collect_residues rest residues

/-- The loop of `remove_residues` over the residues, visited in the order `order`. -/
def remove_residues_loop (env : Session) :
    List (Str × List Str) → ScoreMap → Except Fault ScoreMap
  | [], score_diffs => .ok score_diffs
  | (_, atoms_to_remove) :: rest, score_diffs =>
    match (if !env.visopts.skip_bound_check then check_in_range env atoms_to_remove
        else .ok true) with
    | .error e => .error e
    | .ok remove =>
      if remove then
        match modify_pdbqt_key atoms_to_remove env.rec_string with
        | .error e => .error e
        | .ok modified_mol_string =>
          let score_val := score_modified_receptor env modified_mol_string
          remove_residues_loop env rest
            (atoms_to_remove.foldl
              (fun m f => map_set m f (env.original_score - score_val)) score_diffs)
      else remove_residues_loop env rest score_diffs

/-- The map `score_diffs` that `remove_residues` hands to `write_scores`, the residues being
visited in the order in which they were first met. -/
def remove_residues_scores (env : Session) : Except Fault ScoreMap :=
  match collect_residues (getlines env.rec_string) [] with
  | .error e => .error e
  | .ok residues => remove_residues_loop env residues []

/-- `remove_residues`: the two files written. -/
def remove_residues (env : Session) : Except Fault (Str × Str) :=
  match remove_residues_scores env with
  | .error e => .error e
  | .ok score_diffs => write_scores env score_diffs true "masking".toList

/-! ## Ligand passes -/

/-- The loop of `write_scores(std::vector<float>, bool, std::string)`: a nonzero entry is
stored under the spatial key of its position. -/
def score_map_loop (env : Session) (scores : List ℚ) (isRec : Bool) :
    List Nat → ScoreMap → Except Fault ScoreMap
  | [], score_map => .ok score_map
  | i :: rest, score_map =>
    if scores.getD i 0 ≠ 0 then
      match get_xyz_from_index env (i : Int) isRec with
      | .error e => .error e
      | .ok xyz => score_map_loop env scores isRec rest (map_set score_map xyz (scores.getD i 0))
    else score_map_loop env scores isRec rest score_map

/-- `write_scores(std::vector<float>, bool, std::string)`: the vector is turned into a map
of spatial keys, which the map form writes. -/
def write_scores_vector (env : Session) (scores : List ℚ) (isRec : Bool) (method : Str) :
    Except Fault (Str × Str) :=
  match score_map_loop env scores isRec (List.range scores.length) [] with
  | .error e => .error e
  | .ok score_map => write_scores env score_map isRec method

/-- The averaging loop of `remove_ligand_atoms`: `i` runs over the positions of
`individual_score_diffs`. -/
def both_score_diffs_loop (individual_score_diffs frag_score_diffs : List ℚ) :
    List Nat → List ℚ → Except Fault (List ℚ)
  | [], both_score_diffs => .ok both_score_diffs
  | i :: rest, both_score_diffs =>
    match vget individual_score_diffs (i : Int) with
    | .error e => .error e
    | .ok single =>
      match vget frag_score_diffs (i : Int) with
      | .error e => .error e
      | .ok frag =>
        match vset both_score_diffs (i : Int) ((single + frag) / 2) with
        | .error e => .error e
        | .ok both_score_diffs' =>
          both_score_diffs_loop individual_score_diffs frag_score_diffs rest both_score_diffs'

/-- The vector `both_score_diffs` of `remove_ligand_atoms`: as many zeros as
`individual_score_diffs` has entries, then the averaging loop. -/
def both_score_diffs (individual_score_diffs frag_score_diffs : List ℚ) :
    Except Fault (List ℚ) :=
  both_score_diffs_loop individual_score_diffs frag_score_diffs
    (List.range individual_score_diffs.length)
    (List.replicate individual_score_diffs.length 0)

/-- The three vectors of `remove_ligand_atoms`: `individual_score_diffs`,
`frag_score_diffs`, and the one handed to `write_scores`. -/
def ligand_score_diffs (env : Session) : Except Fault (List ℚ × List ℚ × List ℚ) :=
  if env.visopts.atoms_only then
    match remove_each_atom env with
    | .error e => .error e
    | .ok individual_score_diffs => .ok (individual_score_diffs, [], individual_score_diffs)
  else if env.visopts.frags_only then
    match remove_fragments env 6 with
    | .error e => .error e
    | .ok frag_score_diffs => .ok ([], frag_score_diffs, frag_score_diffs)
  else
    match remove_each_atom env with
    | .error e => .error e
    | .ok individual_score_diffs =>
      match remove_fragments env 6 with
      | .error e => .error e
      | .ok frag_score_diffs =>
        match both_score_diffs individual_score_diffs frag_score_diffs with
        | .error e => .error e
        | .ok both => .ok (individual_score_diffs, frag_score_diffs, both)

/-- What `remove_ligand_atoms` leaves behind. -/
structure LigandOutput where
  /-- The narrow and the extended annotated ligand. -/
  files : Str × Str
  /-- The record appended to the additivity file, when one is asked for. -/
  additivity_record : Option (ℚ × ℚ × ℚ)
deriving DecidableEq

/-- `remove_ligand_atoms`. -/
def remove_ligand_atoms (env : Session) : Except Fault LigandOutput :=
  match ligand_score_diffs env with
  | .error e => .error e
  | .ok (individual_score_diffs, frag_score_diffs, written) =>
    match write_scores_vector env written false "masking".toList with
    | .error e => .error e
    | .ok files =>
      .ok ⟨files, if env.visopts.additivity.length > 0 then
        some (write_additivity env individual_score_diffs frag_score_diffs) else none⟩

/-! ## Set-up and the masking run -/

/-- The branch on the target that ends `setup`: the members afterwards and the text put on
standard output. `base_score` is what `base_scorer.score` gives for the unmodified complex,
the score first and the affinity second; reading the molecules is not part of the model,
the texts and molecules of the session being the result of it. -/
def setup (env : Session) (base_score : ℚ × ℚ) : Session × Str :=
  if env.visopts.target = pose then
    ({ env with original_score := base_score.1 },
      "CNN SCORE: ".toList ++ env.print_float base_score.1 ++ "\n\n".toList)
  else if env.visopts.target = affinity then
    ({ env with original_score := base_score.2 },
      "AFF: ".toList ++ env.print_float base_score.2 ++ "\n\n".toList)
  else (env, "Unknown scoring target\n".toList)

/-- What a call of `masking` leaves behind: for each of the two passes, `none` when it was
not run, else its files or the fault that ended the run. -/
structure MaskingOutput where
  /-- Outcome of `remove_residues`. -/
  receptor_pass : Option (Except Fault (Str × Str))
  /-- Outcome of `remove_ligand_atoms`. -/
  ligand_pass : Option (Except Fault LigandOutput)

/-- `masking`: the residue pass, then the ligand passes, each unless switched off. A fault
in the residue pass ends the run before the ligand passes. -/
def masking (env : Session) : MaskingOutput :=
  if !env.visopts.skip_receptor_output then
    match remove_residues env with
    | .error e => ⟨some (.error e), none⟩
    | .ok files =>
      ⟨some (.ok files),
        if !env.visopts.skip_ligand_output then some (remove_ligand_atoms env) else none⟩
  else
    ⟨none, if !env.visopts.skip_ligand_output then some (remove_ligand_atoms env) else none⟩

/-! ## Notions used in the statements

Readings of the texts and of the results above that the theorems are phrased with. -/

/-- The records `modify_pdbqt` looks at: the lines holding `ATOM`. -/
def atom_records (mol_string : Str) : List Str := (getlines mol_string).filter hasATOM

/-- Lines written one after the other, each closed by a newline. -/
def unlines (ls : List Str) : Str := (ls.map (fun l => l ++ ['\n'])).flatten

/-- Whether the spatial key of a record is in the removal set. -/
def key_removed (atoms_to_remove : List Str) (line : Str) : Bool :=
  match get_xyz line with
  | .ok xyz => decide (xyz ∈ atoms_to_remove)
  | .error _ => false

/-- The index `modify_pdbqt` reads from a record. -/
def index7 (line : Str) : Except Fault Int :=
  match substr line 7 5 with
  | .error e => .error e
  | .ok index_string => stoi index_string

/-- Whether the index of a record, as `modify_pdbqt` reads it, is in the removal set. -/
def idx_removed (atoms_to_remove : List Int) (line : Str) : Bool :=
  match index7 line with
  | .ok i => decide (i ∈ atoms_to_remove)
  | .error _ => false

/-- The index `remove_each_atom` and `write_scores` read from a record. -/
def index6 (line : Str) : Except Fault Int :=
  match substr line 6 5 with
  | .error e => .error e
  | .ok index_string => stoi index_string

/-- Every `ATOM` line reaches the last coordinate column read by `get_xyz`. -/
def keyed_records (mol_string : Str) : Bool :=
  (atom_records mol_string).all (fun l => decide (48 ≤ l.length))

/-- Every `ATOM` line carries a number in the columns `modify_pdbqt` reads as index. -/
def indexed_records (mol_string : Str) : Bool :=
  (atom_records mol_string).all (fun l => (index7 l).toBool)

/-- The marker line `ROOT` as `std::getline` reads it back. -/
def ROOT_line : Str := ['R', 'O', 'O', 'T']

/-- The marker line `ENDROOT`. -/
def ENDROOT_line : Str := ['E', 'N', 'D', 'R', 'O', 'O', 'T']

/-- The marker line `TORSDOF 0`. -/
def TORSDOF0_line : Str := ['T', 'O', 'R', 'S', 'D', 'O', 'F', ' ', '0']

/-- The lines of a built structure without its first line and its last two lines. -/
def strip_markers (out : Str) : List Str := ((getlines out).drop 1).dropLast.dropLast

/-- Loop of `add_adjacent_hydrogens` over the members `todo`, in a set that never has to
rehash. -/
def unbounded_hydrogens_loop (mol : OBMol) : List Int → List Int → Except Fault (List Int)
  | [], atoms_to_remove => .ok atoms_to_remove
  | i :: todo, atoms_to_remove =>
    match mol.GetAtom i with
    | none => .error .null_atom
    | some _ =>
      unbounded_hydrogens_loop mol todo
        (((mol.neighbors i).filter mol.is_hydrogen).foldl (fun s j => set_insert j s)
          atoms_to_remove)

/-- The members of a set together with the hydrogens bonded to them: what
`add_adjacent_hydrogens` gives in a set that never has to rehash. -/
def unbounded_hydrogens (env : Session) (atoms_to_remove : List Int) (isRec : Bool) :
    Except Fault (List Int) :=
  let mol := env.AddHydrogens (if isRec then env.rec_mol else env.lig_mol)
  unbounded_hydrogens_loop mol atoms_to_remove atoms_to_remove

/-- The two ends of every bond of a path, shifted by one: the core of the path. -/
def unbounded_core (rdkit_mol : RWMol) : List Nat → List Int → Except Fault (List Int)
  | [], atoms_to_remove => .ok atoms_to_remove
  | b :: bond_list, atoms_to_remove =>
    match rdkit_mol.getBondWithIdx b with
    | .error e => .error e
    | .ok bond =>
      unbounded_core rdkit_mol bond_list
        (set_insert ((bond.2 : Int) + 1) (set_insert ((bond.1 : Int) + 1) atoms_to_remove))

/-- The unit of a path in a set that never has to rehash: the core, the core with its
hydrogens, and the score of the ligand without them. -/
def unbounded_unit (env : Session) (rdkit_mol : RWMol) (bond_list : List Nat) :
    Except Fault FragmentUnit :=
  match unbounded_core rdkit_mol bond_list [] with
  | .error e => .error e
  | .ok core =>
    match unbounded_hydrogens env core false with
    | .error e => .error e
    | .ok atoms_to_remove =>
      match modify_pdbqt_idx atoms_to_remove env.lig_string with
      | .error e => .error e
      | .ok modified_ligand =>
        match (score_modified_ligand env modified_ligand).result with
        | .error e => .error e
        | .ok score => .ok ⟨core.length, atoms_to_remove, score⟩

/-- The loop over all paths with the units of a set that never has to rehash. -/
def unbounded_loop (env : Session) (rdkit_mol : RWMol) :
    List (List Nat) → List ℚ × List Int → Except Fault (List ℚ × List Int)
  | [], st => .ok st
  | bond_list :: rest, st =>
    match unbounded_unit env rdkit_mol bond_list with
    | .error e => .error e
    | .ok u =>
      match accumulate ((env.original_score - u.score) / (u.size_without_hydrogens : ℚ))
          u.atoms_to_remove st with
      | .error e => .error e
      | .ok st' => unbounded_loop env rdkit_mol rest st'

/-- The fragment pass with the units of a set that never has to rehash. -/
def unbounded_pass (env : Session) (rdkit_mol : RWMol)
    (paths : List (Nat × List (List Nat))) : Except Fault (List ℚ) :=
  let lig_mol_h := env.AddHydrogens env.lig_mol
  match unbounded_loop env rdkit_mol (all_paths paths)
      (List.replicate (lig_mol_h.NumAtoms + 1) 0, List.replicate (lig_mol_h.NumAtoms + 1) 0) with
  | .error e => .error e
  | .ok (score_diffs, score_counts) =>
    average_loop score_diffs score_counts (List.range rdkit_mol.numAtoms)
      (List.replicate (env.lig_mol.NumAtoms + 1) 0)

/-- The removal set of a path, hydrogens included (empty when the turn faults). -/
def removal_set (env : Session) (rdkit_mol : RWMol) (bond_list : List Nat) : List Int :=
  match unbounded_unit env rdkit_mol bond_list with
  | .ok u => u.atoms_to_remove
  | .error _ => []

/-- The share a path gives to each member of its removal set: baseline minus perturbed
score, over the size of the core before hydrogens. -/
def unit_share (env : Session) (rdkit_mol : RWMol) (bond_list : List Nat) : ℚ :=
  match unbounded_unit env rdkit_mol bond_list with
  | .ok u => (env.original_score - u.score) / (u.size_without_hydrogens : ℚ)
  | .error _ => 0

/-- The paths whose removal set holds the atom index `a`. -/
def touching (env : Session) (rdkit_mol : RWMol) (units : List (List Nat)) (a : Nat) :
    List (List Nat) :=
  units.filter (fun u => decide ((a : Int) ∈ removal_set env rdkit_mol u))

/-- Every path of the enumeration gets through the first half of its turn. -/
def fragments_scored (env : Session) (rdkit_mol : RWMol)
    (paths : List (Nat × List (List Nat))) : Bool :=
  (all_paths paths).all (fun u => (unbounded_unit env rdkit_mol u).toBool)

/-- The capacity of the cleared set once one member is inserted into it. -/
def capacity_after_one (env : Session) (capacity : Nat) : Nat :=
  (insert_rehashing env 0 ([], capacity)).2

/-- No removal set of the enumeration has more members than `atoms_to_remove` holds without
rehashing once a member is inserted into it: no insertion made by `add_adjacent_hydrogens`
rehashes the set. -/
def fragments_fit (env : Session) (rdkit_mol : RWMol)
    (paths : List (Nat × List (List Nat))) : Bool :=
  (all_paths paths).all (fun u =>
    decide ((removal_set env rdkit_mol u).length ≤ capacity_after_one env env.set_capacity))

/-- The score `remove_each_atom` obtains for the heavy atom of index `atom_index`: the
ligand without that atom and the hydrogens bonded to it, from the default-constructed
set. -/
def single_removal_score (env : Session) (atom_index : Int) : Except Fault ℚ :=
  match removal_score env env.set_capacity atom_index with
  | .error e => .error e
  | .ok (score_val, _) => .ok score_val

/-- What `remove_each_atom` does with an `ATOM` line: `none` when the line is skipped (a
hydrogen), else the index at which it stores and the score it obtained. -/
def single_turn (env : Session) (line : Str) : Except Fault (Option (Int × ℚ)) :=
  match index6 line with
  | .error e => .error e
  | .ok atom_index =>
    match env.lig_mol.GetAtom atom_index with
    | none => .error .null_atom
    | some atom =>
      if atom.atomic_num ≠ 1 then
        match single_removal_score env atom_index with
        | .error e => .error e
        | .ok score_val => .ok (some (atom_index, score_val))
      else .ok none

/-- Every `ATOM` line of the ligand gets through its turn of `remove_each_atom`, and every
index at which a delta is stored is below the size of the vector. -/
def single_turns_in_bounds (env : Session) : Bool :=
  (atom_records env.lig_string).all (fun l =>
    match single_turn env l with
    | .ok (some (i, _)) => decide (i.toNat < (env.AddHydrogens env.lig_mol).NumAtoms)
    | .ok none => true
    | .error _ => false)

/-- Whether `write_additivity` adds the entry of index `i` to a total. -/
def counted_in_total (env : Session) (i : Nat) : Bool :=
  decide (i ≤ env.lig_mol.NumAtoms) &&
    match env.lig_mol.GetAtom (i : Int) with
    | some atom => decide (atom.atomic_num ≠ 1)
    | none => false

/-- Whether the spatial key of a line is a key of the map. -/
def key_found (scores : ScoreMap) (line : Str) : Bool :=
  match get_xyz line with
  | .ok xyz => (map_find scores xyz).isSome
  | .error _ => false

/-- The atom records of a text whose key is a key of the map: the final `found_count`. -/
def found_records (scores : ScoreMap) (mol_string : Str) : Nat :=
  ((getlines mol_string).filter (fun l => is_atom_line l && key_found scores l)).length

/-- Whether the score assigned to an atom record is not zero. -/
def annotated_nonzero (scores : ScoreMap) (line : Str) : Bool :=
  match get_xyz line with
  | .ok xyz => decide ((map_find scores xyz).getD 0 ≠ 0)
  | .error _ => false

/-- The number of atom records that get a nonzero score. -/
def nonzero_annotations (scores : ScoreMap) (mol_string : Str) : Nat :=
  ((getlines mol_string).filter (fun l => is_atom_line l && annotated_nonzero scores l)).length

/-- The number of keys of the map whose entry is not zero. -/
def nonzero_entries (scores : ScoreMap) : Nat :=
  ((scores.map (fun p => p.1)).dedup.filter
    (fun k => decide ((map_find scores k).getD 0 ≠ 0))).length

/-- Every atom record reaches the element column and carries a number in its index
columns. -/
def writable_records (mol_string : Str) : Bool :=
  ((getlines mol_string).filter is_atom_line).all
    (fun l => decide (77 ≤ l.length) && (index6 l).toBool)

/-- Every key of the set leads to an atom of `rec_mol`. -/
def keys_resolve (env : Session) (atom_xyzs : List Str) : Bool :=
  atom_xyzs.all (fun k => (receptor_atom env k).toBool)

/-- The atoms of `rec_mol` that stand behind a spatial key: for every atom record of the
receptor text with that key, the atom whose index is the serial number of the record,
columns 7 to 11. -/
def record_atoms (env : Session) (xyz : Str) : List OBAtom :=
  ((getlines env.rec_string).filter is_atom_line).filterMap (fun l =>
    if get_xyz l = .ok xyz then
      match index6 l with
      | .ok i => env.rec_mol.GetAtom i
      | .error _ => none
    else none)

/-- Inside the box in exact arithmetic: on every axis the distance to the centre is below
half the box size. -/
def inside_box (env : Session) (atom : OBAtom) : Prop :=
  |atom.x - env.cenCoords.1| < env.visopts.box_size / 2 ∧
  |atom.y - env.cenCoords.2.1| < env.visopts.box_size / 2 ∧
  |atom.z - env.cenCoords.2.2| < env.visopts.box_size / 2

/-- Strictly between the two bounds of one axis as single precision gives them: the centre
coordinate and half the box size are rounded to single precision, and so are their
difference and their sum. -/
def between_float_bounds (a c half : ℚ) : Prop :=
  double_gt a (float_sub (round_float c) (round_float half)) = true ∧
  double_lt a (float_add (round_float c) (round_float half)) = true

/-- Inside the box whose bounds are computed in single precision, on all three axes. -/
def inside_float_box (env : Session) (atom : OBAtom) : Prop :=
  between_float_bounds atom.x env.cenCoords.1 (env.visopts.box_size / 2) ∧
  between_float_bounds atom.y env.cenCoords.2.1 (env.visopts.box_size / 2) ∧
  between_float_bounds atom.z env.cenCoords.2.2 (env.visopts.box_size / 2)

/-- The spatial keys of the `ATOM` lines of a text. -/
def record_keys (mol_string : Str) : List Str :=
  (atom_records mol_string).filterMap (fun l => (get_xyz l).toOption)

/-- All the spatial keys held by a collection of residues. -/
def flat_keys (residues : List (Str × List Str)) : List Str :=
  (residues.map (fun r => r.2)).flatten

/-- The text of a serial number printed right-justified in five columns. -/
def serial_field (n : Nat) : Str := right_aligned 5 ' ' (Nat.toDigits 10 n)

/-- The coordinate fields of a record: PDB columns 31 to 38, 39 to 46 and 47 to 54. -/
def coordinate_fields (line : Str) : Except Fault (Str × Str × Str) :=
  match substr line 30 8 with
  | .error e => .error e
  | .ok x =>
    match substr line 38 8 with
    | .error e => .error e
    | .ok y =>
      match substr line 46 8 with
      | .error e => .error e
      | .ok z => .ok (x, y, z)

/-- The score `write_scores` assigns to a record: the entry of its spatial key, zero when
the map has none. -/
def record_score (scores : ScoreMap) (line : Str) : ℚ :=
  match get_xyz line with
  | .ok xyz => (map_find scores xyz).getD 0
  | .error _ => 0

/-- The score field of a record in file `i` (`0` narrow, `1` extended). -/
def score_field (scores : ScoreMap) (i : Nat) (line : Str) : Str :=
  resize (fixed5 (record_score scores line)) (if i = 0 then 5 else 7)

/-- The line of file `i` that stands for a line of the structure: an atom record with the
score field put in place of the columns 61 to 65, any other line as it is. -/
def written_line (scores : ScoreMap) (i : Nat) (line : Str) : Str :=
  if is_atom_line line then line.take 61 ++ score_field scores i line ++ line.drop 66
  else line

/-- The spatial keys of the atom records of a text, `ATOM` and `HETATM` lines alike, which
are the lines `write_scores` and the identity index visit. -/
def written_keys (mol_string : Str) : List Str :=
  ((getlines mol_string).filter is_atom_line).filterMap (fun l => (get_xyz l).toOption)

/-- The map from index to spatial key that `get_xyz_from_index` fills from a text. -/
def index_map (mol_string : Str) : Except Fault (List (Int × Str)) :=
  xyz_index_loop (getlines mol_string) []

/-- Both maps of `get_xyz_from_index` get filled: every atom record of the two texts
carries the columns read. -/
def identity_index_builds (env : Session) : Bool :=
  (index_map env.lig_string).toBool && (index_map env.rec_string).toBool

/-- Whether an index is one the identity index tracks for the receptor or the ligand. -/
def index_tracked (env : Session) (i : Int) (isRec : Bool) : Bool :=
  match index_map (if isRec then env.rec_string else env.lig_string) with
  | .ok indices => (map_find indices i).isSome
  | .error _ => false

/-- The spatial key and the index the identity index reads from each atom record of a text,
in the order of the records. -/
def index_pairs (lines : List Str) : List (Str × Int) :=
  (lines.filter is_atom_line).filterMap (fun l =>
    match get_xyz l, index7 l with
    | .ok k, .ok i => some (k, i)
    | _, _ => none)

/-- Every atom record of a text carries the columns the identity index reads. -/
def index_readable (lines : List Str) : Bool :=
  (lines.filter is_atom_line).all (fun l => (get_xyz l).toBool && (index7 l).toBool)

/-- A number printed with three decimals: a minus sign or none, digits, a point, three
digits. -/
def decimal_text (t : Str) : Bool :=
  let u := if t.head? = some '-' then t.tail else t
  !(u.takeWhile Char.isDigit).isEmpty && (u.dropWhile Char.isDigit).head? = some '.'
    && (u.dropWhile Char.isDigit).tail.length = 3
    && (u.dropWhile Char.isDigit).tail.all Char.isDigit

/-- A coordinate field: blanks, then a number printed with three decimals. -/
def coordinate_text (f : Str) : Bool := decimal_text (f.dropWhile (fun c => c = ' '))

/-! ## Concrete inputs

A chain of three carbons whose middle one carries a hydrogen (baseline score 5), carbon
dioxide (no hydrogen to add), methanol (three hydrogens to add), 1-butanol and
N-methylbutylamine (15 and 20 atoms once the hydrogens are added), receptors of one and of
two residues, a receptor atom at the margin of the box, records at mirrored coordinates and
records with a serial number of five digits. -/

/-- The capacities that `libstdc++` gives a `std::unordered_set<int>` which grows by single
insertions: 13 at the first insertion, then 29, 59, 127 and so on, each the first number of
its table that is at least twice the one before; the table is followed as far as 2357. -/
def libstdcxx_rehash (capacity n : Nat) : Nat :=
  ([13, 29, 59, 127, 257, 541, 1109, 2357].find?
    (fun p => decide (max n (2 * capacity) ≤ p))).getD (2 * max n capacity + 1)

/-- A carbon, its position left at the origin. -/
def carbon : OBAtom := ⟨6, 0, 0, 0⟩

/-- A hydrogen, its position left at the origin. -/
def hydrogen : OBAtom := ⟨1, 0, 0, 0⟩

/-- An oxygen, its position left at the origin. -/
def oxygen : OBAtom := ⟨8, 0, 0, 0⟩

/-- The chain `C1 - C2(-H4) - C3`. -/
def sample_lig_mol : OBMol := ⟨[carbon, carbon, carbon, hydrogen], [(1, 2), (2, 3), (2, 4)]⟩

/-- The four records of the chain. -/
def sample_lig_string : Str :=
  "ROOT\nATOM      1  C1  LIG A   1       0.000   0.000   0.000  0.00  0.00    +0.000 C \nATOM      2  C2  LIG A   1       1.500   0.000   0.000  0.00  0.00    +0.000 C \nATOM      3  C3  LIG A   1       3.000   0.000   0.000  0.00  0.00    +0.000 C \nATOM      4  H4  LIG A   1       1.500   1.000   0.000  0.00  0.00    +0.000 HD\nENDROOT\nTORSDOF 0".toList

/-- A scorer that looks at which of the end carbons are left in the text. -/
def sample_scorer (s : Str) : ℚ × ℚ :=
  if (find s ['C', '1']).isSome ∧ (find s ['C', '3']).isSome then (3, 0)
  else if (find s ['C', '3']).isSome then (4, 0)
  else if (find s ['C', '1']).isSome then (2, 0)
  else (1, 0)

/-- The heavy-atom chain as RDKit sees it. -/
def sample_rdkit : RWMol := ⟨3, [(0, 1), (1, 2)]⟩

/-- The paths of length one of the chain: its two bonds. -/
def sample_paths : List (Nat × List (List Nat)) := [(1, [[0], [1]])]

/-- The session of the chain, target `pose`, no hydrogen left to add. -/
def sample_session : Session where
  visopts := ⟨pose, 10, false, false, false, [], false, false, []⟩
  lig_mol := sample_lig_mol
  rec_mol := ⟨[], []⟩
  lig_string := sample_lig_string
  rec_string := []
  original_score := 5
  cenCoords := (0, 0, 0)
  AddHydrogens := fun m => m
  ligand_scorer := sample_scorer
  receptor_scorer := fun _ => (0, 0)
  cnn_model := []
  cnn_weights := []
  print_float := fun _ => []
  to_rdkit := fun _ => sample_rdkit
  findAllSubgraphsOfLengthsMtoN := fun _ _ _ => sample_paths
  set_capacity := 0
  set_rehash := libstdcxx_rehash

/-- The molecule `O1 = C2 = O3`. -/
def co2_mol : OBMol := ⟨[oxygen, carbon, oxygen], [(1, 2), (2, 3)]⟩

/-- The three records of carbon dioxide. -/
def co2_string : Str :=
  "ROOT\nATOM      1  O1  LIG A   1      -1.160   0.000   0.000  0.00  0.00    -0.200 OA\nATOM      2  C2  LIG A   1       0.000   0.000   0.000  0.00  0.00    +0.400 C \nATOM      3  O3  LIG A   1       1.160   0.000   0.000  0.00  0.00    -0.200 OA\nENDROOT\nTORSDOF 0".toList

/-- The session of carbon dioxide, target `pose`, baseline score 5. -/
def co2_session : Session where
  visopts := ⟨pose, 10, false, false, false, [], false, false, []⟩
  lig_mol := co2_mol
  rec_mol := ⟨[], []⟩
  lig_string := co2_string
  rec_string := []
  original_score := 5
  cenCoords := (0, 0, 0)
  AddHydrogens := fun m => m
  ligand_scorer := fun _ => (3, 0)
  receptor_scorer := fun _ => (0, 0)
  cnn_model := []
  cnn_weights := []
  print_float := fun _ => []
  to_rdkit := fun _ => ⟨3, [(0, 1), (1, 2)]⟩
  findAllSubgraphsOfLengthsMtoN := fun _ _ _ => [(1, [[0], [1]]), (2, [[0, 1]])]
  set_capacity := 0
  set_rehash := libstdcxx_rehash

/-- A two-atom structure used to exercise the builder: a remark, then two records. -/
def sample_structure : Str :=
  "REMARK  two atoms\nATOM      1  N   ALA A   1      11.104   6.134  -6.504  0.00  0.00    -0.066 N \nATOM      2  CA  ALA A   1      11.639   6.071  -5.147  0.00  0.00    +0.029 C \n".toList

/-- The session of a receptor made of the two-atom sample structure. -/
def sample_rec_session : Session where
  visopts := ⟨pose, 10, false, false, false, [], false, false, []⟩
  lig_mol := ⟨[], []⟩
  rec_mol := ⟨[⟨7, 11104 / 1000, 6134 / 1000, -6504 / 1000⟩,
    ⟨6, 11639 / 1000, 6071 / 1000, -5147 / 1000⟩], [(1, 2)]⟩
  lig_string := []
  rec_string := sample_structure
  original_score := 5
  cenCoords := (11, 6, -6)
  AddHydrogens := fun m => m
  ligand_scorer := fun _ => (0, 0)
  receptor_scorer := fun s => (if (find s ['C', 'A']).isSome then 4 else 3, 0)
  cnn_model := []
  cnn_weights := []
  print_float := fun _ => []
  to_rdkit := fun _ => ⟨0, []⟩
  findAllSubgraphsOfLengthsMtoN := fun _ _ _ => []
  set_capacity := 0
  set_rehash := libstdcxx_rehash

/-- A receptor of two residues: an alanine next to the ligand centre and a glycine far from
it along x. -/
def two_residue_string : Str :=
  "ATOM      1  N   ALA A   1      11.104   6.134  -6.504  0.00  0.00    -0.066 N \nATOM      2  CA  ALA A   1      11.639   6.071  -5.147  0.00  0.00    +0.029 C \nATOM      3  N   GLY A   2      91.104   6.134  -6.504  0.00  0.00    -0.066 N \n".toList

/-- The session of the two-residue receptor: centre `(11, 6, -6)`, box of edge 10, baseline
score 5; the score drops to 3 without the alanine and stays 5 without the glycine. -/
def two_residue_session : Session where
  visopts := ⟨pose, 10, false, false, false, [], false, false, []⟩
  lig_mol := ⟨[], []⟩
  rec_mol := ⟨[⟨7, 11104 / 1000, 6134 / 1000, -6504 / 1000⟩,
    ⟨6, 11639 / 1000, 6071 / 1000, -5147 / 1000⟩,
    ⟨7, 91104 / 1000, 6134 / 1000, -6504 / 1000⟩], [(1, 2)]⟩
  lig_string := []
  rec_string := two_residue_string
  original_score := 5
  cenCoords := (11, 6, -6)
  AddHydrogens := fun m => m
  ligand_scorer := fun _ => (0, 0)
  receptor_scorer := fun s => (if (find s ['A', 'L', 'A']).isSome then 5 else 3, 0)
  cnn_model := []
  cnn_weights := []
  print_float := fun _ => []
  to_rdkit := fun _ => ⟨0, []⟩
  findAllSubgraphsOfLengthsMtoN := fun _ _ _ => []
  set_capacity := 0
  set_rehash := libstdcxx_rehash

/-- Spatial key of the alanine nitrogen. -/
def key_ala_n : Str := "11.1046.134-6.504".toList

/-- Spatial key of the alanine alpha carbon. -/
def key_ala_ca : Str := "11.6396.071-5.147".toList

/-- Spatial key of the glycine nitrogen. -/
def key_gly_n : Str := "91.1046.134-6.504".toList

/-- A record at `z = -16.504`. -/
def mirror_record_below : Str :=
  "ATOM      1  N   ALA A   1      11.104   6.134 -16.504  0.00  0.00    -0.066 N ".toList

/-- A record at the same `x` and `y`, at `z = 16.504`. -/
def mirror_record_above : Str :=
  "ATOM      2  N   ALA A   2      11.104   6.134  16.504  0.00  0.00    -0.066 N ".toList

/-- A record of serial 10001. -/
def record_10001 : Str :=
  "ATOM  10001  CA  ALA A   1      11.639   6.071  -5.147  0.00  0.00    +0.029 C ".toList

/-- A structure holding a record of serial 1 and the record of serial 10001. -/
def wide_serial_string : Str :=
  "ATOM      1  N   ALA A   1      11.104   6.134  -6.504  0.00  0.00    -0.066 N \n".toList
    ++ record_10001 ++ ['\n']

/-- The session of a receptor made of the structure with the serials 1 and 10001. -/
def wide_serial_session : Session :=
  { sample_rec_session with rec_string := wide_serial_string }

/-- A receptor of two residues whose only atoms are the two records that differ in the sign
of `z`: centre `(11, 6, 0)`, box of edge 40, baseline score 5, score 3 once no record is
left. -/
def mirror_session : Session where
  visopts := ⟨pose, 40, false, false, false, [], false, false, []⟩
  lig_mol := ⟨[], []⟩
  rec_mol := ⟨[⟨7, 11104 / 1000, 6134 / 1000, -16504 / 1000⟩,
    ⟨7, 11104 / 1000, 6134 / 1000, 16504 / 1000⟩], []⟩
  lig_string := []
  rec_string := mirror_record_below ++ ['\n'] ++ mirror_record_above ++ ['\n']
  original_score := 5
  cenCoords := (11, 6, 0)
  AddHydrogens := fun m => m
  ligand_scorer := fun _ => (0, 0)
  receptor_scorer := fun s => (if (find s ['A', 'L', 'A']).isSome then 5 else 3, 0)
  cnn_model := []
  cnn_weights := []
  print_float := fun _ => []
  to_rdkit := fun _ => ⟨0, []⟩
  findAllSubgraphsOfLengthsMtoN := fun _ _ _ => []
  set_capacity := 0
  set_rehash := libstdcxx_rehash

/-- Methanol with its polar hydrogen: `C1 - O2 - H3`. -/
def methanol_mol : OBMol := ⟨[carbon, oxygen, hydrogen], [(1, 2), (2, 3)]⟩

/-- Methanol with all its hydrogens: three more on the carbon. -/
def methanol_mol_h : OBMol :=
  ⟨[carbon, oxygen, hydrogen, hydrogen, hydrogen, hydrogen],
    [(1, 2), (2, 3), (1, 4), (1, 5), (1, 6)]⟩

/-- The three records of methanol. -/
def methanol_string : Str :=
  "ROOT\nATOM      1  C1  LIG A   1       0.000   0.000   0.000  0.00  0.00    +0.100 C \nATOM      2  O2  LIG A   1       1.400   0.000   0.000  0.00  0.00    -0.400 OA\nATOM      3  H3  LIG A   1       1.700   0.900   0.000  0.00  0.00    +0.200 HD\nENDROOT\nTORSDOF 0".toList

/-- The session of methanol, target `pose`, baseline score 5: the score is 4 without the
carbon and 2 without the oxygen. -/
def methanol_session : Session where
  visopts := ⟨pose, 10, false, false, false, [], false, false, []⟩
  lig_mol := methanol_mol
  rec_mol := ⟨[], []⟩
  lig_string := methanol_string
  rec_string := []
  original_score := 5
  cenCoords := (0, 0, 0)
  AddHydrogens := fun _ => methanol_mol_h
  ligand_scorer := fun s =>
    (if (find s ['C', '1']).isSome ∧ (find s ['O', '2']).isSome then 5
      else if (find s ['C', '1']).isSome then 2 else 4, 0)
  receptor_scorer := fun _ => (0, 0)
  cnn_model := []
  cnn_weights := []
  print_float := fun _ => []
  to_rdkit := fun _ => ⟨2, [(0, 1)]⟩
  findAllSubgraphsOfLengthsMtoN := fun _ _ _ => [(1, [[0]])]
  set_capacity := 0
  set_rehash := libstdcxx_rehash

/-- A nitrogen, its position left at the origin. -/
def nitrogen : OBAtom := ⟨7, 0, 0, 0⟩

/-- The molecule 1-butanol with its polar hydrogen: `O1 - C2 - C3 - C4 - C5` and `H6` on the
oxygen. -/
def butanol_mol : OBMol :=
  ⟨[oxygen, carbon, carbon, carbon, carbon, hydrogen], [(1, 2), (2, 3), (3, 4), (4, 5), (1, 6)]⟩

/-- The molecule 1-butanol with all its hydrogens: `H7`, `H8` on `C2`, `H9`, `H10` on `C3`,
`H11`, `H12` on `C4` and `H13`, `H14`, `H15` on `C5`. -/
def butanol_mol_h : OBMol :=
  ⟨[oxygen, carbon, carbon, carbon, carbon, hydrogen, hydrogen, hydrogen, hydrogen, hydrogen,
      hydrogen, hydrogen, hydrogen, hydrogen, hydrogen],
    [(1, 2), (2, 3), (3, 4), (4, 5), (1, 6), (2, 7), (2, 8), (3, 9), (3, 10), (4, 11),
      (4, 12), (5, 13), (5, 14), (5, 15)]⟩

/-- The six records of 1-butanol. -/
def butanol_string : Str :=
  "ROOT\nATOM      1  O1  LIG A   1       0.000   0.000   0.000  0.00  0.00    -0.400 OA\nATOM      2  C2  LIG A   1       1.400   0.000   0.000  0.00  0.00    +0.100 C \nATOM      3  C3  LIG A   1       2.900   0.000   0.000  0.00  0.00    +0.000 C \nATOM      4  C4  LIG A   1       4.400   0.000   0.000  0.00  0.00    +0.000 C \nATOM      5  C5  LIG A   1       5.900   0.000   0.000  0.00  0.00    +0.000 C \nATOM      6  H6  LIG A   1      -0.300   0.900   0.000  0.00  0.00    +0.200 HD\nENDROOT\nTORSDOF 0".toList

/-- The heavy atoms of 1-butanol as RDKit sees them. -/
def butanol_rdkit : RWMol := ⟨5, [(0, 1), (1, 2), (2, 3), (3, 4)]⟩

/-- The ten connected groups of bonds of 1-butanol, by number of bonds. -/
def butanol_paths : List (Nat × List (List Nat)) :=
  [(1, [[0], [1], [2], [3]]), (2, [[0, 1], [1, 2], [2, 3]]), (3, [[0, 1, 2], [1, 2, 3]]),
    (4, [[0, 1, 2, 3]])]

/-- The session of 1-butanol, target `pose`: the score is half the number of `ATOM` records
of the text, 3 for the whole ligand. -/
def butanol_session : Session where
  visopts := ⟨pose, 10, false, false, false, [], false, false, []⟩
  lig_mol := butanol_mol
  rec_mol := ⟨[], []⟩
  lig_string := butanol_string
  rec_string := []
  original_score := 3
  cenCoords := (0, 0, 0)
  AddHydrogens := fun _ => butanol_mol_h
  ligand_scorer := fun s => (((atom_records s).length : ℚ) / 2, 0)
  receptor_scorer := fun _ => (0, 0)
  cnn_model := []
  cnn_weights := []
  print_float := fun _ => []
  to_rdkit := fun _ => butanol_rdkit
  findAllSubgraphsOfLengthsMtoN := fun _ _ _ => butanol_paths
  set_capacity := 0
  set_rehash := libstdcxx_rehash

/-- The molecule N-methylbutylamine with its polar hydrogens:
`C1 - N2 - C3 - C4 - C5 - C6` and `H7`, `H8` on the nitrogen. -/
def amine_mol : OBMol :=
  ⟨[carbon, nitrogen, carbon, carbon, carbon, carbon, hydrogen, hydrogen],
    [(1, 2), (2, 3), (3, 4), (4, 5), (5, 6), (2, 7), (2, 8)]⟩

/-- The molecule N-methylbutylamine with all its hydrogens: `H9`, `H10`, `H11` on `C1`,
`H12`, `H13` on `C3`, `H14`, `H15` on `C4`, `H16`, `H17` on `C5` and `H18`, `H19`, `H20` on
`C6`. -/
def amine_mol_h : OBMol :=
  ⟨[carbon, nitrogen, carbon, carbon, carbon, carbon, hydrogen, hydrogen, hydrogen, hydrogen,
      hydrogen, hydrogen, hydrogen, hydrogen, hydrogen, hydrogen, hydrogen, hydrogen,
      hydrogen, hydrogen],
    [(1, 2), (2, 3), (3, 4), (4, 5), (5, 6), (2, 7), (2, 8), (1, 9), (1, 10), (1, 11),
      (3, 12), (3, 13), (4, 14), (4, 15), (5, 16), (5, 17), (6, 18), (6, 19), (6, 20)]⟩

/-- The eight records of N-methylbutylamine. -/
def amine_string : Str :=
  "ROOT\nATOM      1  C1  LIG A   1       0.000   0.000   0.000  0.00  0.00    +0.100 C \nATOM      2  N2  LIG A   1       1.500   0.000   0.000  0.00  0.00    -0.300 N \nATOM      3  C3  LIG A   1       3.000   0.000   0.000  0.00  0.00    +0.100 C \nATOM      4  C4  LIG A   1       4.500   0.000   0.000  0.00  0.00    +0.000 C \nATOM      5  C5  LIG A   1       6.000   0.000   0.000  0.00  0.00    +0.000 C \nATOM      6  C6  LIG A   1       7.500   0.000   0.000  0.00  0.00    +0.000 C \nATOM      7  H7  LIG A   1       1.500   1.000   0.000  0.00  0.00    +0.200 HD\nATOM      8  H8  LIG A   1       1.500  -1.000   0.000  0.00  0.00    +0.200 HD\nENDROOT\nTORSDOF 0".toList

/-- The heavy atoms of N-methylbutylamine as RDKit sees them. -/
def amine_rdkit : RWMol := ⟨6, [(0, 1), (1, 2), (2, 3), (3, 4), (4, 5)]⟩

/-- The fifteen connected groups of bonds of N-methylbutylamine, by number of bonds, each
length from the methyl end on. -/
def amine_paths : List (Nat × List (List Nat)) :=
  [(1, [[0], [1], [2], [3], [4]]), (2, [[0, 1], [1, 2], [2, 3], [3, 4]]),
    (3, [[0, 1, 2], [1, 2, 3], [2, 3, 4]]), (4, [[0, 1, 2, 3], [1, 2, 3, 4]]),
    (5, [[0, 1, 2, 3, 4]])]

/-- The same fifteen groups, each length from the butyl end on. -/
def amine_paths_reversed : List (Nat × List (List Nat)) :=
  [(1, [[4], [3], [2], [1], [0]]), (2, [[3, 4], [2, 3], [1, 2], [0, 1]]),
    (3, [[2, 3, 4], [1, 2, 3], [0, 1, 2]]), (4, [[1, 2, 3, 4], [0, 1, 2, 3]]),
    (5, [[0, 1, 2, 3, 4]])]

/-- The session of N-methylbutylamine, target `pose`: the score is half the number of `ATOM`
records of the text, 4 for the whole ligand. -/
def amine_session : Session where
  visopts := ⟨pose, 10, false, false, false, [], false, false, []⟩
  lig_mol := amine_mol
  rec_mol := ⟨[], []⟩
  lig_string := amine_string
  rec_string := []
  original_score := 4
  cenCoords := (0, 0, 0)
  AddHydrogens := fun _ => amine_mol_h
  ligand_scorer := fun s => (((atom_records s).length : ℚ) / 2, 0)
  receptor_scorer := fun _ => (0, 0)
  cnn_model := []
  cnn_weights := []
  print_float := fun _ => []
  to_rdkit := fun _ => amine_rdkit
  findAllSubgraphsOfLengthsMtoN := fun _ _ _ => amine_paths
  set_capacity := 0
  set_rehash := libstdcxx_rehash

/-- A receptor of one atom at `x = 15.45`, the coordinate being the double nearest to that
number. -/
def margin_string : Str :=
  "ATOM      1  N   ALA A   1      15.450   6.134  -6.504  0.00  0.00    -0.066 N \n".toList

/-- Spatial key of the atom at the margin. -/
def key_margin : Str := "15.4506.134-6.504".toList

/-- The session of the atom at the margin: the centre has the single-precision value
nearest to 3.7 as its `x`, and the box has edge 23.5, so that the atom is closer to the
centre than 11.75 on every axis. -/
def margin_session : Session where
  visopts := ⟨pose, 47 / 2, false, false, false, [], false, false, []⟩
  lig_mol := ⟨[], []⟩
  rec_mol := ⟨[⟨7, 4348788390179635 / 281474976710656, 6134 / 1000, -6504 / 1000⟩], []⟩
  lig_string := []
  rec_string := margin_string
  original_score := 5
  cenCoords := (15518925 / 4194304, 6, -6)
  AddHydrogens := fun m => m
  ligand_scorer := fun _ => (0, 0)
  receptor_scorer := fun _ => (3, 0)
  cnn_model := []
  cnn_weights := []
  print_float := fun _ => []
  to_rdkit := fun _ => ⟨0, []⟩
  findAllSubgraphsOfLengthsMtoN := fun _ _ _ => []
  set_capacity := 0
  set_rehash := libstdcxx_rehash

/-- The text `"energy"`, which names no scoring target. -/
def energy : Str := ['e', 'n', 'e', 'r', 'g', 'y']

/-- The two-residue receptor with the chain as ligand and the target `"energy"`, as the
members stand when `setup` reaches the branch on the target. -/
def unknown_target_session : Session :=
  { two_residue_session with
    visopts := ⟨energy, 10, false, false, false, [], false, false, []⟩
    lig_mol := sample_lig_mol
    lig_string := sample_lig_string
    ligand_scorer := sample_scorer
    to_rdkit := fun _ => sample_rdkit
    findAllSubgraphsOfLengthsMtoN := fun _ _ _ => sample_paths }

/-! ## Theorems -/

theorem getlinesAux_no_newline (s acc : Str) (hacc : '\n' ∉ acc) :
    ∀ l ∈ getlinesAux s acc, '\n' ∉ l := by
  induction s generalizing acc with
  | nil =>
    cases acc with
    | nil => simp [getlinesAux]
    | cons c acc =>
      intro l hl
      simp only [getlinesAux, List.mem_singleton] at hl
      subst hl
      intro h
      exact hacc (List.mem_reverse.mp h)
  | cons c cs ih =>
    intro l hl
    by_cases hc : c = '\n'
    · simp only [getlinesAux, hc, if_true, List.mem_cons] at hl
      rcases hl with rfl | hl
      · simpa using hacc
      · exact ih [] (by simp) l hl
    · simp only [getlinesAux, hc, if_false] at hl
      exact ih (c :: acc) (by simp [hacc, Ne.symm hc]) l hl

theorem getlines_no_newline (s : Str) : ∀ l ∈ getlines s, '\n' ∉ l :=
  getlinesAux_no_newline s [] (by simp)

theorem getlinesAux_line (l rest acc : Str) (hl : '\n' ∉ l) :
    getlinesAux (l ++ '\n' :: rest) acc = (acc.reverse ++ l) :: getlinesAux rest [] := by
  induction l generalizing acc with
  | nil => simp [getlinesAux]
  | cons c cs ih =>
    have hc : c ≠ '\n' := fun h => hl (by simp [h])
    have hcs : '\n' ∉ cs := fun h => hl (by simp [h])
    have := ih (c :: acc) hcs
    simpa [getlinesAux, hc] using this

theorem getlines_unlines_append (ls : List Str) (rest : Str) (h : ∀ l ∈ ls, '\n' ∉ l) :
    getlines (unlines ls ++ rest) = ls ++ getlines rest := by
  induction ls with
  | nil => simp [unlines]
  | cons l ls ih =>
    have h1 : '\n' ∉ l := h l (by simp)
    have h2 : ∀ x ∈ ls, '\n' ∉ x := fun x hx => h x (by simp [hx])
    have e : unlines (l :: ls) ++ rest = l ++ '\n' :: (unlines ls ++ rest) := by
      simp [unlines]
    rw [e, getlines, getlinesAux_line l _ [] h1]
    simp only [List.reverse_nil, List.nil_append, List.cons_append, List.cons.injEq, true_and]
    exact ih h2

theorem getlines_unlines (ls : List Str) (h : ∀ l ∈ ls, '\n' ∉ l) :
    getlines (unlines ls) = ls := by
  have := getlines_unlines_append ls [] h
  simpa [getlines, getlinesAux] using this

theorem get_xyz_ok (line : Str) (h : 48 ≤ line.length) : ∃ k, get_xyz line = .ok k := by
  have h1 : 31 ≤ line.length := by omega
  have h2 : 39 ≤ line.length := by omega
  simp [get_xyz, substr, h, h1, h2]

theorem key_loop_eq (rm : List Str) (lines : List Str) (ss : Str)
    (h : ∀ l ∈ lines, hasATOM l = true → 48 ≤ l.length) :
    modify_pdbqt_key_loop rm lines ss =
      .ok (ss ++ unlines (lines.filter (fun l => hasATOM l && !key_removed rm l))) := by
  induction lines generalizing ss with
  | nil => simp [modify_pdbqt_key_loop, unlines]
  | cons l ls ih =>
    have hls : ∀ x ∈ ls, hasATOM x = true → 48 ≤ x.length := fun x hx => h x (by simp [hx])
    by_cases ha : hasATOM l = true
    · obtain ⟨k, hk⟩ := get_xyz_ok l (h l (by simp) ha)
      by_cases hr : k ∈ rm
      · simp [modify_pdbqt_key_loop, ha, hk, hr, key_removed, ih _ hls]
      · simp [modify_pdbqt_key_loop, ha, hk, hr, key_removed, ih _ hls, unlines]
    · simp [modify_pdbqt_key_loop, ha, ih _ hls]

theorem idx_loop_eq (rm : List Int) (lines : List Str) (ss : Str)
    (h : ∀ l ∈ lines, hasATOM l = true → (index7 l).toBool = true) :
    modify_pdbqt_idx_loop rm lines ss =
      .ok (ss ++ unlines (lines.filter (fun l => hasATOM l && !idx_removed rm l))) := by
  induction lines generalizing ss with
  | nil => simp [modify_pdbqt_idx_loop, unlines]
  | cons l ls ih =>
    have hls : ∀ x ∈ ls, hasATOM x = true → (index7 x).toBool = true :=
      fun x hx => h x (by simp [hx])
    by_cases ha : hasATOM l = true
    · have hi := h l (by simp) ha
      cases hs : substr l 7 5 with
      | error e => simp [index7, hs, Except.toBool] at hi
      | ok st =>
        cases hv : stoi st with
        | error e => simp [index7, hs, hv, Except.toBool] at hi
        | ok i =>
          by_cases hr : i ∈ rm
          · simp [modify_pdbqt_idx_loop, ha, hs, hv, hr, idx_removed, index7, ih _ hls]
          · simp [modify_pdbqt_idx_loop, ha, hs, hv, hr, idx_removed, index7, ih _ hls, unlines]
    · simp [modify_pdbqt_idx_loop, ha, ih _ hls]

theorem atom_records_no_newline (s : Str) : ∀ l ∈ atom_records s, '\n' ∉ l := by
  intro l hl
  exact getlines_no_newline s l (List.mem_of_mem_filter hl)

theorem markers_wrap (kept : List Str) :
    ROOT ++ unlines kept ++ ENDROOT ++ TORSDOF0 =
      unlines (ROOT_line :: kept ++ [ENDROOT_line, TORSDOF0_line]) := by
  simp [unlines, ROOT, ENDROOT, TORSDOF0, ROOT_line, ENDROOT_line, TORSDOF0_line]

theorem getlines_wrapped (kept : List Str) (h : ∀ l ∈ kept, '\n' ∉ l) :
    getlines (ROOT ++ unlines kept ++ ENDROOT ++ TORSDOF0) =
      ROOT_line :: kept ++ [ENDROOT_line, TORSDOF0_line] := by
  rw [markers_wrap]
  apply getlines_unlines
  intro l hl
  simp only [List.cons_append, List.mem_cons, List.mem_append, List.mem_singleton,
    List.not_mem_nil, or_false] at hl
  rcases hl with rfl | hl | rfl | rfl
  · decide
  · exact h l hl
  · decide
  · decide

theorem modify_pdbqt_key_eq (rm : List Str) (s : Str) (h : keyed_records s = true) :
    modify_pdbqt_key rm s =
      .ok (ROOT ++ unlines ((atom_records s).filter (fun l => !key_removed rm l))
        ++ ENDROOT ++ TORSDOF0) := by
  have hw : ∀ l ∈ getlines s, hasATOM l = true → 48 ≤ l.length := by
    intro l hl ha
    have := List.all_eq_true.mp h l (List.mem_filter.mpr ⟨hl, ha⟩)
    simpa using this
  simp [modify_pdbqt_key, key_loop_eq rm _ ROOT hw, atom_records, List.filter_filter,
    Bool.and_comm]

theorem modify_pdbqt_idx_eq (rm : List Int) (s : Str) (h : indexed_records s = true) :
    modify_pdbqt_idx rm s =
      .ok (ROOT ++ unlines ((atom_records s).filter (fun l => !idx_removed rm l))
        ++ ENDROOT ++ TORSDOF0) := by
  have hw : ∀ l ∈ getlines s, hasATOM l = true → (index7 l).toBool = true := by
    intro l hl ha
    exact List.all_eq_true.mp h l (List.mem_filter.mpr ⟨hl, ha⟩)
  simp [modify_pdbqt_idx, idx_loop_eq rm _ ROOT hw, atom_records, List.filter_filter,
    Bool.and_comm]

/-- C3: on a structure whose `ATOM` lines carry the columns that are read, both overloads of
`modify_pdbqt` return `ROOT`, then exactly the `ATOM` lines of the source whose spatial key
(resp. index) is not in the removal set, unchanged and in source order, then `ENDROOT` and
`TORSDOF 0`; the markers are there whatever was removed. -/
theorem modify_pdbqt_keeps_exactly (mol_string : Str) (keys : List Str) (idxs : List Int)
    (hk : keyed_records mol_string = true) (hi : indexed_records mol_string = true) :
    (∃ out, modify_pdbqt_key keys mol_string = .ok out ∧
      out = ROOT ++ unlines ((atom_records mol_string).filter (fun l => !key_removed keys l))
        ++ ENDROOT ++ TORSDOF0 ∧
      getlines out = ROOT_line ::
        (atom_records mol_string).filter (fun l => !key_removed keys l)
          ++ [ENDROOT_line, TORSDOF0_line]) ∧
    (∃ out, modify_pdbqt_idx idxs mol_string = .ok out ∧
      out = ROOT ++ unlines ((atom_records mol_string).filter (fun l => !idx_removed idxs l))
        ++ ENDROOT ++ TORSDOF0 ∧
      getlines out = ROOT_line ::
        (atom_records mol_string).filter (fun l => !idx_removed idxs l)
          ++ [ENDROOT_line, TORSDOF0_line]) := by
  refine ⟨⟨_, modify_pdbqt_key_eq keys mol_string hk, rfl, ?_⟩,
    ⟨_, modify_pdbqt_idx_eq idxs mol_string hi, rfl, ?_⟩⟩
  · apply getlines_wrapped
    intro l hl
    exact atom_records_no_newline mol_string l (List.mem_of_mem_filter hl)
  · apply getlines_wrapped
    intro l hl
    exact atom_records_no_newline mol_string l (List.mem_of_mem_filter hl)

theorem sample_structure_keyed : keyed_records sample_structure = true := by decide

theorem sample_structure_indexed : indexed_records sample_structure = true := by decide

/-- C3 at the two-atom sample: removing the key of the first record, and the index `2`. -/
theorem modify_pdbqt_keeps_exactly_witness :
    keyed_records sample_structure = true ∧ indexed_records sample_structure = true ∧
    (∃ out, modify_pdbqt_key ["11.1046.134-6.504".toList] sample_structure = .ok out ∧
      out = ROOT ++ unlines ((atom_records sample_structure).filter
          (fun l => !key_removed ["11.1046.134-6.504".toList] l)) ++ ENDROOT ++ TORSDOF0 ∧
      getlines out = ROOT_line ::
        (atom_records sample_structure).filter
            (fun l => !key_removed ["11.1046.134-6.504".toList] l)
          ++ [ENDROOT_line, TORSDOF0_line]) ∧
    (∃ out, modify_pdbqt_idx [2] sample_structure = .ok out ∧
      out = ROOT ++ unlines ((atom_records sample_structure).filter
          (fun l => !idx_removed [2] l)) ++ ENDROOT ++ TORSDOF0 ∧
      getlines out = ROOT_line ::
        (atom_records sample_structure).filter (fun l => !idx_removed [2] l)
          ++ [ENDROOT_line, TORSDOF0_line]) :=
  ⟨sample_structure_keyed, sample_structure_indexed,
    modify_pdbqt_keeps_exactly sample_structure ["11.1046.134-6.504".toList] [2]
      sample_structure_keyed sample_structure_indexed⟩

/-- C4: with an empty removal set both overloads of `modify_pdbqt` return a text whose
lines, the first and the last two (the markers) taken off, are exactly the `ATOM` lines of
the source, in order. -/
theorem modify_pdbqt_empty_roundtrip (mol_string : Str)
    (hk : keyed_records mol_string = true) (hi : indexed_records mol_string = true) :
    (∃ out, modify_pdbqt_key [] mol_string = .ok out ∧
      getlines out = ROOT_line :: atom_records mol_string ++ [ENDROOT_line, TORSDOF0_line] ∧
      strip_markers out = atom_records mol_string) ∧
    (∃ out, modify_pdbqt_idx [] mol_string = .ok out ∧
      getlines out = ROOT_line :: atom_records mol_string ++ [ENDROOT_line, TORSDOF0_line] ∧
      strip_markers out = atom_records mol_string) := by
  have hn := atom_records_no_newline mol_string
  have e1 : (atom_records mol_string).filter (fun l => !key_removed [] l)
      = atom_records mol_string := by
    apply List.filter_eq_self.mpr
    intro l _
    unfold key_removed
    cases get_xyz l <;> simp
  have e2 : (atom_records mol_string).filter (fun l => !idx_removed [] l)
      = atom_records mol_string := by
    apply List.filter_eq_self.mpr
    intro l _
    unfold idx_removed
    cases index7 l <;> simp
  have hg := getlines_wrapped (atom_records mol_string) hn
  have hs : strip_markers (ROOT ++ unlines (atom_records mol_string) ++ ENDROOT ++ TORSDOF0)
      = atom_records mol_string := by
    unfold strip_markers
    rw [hg]
    have : ROOT_line :: atom_records mol_string ++ [ENDROOT_line, TORSDOF0_line]
        = ROOT_line :: ((atom_records mol_string ++ [ENDROOT_line]) ++ [TORSDOF0_line]) := by
      simp
    rw [this, List.drop_one, List.tail_cons, List.dropLast_concat, List.dropLast_concat]
  refine ⟨⟨_, ?_, hg, hs⟩, ⟨_, ?_, hg, hs⟩⟩
  · rw [modify_pdbqt_key_eq [] mol_string hk, e1]
  · rw [modify_pdbqt_idx_eq [] mol_string hi, e2]

/-- C4 at the two-atom sample. -/
theorem modify_pdbqt_empty_roundtrip_witness :
    keyed_records sample_structure = true ∧ indexed_records sample_structure = true ∧
    (∃ out, modify_pdbqt_key [] sample_structure = .ok out ∧
      getlines out =
        ROOT_line :: atom_records sample_structure ++ [ENDROOT_line, TORSDOF0_line] ∧
      strip_markers out = atom_records sample_structure) ∧
    (∃ out, modify_pdbqt_idx [] sample_structure = .ok out ∧
      getlines out =
        ROOT_line :: atom_records sample_structure ++ [ENDROOT_line, TORSDOF0_line] ∧
      strip_markers out = atom_records sample_structure) :=
  ⟨sample_structure_keyed, sample_structure_indexed,
    modify_pdbqt_empty_roundtrip sample_structure sample_structure_keyed
      sample_structure_indexed⟩

/-! ### Sets and vectors -/

theorem mem_set_insert {α : Type} [DecidableEq α] (a x : α) (s : List α) :
    x ∈ set_insert a s ↔ x = a ∨ x ∈ s := by
  unfold set_insert
  by_cases h : a ∈ s
  · simp only [h, if_true]
    constructor
    · exact Or.inr
    · rintro (rfl | hx)
      · exact h
      · exact hx
  · simp [h, or_comm]

theorem set_insert_nodup {α : Type} [DecidableEq α] (a : α) (s : List α) (h : s.Nodup) :
    (set_insert a s).Nodup := by
  unfold set_insert
  by_cases ha : a ∈ s
  · simpa [ha] using h
  · simp only [ha, if_false]
    rw [List.nodup_append]
    refine ⟨h, List.nodup_singleton a, ?_⟩
    intro x hx hx'
    simp only [List.mem_singleton] at hx'
    subst hx'
    exact ha hx

theorem foldl_set_insert_nodup {α : Type} [DecidableEq α] (js : List α) (s : List α)
    (h : s.Nodup) : (js.foldl (fun s j => set_insert j s) s).Nodup := by
  induction js generalizing s with
  | nil => simpa using h
  | cons j js ih => exact ih _ (set_insert_nodup j s h)

theorem mem_foldl_set_insert {α : Type} [DecidableEq α] (js : List α) (s : List α) (x : α) :
    x ∈ js.foldl (fun s j => set_insert j s) s ↔ x ∈ js ∨ x ∈ s := by
  induction js generalizing s with
  | nil => simp
  | cons j js ih =>
    simp only [List.foldl_cons, ih, mem_set_insert, List.mem_cons]
    tauto

theorem vget_ok {α : Type} (v : List α) (i : Int) (d : α) (h0 : 0 ≤ i)
    (h1 : i.toNat < v.length) : vget v i = .ok (v.getD i.toNat d) := by
  unfold vget
  simp [h0, List.getD_eq_getElem?_getD, List.getElem?_eq_getElem h1]

theorem vadd_ok (v : List ℚ) (i : Int) (x : ℚ) (h0 : 0 ≤ i) (h1 : i.toNat < v.length) :
    vadd v i x = .ok (v.set i.toNat (v.getD i.toNat 0 + x)) := by
  unfold vadd
  rw [vget_ok v i 0 h0 h1]
  simp [vset, h0, h1]

theorem vadd_ok_int (v : List Int) (i : Int) (x : Int) (h0 : 0 ≤ i)
    (h1 : i.toNat < v.length) :
    vadd v i x = .ok (v.set i.toNat (v.getD i.toNat 0 + x)) := by
  unfold vadd
  rw [vget_ok v i 0 h0 h1]
  simp [vset, h0, h1]

theorem getD_set {α : Type} (v : List α) (i a : Nat) (x d : α) (h : i < v.length) :
    (v.set i x).getD a d = if a = i then x else v.getD a d := by
  simp only [List.getD_eq_getElem?_getD, List.getElem?_set]
  by_cases hai : a = i
  · subst hai
    simp [h]
  · have : ¬ i = a := fun e => hai e.symm
    simp [hai, this]

/-! ### The fragment accumulator -/

theorem accumulate_ok (share : ℚ) (atoms : List Int) (sd : List ℚ) (sc : List Int)
    (hnd : atoms.Nodup) (hr : ∀ i ∈ atoms, 0 ≤ i ∧ i.toNat < sd.length)
    (hlen : sc.length = sd.length) :
    ∃ sd' sc', accumulate share atoms (sd, sc) = .ok (sd', sc') ∧
      sd'.length = sd.length ∧ sc'.length = sd.length ∧
      (∀ a : Nat, sd'.getD a 0 = sd.getD a 0 + if (a : Int) ∈ atoms then share else 0) ∧
      (∀ a : Nat, sc'.getD a 0 = sc.getD a 0 + if (a : Int) ∈ atoms then 1 else 0) := by
  induction atoms generalizing sd sc with
  | nil => exact ⟨sd, sc, by simp [accumulate], rfl, hlen, by simp, by simp⟩
  | cons i rest ih =>
    obtain ⟨h0, h1⟩ := hr i (by simp)
    have h1' : i.toNat < sc.length := by omega
    have hnd' : rest.Nodup := (List.nodup_cons.mp hnd).2
    have hni : i ∉ rest := (List.nodup_cons.mp hnd).1
    obtain ⟨sd', sc', he, hl1, hl2, hp1, hp2⟩ :=
      ih (sd.set i.toNat (sd.getD i.toNat 0 + share)) (sc.set i.toNat (sc.getD i.toNat 0 + 1))
        hnd' (by
          intro j hj
          have := hr j (by simp [hj])
          simpa using this) (by simp [hlen])
    refine ⟨sd', sc', ?_, by simpa using hl1, by simpa using hl2, ?_, ?_⟩
    · simp only [accumulate, vadd_ok sd i share h0 h1, vadd_ok_int sc i 1 h0 h1']
      exact he
    · intro a
      rw [hp1 a, getD_set _ _ _ _ _ h1]
      by_cases hai : a = i.toNat
      · have e : (a : Int) = i := by omega
        have hn : (a : Int) ∉ rest := by rw [e]; exact hni
        rw [if_pos hai, if_neg hn, if_pos (List.mem_cons.mpr (Or.inl e)), hai]
        ring
      · have e : ¬ (a : Int) = i := by omega
        rw [if_neg hai]
        by_cases hm : (a : Int) ∈ rest
        · rw [if_pos hm, if_pos (List.mem_cons.mpr (Or.inr hm))]
        · rw [if_neg hm, if_neg (by simp [e, hm])]
    · intro a
      rw [hp2 a, getD_set _ _ _ _ _ h1']
      by_cases hai : a = i.toNat
      · have e : (a : Int) = i := by omega
        have hn : (a : Int) ∉ rest := by rw [e]; exact hni
        rw [if_pos hai, if_neg hn, if_pos (List.mem_cons.mpr (Or.inl e)), hai]
        ring
      · have e : ¬ (a : Int) = i := by omega
        rw [if_neg hai]
        by_cases hm : (a : Int) ∈ rest
        · rw [if_pos hm, if_pos (List.mem_cons.mpr (Or.inr hm))]
        · rw [if_neg hm, if_neg (by simp [e, hm])]

theorem GetAtom_range (mol : OBMol) (idx : Int) (h : (mol.GetAtom idx).isSome = true) :
    1 ≤ idx ∧ idx ≤ (mol.NumAtoms : Int) := by
  unfold OBMol.GetAtom at h
  by_cases hc : 1 ≤ idx ∧ idx ≤ (mol.NumAtoms : Int)
  · exact hc
  · simp [hc] at h

theorem is_hydrogen_valid (mol : OBMol) (idx : Int) (h : mol.is_hydrogen idx = true) :
    (mol.GetAtom idx).isSome = true := by
  unfold OBMol.is_hydrogen at h
  cases hg : mol.GetAtom idx with
  | none => simp [hg] at h
  | some a => rfl

theorem unbounded_core_nodup (rdkit_mol : RWMol) (bond_list : List Nat) (s r : List Int)
    (h : unbounded_core rdkit_mol bond_list s = .ok r) (hs : s.Nodup) : r.Nodup := by
  induction bond_list generalizing s with
  | nil =>
    simp only [unbounded_core, Except.ok.injEq] at h
    exact h ▸ hs
  | cons b bl ih =>
    cases hb : rdkit_mol.getBondWithIdx b with
    | error e => simp [unbounded_core, hb] at h
    | ok bond =>
      simp only [unbounded_core, hb] at h
      exact ih _ h (set_insert_nodup _ _ (set_insert_nodup _ _ hs))

theorem unbounded_hydrogens_loop_spec (mol : OBMol) (todo s r : List Int)
    (h : unbounded_hydrogens_loop mol todo s = .ok r) (hs : s.Nodup)
    (hv : ∀ a ∈ s, a ∈ todo ∨ (mol.GetAtom a).isSome = true) :
    r.Nodup ∧ ∀ a ∈ r, (mol.GetAtom a).isSome = true := by
  induction todo generalizing s with
  | nil =>
    simp only [unbounded_hydrogens_loop, Except.ok.injEq] at h
    subst h
    refine ⟨hs, fun a ha => ?_⟩
    rcases hv a ha with h1 | h1
    · simp at h1
    · exact h1
  | cons i todo ih =>
    cases hg : mol.GetAtom i with
    | none => simp [unbounded_hydrogens_loop, hg] at h
    | some at_i =>
      simp only [unbounded_hydrogens_loop, hg] at h
      apply ih _ h (foldl_set_insert_nodup _ _ hs)
      intro a ha
      rcases (mem_foldl_set_insert _ _ _).mp ha with h1 | h1
      · right
        exact is_hydrogen_valid mol a (by simpa using (List.mem_filter.mp h1).2)
      · rcases hv a h1 with h2 | h2
        · rcases List.mem_cons.mp h2 with rfl | h3
          · right
            simp [hg]
          · left
            exact h3
        · right
          exact h2

theorem unbounded_unit_spec (env : Session) (rdkit_mol : RWMol) (bond_list : List Nat)
    (f : FragmentUnit) (h : unbounded_unit env rdkit_mol bond_list = .ok f) :
    f.atoms_to_remove.Nodup ∧
      ∀ a ∈ f.atoms_to_remove, 1 ≤ a ∧ a ≤ ((env.AddHydrogens env.lig_mol).NumAtoms : Int) := by
  unfold unbounded_unit at h
  cases hc : unbounded_core rdkit_mol bond_list [] with
  | error e => simp [hc] at h
  | ok core =>
    cases ha : unbounded_hydrogens env core false with
    | error e => simp [hc, ha] at h
    | ok atoms =>
      cases hm : modify_pdbqt_idx atoms env.lig_string with
      | error e => simp [hc, ha, hm] at h
      | ok modified =>
        cases hsc : (score_modified_ligand env modified).result with
        | error e => simp [hc, ha, hm, hsc] at h
        | ok score =>
          simp only [hc, ha, hm, hsc, Except.ok.injEq] at h
          subst h
          have hcn := unbounded_core_nodup rdkit_mol bond_list [] core hc List.nodup_nil
          unfold unbounded_hydrogens at ha
          simp only [Bool.false_eq_true, if_false] at ha
          obtain ⟨h1, h2⟩ := unbounded_hydrogens_loop_spec _ core core atoms ha hcn
            (fun a ha => Or.inl ha)
          exact ⟨h1, fun a ha => GetAtom_range _ a (h2 a ha)⟩

theorem unbounded_loop_ok (env : Session) (rdkit_mol : RWMol) (units : List (List Nat))
    (sd : List ℚ) (sc : List Int)
    (hu : ∀ u ∈ units, ∃ f, unbounded_unit env rdkit_mol u = .ok f)
    (hlen : sd.length = (env.AddHydrogens env.lig_mol).NumAtoms + 1)
    (hlen' : sc.length = sd.length) :
    ∃ sd' sc', unbounded_loop env rdkit_mol units (sd, sc) = .ok (sd', sc') ∧
      sd'.length = sd.length ∧ sc'.length = sd.length ∧
      (∀ a : Nat, sd'.getD a 0 = sd.getD a 0 + (units.map (fun u =>
        if (a : Int) ∈ removal_set env rdkit_mol u then unit_share env rdkit_mol u else 0)).sum) ∧
      (∀ a : Nat, sc'.getD a 0 = sc.getD a 0 + (units.map (fun u =>
        if (a : Int) ∈ removal_set env rdkit_mol u then (1 : Int) else 0)).sum) := by
  induction units generalizing sd sc with
  | nil => exact ⟨sd, sc, by simp [unbounded_loop], rfl, hlen', by simp, by simp⟩
  | cons u rest ih =>
    obtain ⟨f, hf⟩ := hu u (by simp)
    obtain ⟨hnd, hrange⟩ := unbounded_unit_spec env rdkit_mol u f hf
    obtain ⟨sd1, sc1, he1, hl1, hl1', hp1, hq1⟩ :=
      accumulate_ok ((env.original_score - f.score) / (f.size_without_hydrogens : ℚ))
        f.atoms_to_remove sd sc hnd (by
          intro i hi
          have := hrange i hi
          constructor
          · omega
          · omega) hlen'
    obtain ⟨sd2, sc2, he2, hl2, hl2', hp2, hq2⟩ :=
      ih sd1 sc1 (fun v hv => hu v (by simp [hv])) (by omega) (by omega)
    refine ⟨sd2, sc2, ?_, by omega, by omega, ?_, ?_⟩
    · simp only [unbounded_loop, hf, he1]
      exact he2
    · intro a
      rw [hp2 a, hp1 a]
      simp only [List.map_cons, List.sum_cons, removal_set, unit_share, hf]
      ring
    · intro a
      rw [hq2 a, hq1 a]
      simp only [List.map_cons, List.sum_cons, removal_set, hf]
      ring

theorem toNat_succ_cast (r : Nat) : ((r : Int) + 1).toNat = r + 1 := by omega

theorem average_loop_ok (sd : List ℚ) (sc : List Int) (rs : List Nat) (avg : List ℚ)
    (hr : ∀ r ∈ rs, r + 1 < sc.length ∧ r + 1 < sd.length ∧ r + 1 < avg.length) :
    ∃ avg', average_loop sd sc rs avg = .ok avg' ∧ avg'.length = avg.length ∧
      ∀ a : Nat, avg'.getD a 0 =
        if (∃ r ∈ rs, a = r + 1) then
          (if 0 < sc.getD a 0 then sd.getD a 0 / (sc.getD a 0 : ℚ) else 0)
        else avg.getD a 0 := by
  induction rs generalizing avg with
  | nil => exact ⟨avg, by simp [average_loop], rfl, by simp⟩
  | cons r rest ih =>
    obtain ⟨h1, h2, h3⟩ := hr r (by simp)
    have hpos : (0 : Int) ≤ (r : Int) + 1 := by omega
    have hc := vget_ok sc ((r : Int) + 1) 0 hpos (by rw [toNat_succ_cast]; exact h1)
    have hd := vget_ok sd ((r : Int) + 1) 0 hpos (by rw [toNat_succ_cast]; exact h2)
    rw [toNat_succ_cast] at hc hd
    have hset : ∀ x : ℚ, vset avg ((r : Int) + 1) x = .ok (avg.set (r + 1) x) := by
      intro x
      simp [vset, hpos, toNat_succ_cast, h3]
    by_cases hcount : 0 < sc.getD (r + 1) 0
    · obtain ⟨avg', he, hl, hp⟩ :=
        ih (avg.set (r + 1) (sd.getD (r + 1) 0 / (sc.getD (r + 1) 0 : ℚ))) (by
          intro q hq
          have := hr q (by simp [hq])
          simpa using this)
      refine ⟨avg', ?_, by simpa using hl, ?_⟩
      · simp only [average_loop, hc, hd, hcount, if_true, hset]
        exact he
      · intro a
        rw [hp a, getD_set _ _ _ _ _ h3]
        by_cases hex : ∃ q ∈ rest, a = q + 1
        · have : ∃ q ∈ r :: rest, a = q + 1 := by
            obtain ⟨q, hq, e⟩ := hex
            exact ⟨q, by simp [hq], e⟩
          rw [if_pos hex, if_pos this]
        · rw [if_neg hex]
          by_cases har : a = r + 1
          · have : ∃ q ∈ r :: rest, a = q + 1 := ⟨r, by simp, har⟩
            rw [if_pos har, if_pos this, har, if_pos hcount]
          · have : ¬ ∃ q ∈ r :: rest, a = q + 1 := by
              rintro ⟨q, hq, e⟩
              rcases List.mem_cons.mp hq with rfl | hq'
              · exact har e
              · exact hex ⟨q, hq', e⟩
            rw [if_neg har, if_neg this]
    · obtain ⟨avg', he, hl, hp⟩ :=
        ih (avg.set (r + 1) 0) (by
          intro q hq
          have := hr q (by simp [hq])
          simpa using this)
      refine ⟨avg', ?_, by simpa using hl, ?_⟩
      · simp only [average_loop, hc, hcount, if_false, hset]
        exact he
      · intro a
        rw [hp a, getD_set _ _ _ _ _ h3]
        by_cases hex : ∃ q ∈ rest, a = q + 1
        · have : ∃ q ∈ r :: rest, a = q + 1 := by
            obtain ⟨q, hq, e⟩ := hex
            exact ⟨q, by simp [hq], e⟩
          rw [if_pos hex, if_pos this]
        · rw [if_neg hex]
          by_cases har : a = r + 1
          · have : ∃ q ∈ r :: rest, a = q + 1 := ⟨r, by simp, har⟩
            rw [if_pos har, if_pos this, har, if_neg hcount]
          · have : ¬ ∃ q ∈ r :: rest, a = q + 1 := by
              rintro ⟨q, hq, e⟩
              rcases List.mem_cons.mp hq with rfl | hq'
              · exact har e
              · exact hex ⟨q, hq', e⟩
            rw [if_neg har, if_neg this]

theorem sum_ite_eq_filter_sum {α : Type} (l : List α) (p : α → Prop) [DecidablePred p]
    (f : α → ℚ) :
    (l.map (fun u => if p u then f u else 0)).sum = ((l.filter (fun u => decide (p u))).map f).sum := by
  induction l with
  | nil => simp
  | cons x xs ih =>
    by_cases hx : p x
    · simp [hx, ih]
    · simp [hx, ih]

theorem sum_ite_eq_filter_length {α : Type} (l : List α) (p : α → Prop) [DecidablePred p] :
    (l.map (fun u => if p u then (1 : Int) else 0)).sum
      = ((l.filter (fun u => decide (p u))).length : Int) := by
  induction l with
  | nil => simp
  | cons x xs ih =>
    by_cases hx : p x
    · simp [hx, ih]
      ring
    · simp [hx, ih]

/-! ### The fragment pass -/

theorem unbounded_pass_ok (env : Session) (rdkit_mol : RWMol)
    (paths : List (Nat × List (List Nat)))
    (hu : fragments_scored env rdkit_mol paths = true)
    (hn : rdkit_mol.numAtoms ≤ env.lig_mol.NumAtoms)
    (hh : env.lig_mol.NumAtoms ≤ (env.AddHydrogens env.lig_mol).NumAtoms) :
    ∃ avg, unbounded_pass env rdkit_mol paths = .ok avg ∧
      avg.length = env.lig_mol.NumAtoms + 1 ∧
      ∀ a : Nat, avg.getD a 0 =
        if 1 ≤ a ∧ a ≤ rdkit_mol.numAtoms then
          (if 0 < (touching env rdkit_mol (all_paths paths) a).length then
            ((touching env rdkit_mol (all_paths paths) a).map (unit_share env rdkit_mol)).sum
              / ((touching env rdkit_mol (all_paths paths) a).length : ℚ)
          else 0)
        else 0 := by
  have hu' : ∀ u ∈ all_paths paths, ∃ f, unbounded_unit env rdkit_mol u = .ok f := by
    intro u hu1
    have := List.all_eq_true.mp hu u hu1
    cases hs : unbounded_unit env rdkit_mol u with
    | error e => simp [hs, Except.toBool] at this
    | ok f => exact ⟨f, rfl⟩
  obtain ⟨sd, sc, he, hl, hl', hp, hq⟩ :=
    unbounded_loop_ok env rdkit_mol (all_paths paths)
      (List.replicate ((env.AddHydrogens env.lig_mol).NumAtoms + 1) 0)
      (List.replicate ((env.AddHydrogens env.lig_mol).NumAtoms + 1) 0) hu' (by simp) (by simp)
  simp only [List.length_replicate] at hl hl'
  obtain ⟨avg, ha, hla, hpa⟩ :=
    average_loop_ok sd sc (List.range rdkit_mol.numAtoms)
      (List.replicate (env.lig_mol.NumAtoms + 1) 0) (by
        intro r hr
        have := List.mem_range.mp hr
        simp only [List.length_replicate]
        omega)
  refine ⟨avg, ?_, by simpa using hla, ?_⟩
  · simp only [unbounded_pass, he]
    exact ha
  · intro a
    rw [hpa a]
    have hz : ∀ (n : Nat), (List.replicate n (0 : ℚ)).getD a 0 = 0 := by
      intro n
      simp only [List.getD_eq_getElem?_getD, List.getElem?_replicate]
      split <;> rfl
    have hzi : ∀ (n : Nat), (List.replicate n (0 : Int)).getD a 0 = 0 := by
      intro n
      simp only [List.getD_eq_getElem?_getD, List.getElem?_replicate]
      split <;> rfl
    have hex : (∃ r ∈ List.range rdkit_mol.numAtoms, a = r + 1)
        ↔ (1 ≤ a ∧ a ≤ rdkit_mol.numAtoms) := by
      constructor
      · rintro ⟨r, hr, e⟩
        have := List.mem_range.mp hr
        omega
      · rintro ⟨h1, h2⟩
        exact ⟨a - 1, List.mem_range.mpr (by omega), by omega⟩
    by_cases hin : 1 ≤ a ∧ a ≤ rdkit_mol.numAtoms
    · rw [if_pos (hex.mpr hin), if_pos hin, hp a, hq a, hz, hzi, zero_add, zero_add,
        sum_ite_eq_filter_sum, sum_ite_eq_filter_length]
      simp only [touching, Nat.cast_pos, Int.cast_natCast]
    · rw [if_neg (fun h => hin (hex.mp h)), if_neg hin, hz]

theorem unbounded_unit_steps (env : Session) (rdkit_mol : RWMol) (u : List Nat)
    (h : (unbounded_unit env rdkit_mol u).toBool = true) :
    ∃ core atoms modified score,
      unbounded_core rdkit_mol u [] = .ok core ∧
      unbounded_hydrogens env core false = .ok atoms ∧
      modify_pdbqt_idx atoms env.lig_string = .ok modified ∧
      (score_modified_ligand env modified).result = .ok score ∧
      removal_set env rdkit_mol u = atoms ∧
      unit_share env rdkit_mol u = (env.original_score - score) / (core.length : ℚ) := by
  unfold removal_set unit_share
  unfold unbounded_unit at h ⊢
  cases hc : unbounded_core rdkit_mol u [] with
  | error e => simp [hc, Except.toBool] at h
  | ok core =>
    cases ha : unbounded_hydrogens env core false with
    | error e => simp [hc, ha, Except.toBool] at h
    | ok atoms =>
      cases hm : modify_pdbqt_idx atoms env.lig_string with
      | error e => simp [hc, ha, hm, Except.toBool] at h
      | ok modified =>
        cases hsc : (score_modified_ligand env modified).result with
        | error e => simp [hc, ha, hm, hsc, Except.toBool] at h
        | ok score =>
          refine ⟨core, atoms, modified, score, rfl, ha, hm, hsc, ?_, ?_⟩
          · simp only [ha, hm, hsc]
          · simp only [ha, hm, hsc]

/-- The fragment pass in a set that never has to rehash: when every path gets scored, the
entry at the index `a` of a heavy atom (`1 .. rdkit_mol.numAtoms`) is `S / c` if `c > 0` and
`0` if `c = 0`, where `c` counts the paths whose removal set holds `a` and `S` adds, over
those paths, (baseline - perturbed score) / (size of the core before hydrogens). -/
theorem unbounded_pass_mean_of_shares (env : Session) (rdkit_mol : RWMol)
    (paths : List (Nat × List (List Nat)))
    (hu : fragments_scored env rdkit_mol paths = true)
    (hn : rdkit_mol.numAtoms ≤ env.lig_mol.NumAtoms)
    (hh : env.lig_mol.NumAtoms ≤ (env.AddHydrogens env.lig_mol).NumAtoms) :
    ∃ avg, unbounded_pass env rdkit_mol paths = .ok avg ∧
      (∀ a : Nat, 1 ≤ a → a ≤ rdkit_mol.numAtoms →
        avg[a]? = some
          (if 0 < (touching env rdkit_mol (all_paths paths) a).length then
            ((touching env rdkit_mol (all_paths paths) a).map (unit_share env rdkit_mol)).sum
              / ((touching env rdkit_mol (all_paths paths) a).length : ℚ)
          else 0)) ∧
      (∀ u ∈ all_paths paths, ∃ core atoms modified score,
        unbounded_core rdkit_mol u [] = .ok core ∧
        unbounded_hydrogens env core false = .ok atoms ∧
        modify_pdbqt_idx atoms env.lig_string = .ok modified ∧
        (score_modified_ligand env modified).result = .ok score ∧
        removal_set env rdkit_mol u = atoms ∧
        unit_share env rdkit_mol u = (env.original_score - score) / (core.length : ℚ)) := by
  obtain ⟨avg, he, hl, hp⟩ := unbounded_pass_ok env rdkit_mol paths hu hn hh
  refine ⟨avg, he, ?_, ?_⟩
  · intro a h1 h2
    have hlt : a < avg.length := by omega
    have := hp a
    rw [if_pos ⟨h1, h2⟩, List.getD_eq_getElem?_getD, List.getElem?_eq_getElem hlt] at this
    rw [List.getElem?_eq_getElem hlt]
    simpa using this
  · intro u hu1
    exact unbounded_unit_steps env rdkit_mol u (List.all_eq_true.mp hu u hu1)

theorem sample_fragments_scored :
    fragments_scored sample_session sample_rdkit sample_paths = true := by decide

/-- The means of the shares on the chain `C1 - C2(-H4) - C3`: the two bonds are the paths,
their deltas are 1 and 3 and both cores have size 2. -/
theorem unbounded_pass_mean_of_shares_on_chain :
    fragments_scored sample_session sample_rdkit sample_paths = true ∧
    sample_rdkit.numAtoms ≤ sample_session.lig_mol.NumAtoms ∧
    sample_session.lig_mol.NumAtoms
      ≤ (sample_session.AddHydrogens sample_session.lig_mol).NumAtoms ∧
    ∃ avg, unbounded_pass sample_session sample_rdkit sample_paths = .ok avg ∧
      (∀ a : Nat, 1 ≤ a → a ≤ sample_rdkit.numAtoms →
        avg[a]? = some
          (if 0 < (touching sample_session sample_rdkit (all_paths sample_paths) a).length then
            ((touching sample_session sample_rdkit (all_paths sample_paths) a).map
                (unit_share sample_session sample_rdkit)).sum
              / ((touching sample_session sample_rdkit (all_paths sample_paths) a).length : ℚ)
          else 0)) ∧
      (∀ u ∈ all_paths sample_paths, ∃ core atoms modified score,
        unbounded_core sample_rdkit u [] = .ok core ∧
        unbounded_hydrogens sample_session core false = .ok atoms ∧
        modify_pdbqt_idx atoms sample_session.lig_string = .ok modified ∧
        (score_modified_ligand sample_session modified).result = .ok score ∧
        removal_set sample_session sample_rdkit u = atoms ∧
        unit_share sample_session sample_rdkit u
          = (sample_session.original_score - score) / (core.length : ℚ)) :=
  ⟨sample_fragments_scored, by decide, by decide,
    unbounded_pass_mean_of_shares sample_session sample_rdkit sample_paths
      sample_fragments_scored (by decide) (by decide)⟩

theorem sample_fragments_value :
    remove_fragments sample_session 6 = .ok [0, 1 / 2, 1, 3 / 2, 0] := by decide!

/-! ### Order of the paths -/

theorem unbounded_loop_units_ok (env : Session) (rdkit_mol : RWMol)
    (units : List (List Nat)) (st st' : List ℚ × List Int)
    (h : unbounded_loop env rdkit_mol units st = .ok st') :
    ∀ u ∈ units, ∃ f, unbounded_unit env rdkit_mol u = .ok f := by
  induction units generalizing st with
  | nil => simp
  | cons u rest ih =>
    cases hf : unbounded_unit env rdkit_mol u with
    | error e => simp [unbounded_loop, hf] at h
    | ok f =>
      cases ha : accumulate ((env.original_score - f.score) / (f.size_without_hydrogens : ℚ))
          f.atoms_to_remove st with
      | error e => simp [unbounded_loop, hf, ha] at h
      | ok st1 =>
        simp only [unbounded_loop, hf, ha] at h
        intro v hv
        rcases List.mem_cons.mp hv with rfl | hv'
        · exact ⟨f, hf⟩
        · exact ih st1 h v hv'

theorem list_ext_getD {α : Type} (d : α) (l1 l2 : List α) (hl : l1.length = l2.length)
    (h : ∀ a : Nat, l1.getD a d = l2.getD a d) : l1 = l2 := by
  apply List.ext_getElem hl
  intro n h1 h2
  have := h n
  simpa [List.getD_eq_getElem?_getD, List.getElem?_eq_getElem h1,
    List.getElem?_eq_getElem h2] using this

theorem unbounded_loop_perm (env : Session) (rdkit_mol : RWMol)
    (units1 units2 : List (List Nat)) (hperm : units1.Perm units2)
    (sd : List ℚ) (sc : List Int)
    (hlen : sd.length = (env.AddHydrogens env.lig_mol).NumAtoms + 1)
    (hlen' : sc.length = sd.length) (st' : List ℚ × List Int)
    (h : unbounded_loop env rdkit_mol units1 (sd, sc) = .ok st') :
    unbounded_loop env rdkit_mol units2 (sd, sc) = .ok st' := by
  have hu1 := unbounded_loop_units_ok env rdkit_mol units1 (sd, sc) st' h
  have hu2 : ∀ u ∈ units2, ∃ f, unbounded_unit env rdkit_mol u = .ok f :=
    fun u hu => hu1 u (hperm.mem_iff.mpr hu)
  obtain ⟨sd1, sc1, he1, hl1, hl1', hp1, hq1⟩ :=
    unbounded_loop_ok env rdkit_mol units1 sd sc hu1 hlen hlen'
  obtain ⟨sd2, sc2, he2, hl2, hl2', hp2, hq2⟩ :=
    unbounded_loop_ok env rdkit_mol units2 sd sc hu2 hlen hlen'
  rw [he1] at h
  rw [he2, ← h]
  have e1 : sd2 = sd1 := by
    apply list_ext_getD 0 _ _ (by omega)
    intro a
    rw [hp1 a, hp2 a, (hperm.map _).sum_eq]
  have e2 : sc2 = sc1 := by
    apply list_ext_getD 0 _ _ (by omega)
    intro a
    rw [hq1 a, hq2 a, (hperm.map _).sum_eq]
  rw [e1, e2]

/-- In a set that never has to rehash, two enumerations of the same collection of paths
give the same vector (and a fault in one is a fault in the other). -/
theorem unbounded_pass_order_irrelevant (env : Session) (rdkit_mol : RWMol)
    (paths1 paths2 : List (Nat × List (List Nat)))
    (hperm : (all_paths paths1).Perm (all_paths paths2)) :
    (unbounded_pass env rdkit_mol paths1).toOption
      = (unbounded_pass env rdkit_mol paths2).toOption := by
  have key : ∀ (u1 u2 : List (List Nat)), u1.Perm u2 → ∀ st',
      unbounded_loop env rdkit_mol u1
          (List.replicate ((env.AddHydrogens env.lig_mol).NumAtoms + 1) 0,
            List.replicate ((env.AddHydrogens env.lig_mol).NumAtoms + 1) 0) = .ok st' →
      unbounded_loop env rdkit_mol u2
          (List.replicate ((env.AddHydrogens env.lig_mol).NumAtoms + 1) 0,
            List.replicate ((env.AddHydrogens env.lig_mol).NumAtoms + 1) 0) = .ok st' :=
    fun u1 u2 hp st' h =>
      unbounded_loop_perm env rdkit_mol u1 u2 hp _ _ (by simp) (by simp) st' h
  unfold unbounded_pass
  cases h1 : unbounded_loop env rdkit_mol (all_paths paths1)
      (List.replicate ((env.AddHydrogens env.lig_mol).NumAtoms + 1) 0,
        List.replicate ((env.AddHydrogens env.lig_mol).NumAtoms + 1) 0) with
  | ok st1 =>
    have h2 := key _ _ hperm st1 h1
    simp only [h1, h2]
  | error e1 =>
    cases h2 : unbounded_loop env rdkit_mol (all_paths paths2)
        (List.replicate ((env.AddHydrogens env.lig_mol).NumAtoms + 1) 0,
          List.replicate ((env.AddHydrogens env.lig_mol).NumAtoms + 1) 0) with
    | ok st2 =>
      have := key _ _ hperm.symm st2 h2
      rw [h1] at this
      cases this
    | error e2 =>
      simp only [h1, h2]
      rfl

theorem sample_fragments_swapped :
    (unbounded_pass sample_session sample_rdkit [(1, [[1], [0]])]).toOption
      = some [0, 1 / 2, 1, 3 / 2, 0] := by decide!

/-- The two bonds of the chain visited in either order give the same vector. -/
theorem unbounded_pass_order_irrelevant_on_chain :
    (all_paths [(1, [[0], [1]])]).Perm (all_paths [(1, [[1], [0]])]) ∧
    (unbounded_pass sample_session sample_rdkit [(1, [[0], [1]])]).toOption
      = (unbounded_pass sample_session sample_rdkit [(1, [[1], [0]])]).toOption ∧
    (unbounded_pass sample_session sample_rdkit [(1, [[1], [0]])]).toOption
      = some [0, 1 / 2, 1, 3 / 2, 0] :=
  ⟨List.Perm.swap _ _ _,
    unbounded_pass_order_irrelevant sample_session sample_rdkit [(1, [[0], [1]])]
      [(1, [[1], [0]])] (List.Perm.swap _ _ _),
    sample_fragments_swapped⟩

/-! ### Searching a text -/

theorem findFrom_isSome (pat s : Str) (i : Nat) :
    (findFrom pat s i).isSome = true ↔ pat <:+: s := by
  induction s generalizing i with
  | nil =>
    by_cases hp : pat = []
    · simp [findFrom, hp]
    · simp [findFrom, hp]
  | cons c cs ih =>
    by_cases hpre : pat.isPrefixOf (c :: cs) = true
    · simp only [findFrom, hpre, if_true, Option.isSome_some, true_iff]
      exact (List.isPrefixOf_iff_prefix.mp hpre).isInfix
    · simp only [findFrom, hpre, Bool.false_eq_true, if_false, ih, List.infix_cons_iff]
      constructor
      · exact Or.inr
      · rintro (h | h)
        · exact absurd (List.isPrefixOf_iff_prefix.mpr h) hpre
        · exact h

theorem find_isSome (s pat : Str) : (find s pat).isSome = true ↔ pat <:+: s :=
  findFrom_isSome pat s 0

theorem getlinesAux_within (s acc : Str) : ∀ l ∈ getlinesAux s acc, l <:+: acc.reverse ++ s := by
  induction s generalizing acc with
  | nil =>
    cases acc with
    | nil => simp [getlinesAux]
    | cons c acc =>
      intro l hl
      simp only [getlinesAux, List.mem_singleton] at hl
      subst hl
      simp
  | cons c cs ih =>
    intro l hl
    by_cases hc : c = '\n'
    · simp only [getlinesAux, hc, if_true, List.mem_cons] at hl
      rcases hl with rfl | hl
      · exact (List.prefix_append _ _).isInfix
      · have := ih [] l hl
        simp only [List.reverse_nil, List.nil_append] at this
        exact this.trans ((List.suffix_cons _ _).isInfix.trans (List.suffix_append _ _).isInfix)
    · simp only [getlinesAux, hc, if_false] at hl
      have := ih (c :: acc) l hl
      simpa using this

theorem getlines_within (s : Str) : ∀ l ∈ getlines s, l <:+: s := by
  intro l hl
  simpa using getlinesAux_within s [] l hl

theorem hasATOM_of_record (s : Str) (h : atom_records s ≠ []) :
    find s ['A', 'T', 'O', 'M'] ≠ none := by
  obtain ⟨l, hl⟩ := List.exists_mem_of_ne_nil _ h
  obtain ⟨hl1, hl2⟩ := List.mem_filter.mp hl
  have h1 : ['A', 'T', 'O', 'M'] <:+: l := (find_isSome l _).mp hl2
  have h2 : ['A', 'T', 'O', 'M'] <:+: s := h1.trans (getlines_within s l hl1)
  have h3 := (find_isSome s _).mpr h2
  intro hn
  simp [hn] at h3

/-- C5: if the removal set holds the index of every `ATOM` line of the ligand, the text
built by `modify_pdbqt` has no `ATOM` line, `score_modified_ligand` returns 0 for it and
does not call the scorer, and the delta is the baseline score; on any text that has an
`ATOM` line the scorer is called. -/
theorem emptied_ligand_scores_zero (env : Session) (atoms_to_remove : List Int)
    (hi : indexed_records env.lig_string = true)
    (hc : ∀ l ∈ atom_records env.lig_string, idx_removed atoms_to_remove l = true) :
    (∃ out, modify_pdbqt_idx atoms_to_remove env.lig_string = .ok out ∧
      atom_records out = [] ∧
      (score_modified_ligand env out).scorer_invoked = false ∧
      (score_modified_ligand env out).result = .ok 0 ∧
      ∀ v, (score_modified_ligand env out).result = .ok v →
        env.original_score - v = env.original_score) ∧
    (∀ s : Str, atom_records s ≠ [] → (score_modified_ligand env s).scorer_invoked = true) := by
  constructor
  · have hnone : (atom_records env.lig_string).filter (fun l => !idx_removed atoms_to_remove l)
        = [] := by
      apply List.filter_eq_nil_iff.mpr
      intro l hl
      simp [hc l hl]
    refine ⟨_, modify_pdbqt_idx_eq atoms_to_remove env.lig_string hi, ?_, ?_, ?_, ?_⟩
    · rw [hnone]
      decide
    · rw [hnone]
      have : find (ROOT ++ unlines [] ++ ENDROOT ++ TORSDOF0) ['A', 'T', 'O', 'M'] = none := by
        decide
      unfold score_modified_ligand
      rw [if_pos this]
    · rw [hnone]
      have : find (ROOT ++ unlines [] ++ ENDROOT ++ TORSDOF0) ['A', 'T', 'O', 'M'] = none := by
        decide
      unfold score_modified_ligand
      rw [if_pos this]
    · rw [hnone]
      have : find (ROOT ++ unlines [] ++ ENDROOT ++ TORSDOF0) ['A', 'T', 'O', 'M'] = none := by
        decide
      intro v hv
      simp only [score_modified_ligand, this, if_true, Except.ok.injEq] at hv
      rw [← hv, sub_zero]
  · intro s hs
    have := hasATOM_of_record s hs
    unfold score_modified_ligand
    rw [if_neg this]
    by_cases h1 : env.visopts.target = pose
    · rw [if_pos h1]
    · by_cases h2 : env.visopts.target = affinity
      · rw [if_neg h1, if_pos h2]
      · rw [if_neg h1, if_neg h2]

theorem sample_lig_indexed : indexed_records sample_session.lig_string = true := by decide

theorem sample_lig_covered :
    ∀ l ∈ atom_records sample_session.lig_string, idx_removed [1, 2, 3, 4] l = true := by
  decide

/-- C5 on the chain with all four indices in the removal set. -/
theorem emptied_ligand_scores_zero_witness :
    indexed_records sample_session.lig_string = true ∧
    (∀ l ∈ atom_records sample_session.lig_string, idx_removed [1, 2, 3, 4] l = true) ∧
    (∃ out, modify_pdbqt_idx [1, 2, 3, 4] sample_session.lig_string = .ok out ∧
      atom_records out = [] ∧
      (score_modified_ligand sample_session out).scorer_invoked = false ∧
      (score_modified_ligand sample_session out).result = .ok 0 ∧
      ∀ v, (score_modified_ligand sample_session out).result = .ok v →
        sample_session.original_score - v = sample_session.original_score) ∧
    (∀ s : Str, atom_records s ≠ [] →
      (score_modified_ligand sample_session s).scorer_invoked = true) :=
  ⟨sample_lig_indexed, sample_lig_covered,
    emptied_ligand_scores_zero sample_session [1, 2, 3, 4] sample_lig_indexed
      sample_lig_covered⟩

/-! ### The single-atom pass on a ligand whose last atom is heavy -/

/-- C2 on carbon dioxide: the vector of `remove_each_atom` has three entries, the turn of the
heavy atom of index 3 obtains the score 3 and stores its delta at position 3, outside the
vector. -/
theorem remove_each_atom_last_heavy_atom :
    (List.replicate (co2_session.AddHydrogens co2_session.lig_mol).NumAtoms (0 : ℚ)).length = 3 ∧
    index6 "ATOM      3  O3  LIG A   1       1.160   0.000   0.000  0.00  0.00    -0.200 OA".toList
      = .ok 3 ∧
    co2_session.lig_mol.is_hydrogen 3 = false ∧
    single_removal_score co2_session 3 = .ok 3 ∧
    remove_each_atom co2_session = .error .vector_bounds := by
  decide!

/-- C7 on carbon dioxide: whatever the three entries of the single-atom vector are,
`single_total` adds the entries 1 and 2 only; the heavy atom of index 3 is left out, while
`frag_total` adds the entries of all three atoms. -/
theorem write_additivity_last_heavy_atom (d0 d1 d2 f0 f1 f2 f3 : ℚ) :
    co2_session.lig_mol.is_hydrogen 3 = false ∧
    (write_additivity co2_session [d0, d1, d2] [f0, f1, f2, f3]).2.1 = d1 + d2 ∧
    (write_additivity co2_session [d0, d1, d2] [f0, f1, f2, f3]).2.2 = f1 + f2 + f3 := by
  refine ⟨by decide, ?_, ?_⟩
  · simp [write_additivity, additivity_total, co2_session, co2_mol, OBMol.NumAtoms,
      OBMol.GetAtom, List.range', carbon, oxygen]
  · simp [write_additivity, additivity_total, co2_session, co2_mol, OBMol.NumAtoms,
      OBMol.GetAtom, List.range', carbon, oxygen]

/-! ### The consistency check of `write_scores` -/

theorem write_scores_line_ok (scores : ScoreMap) (i : Nat) (line : Str) (fc : Nat)
    (h : is_atom_line line = true → 77 ≤ line.length ∧ (index6 line).toBool = true) :
    ∃ text, write_scores_line scores i line fc
      = .ok (text, fc + if is_atom_line line && key_found scores line then 1 else 0) := by
  by_cases ha : is_atom_line line = true
  · obtain ⟨hlen, hidx⟩ := h ha
    have h6 : 6 ≤ line.length := by omega
    have h66 : 66 ≤ line.length := by omega
    obtain ⟨xyz, hxyz⟩ := get_xyz_ok line (by omega)
    have hs6 : substr line 6 5 = .ok ((line.drop 6).take 5) := by simp [substr, h6]
    have hst : ∃ n, stoi ((line.drop 6).take 5) = .ok n := by
      unfold index6 at hidx
      rw [hs6] at hidx
      cases hv : stoi ((line.drop 6).take 5) with
      | error e => simp [hv, Except.toBool] at hidx
      | ok n => exact ⟨n, rfl⟩
    obtain ⟨n, hn⟩ := hst
    have hs77 : substr line 77 2 = .ok ((line.drop 77).take 2) := by simp [substr, hlen]
    have hs0 : substr line 0 61 = .ok (line.take 61) := by simp [substr]
    have hsf : substrFrom line 66 = .ok (line.drop 66) := by simp [substrFrom, h66]
    by_cases hf : (map_find scores xyz).isSome = true
    · simp only [write_scores_line, ha, if_true, hs6, hs77, hn, hxyz, hs0, hsf, hf, key_found,
        Bool.and_self]
      exact ⟨_, rfl⟩
    · simp only [write_scores_line, ha, if_true, hs6, hs77, hn, hxyz, hs0, hsf, hf, key_found,
        Bool.and_false, Bool.false_eq_true, if_false, Nat.add_zero]
      exact ⟨_, rfl⟩
  · refine ⟨line ++ ['\n'], ?_⟩
    simp [write_scores_line, ha]

theorem write_scores_lines_ok (scores : ScoreMap) (i : Nat) (lines : List Str) (out : Str)
    (fc : Nat)
    (h : ∀ l ∈ lines, is_atom_line l = true → 77 ≤ l.length ∧ (index6 l).toBool = true) :
    ∃ out', write_scores_lines scores i lines (out, fc)
      = .ok (out', fc + (lines.filter (fun l => is_atom_line l && key_found scores l)).length) := by
  induction lines generalizing out fc with
  | nil => exact ⟨out, by simp [write_scores_lines]⟩
  | cons l ls ih =>
    obtain ⟨text, ht⟩ := write_scores_line_ok scores i l fc (h l (by simp))
    obtain ⟨out', ho⟩ := ih (out ++ text)
      (fc + if is_atom_line l && key_found scores l then 1 else 0)
      (fun x hx => h x (by simp [hx]))
    refine ⟨out', ?_⟩
    simp only [write_scores_lines, ht, ho]
    by_cases hc : (is_atom_line l && key_found scores l) = true
    · simp [List.filter_cons, hc]
      omega
    · simp [List.filter_cons, hc]

theorem write_scores_file_check (env : Session) (scores : ScoreMap) (isRec : Bool)
    (method : Str) (i : Nat)
    (h : writable_records (if isRec then env.rec_string else env.lig_string) = true) :
    (found_records scores (if isRec then env.rec_string else env.lig_string) ≠ map_size scores →
      write_scores_file env scores isRec method i = .error .assertion_failed) ∧
    (found_records scores (if isRec then env.rec_string else env.lig_string) = map_size scores →
      ∃ out, write_scores_file env scores isRec method i = .ok out) := by
  have hw : ∀ l ∈ getlines (if isRec then env.rec_string else env.lig_string),
      is_atom_line l = true → 77 ≤ l.length ∧ (index6 l).toBool = true := by
    intro l hl ha
    have := List.all_eq_true.mp h l (List.mem_filter.mpr ⟨hl, ha⟩)
    simpa using this
  obtain ⟨out', ho⟩ := write_scores_lines_ok scores i _ (write_scores_header env method) 0 hw
  simp only [Nat.zero_add] at ho
  constructor
  · intro hne
    unfold found_records at hne
    simp only [write_scores_file, ho]
    rw [if_neg hne]
  · intro heq
    unfold found_records at heq
    refine ⟨out', ?_⟩
    simp only [write_scores_file, ho]
    rw [if_pos heq]

/-- C6, as the code has it: on a structure whose atom records carry the columns read, if the
number of atom records whose spatial key is a key of the map differs from the number of keys
of the map, `write_scores` stops on the failed assertion, and if the two numbers are equal
it completes with both files. -/
theorem write_scores_consistency (env : Session) (scores : ScoreMap) (isRec : Bool)
    (method : Str)
    (h : writable_records (if isRec then env.rec_string else env.lig_string) = true) :
    (found_records scores (if isRec then env.rec_string else env.lig_string) ≠ map_size scores →
      write_scores env scores isRec method = .error .assertion_failed) ∧
    (found_records scores (if isRec then env.rec_string else env.lig_string) = map_size scores →
      ∃ files, write_scores env scores isRec method = .ok files) := by
  obtain ⟨h0a, h0b⟩ := write_scores_file_check env scores isRec method 0 h
  obtain ⟨_, h1b⟩ := write_scores_file_check env scores isRec method 1 h
  constructor
  · intro hne
    simp only [write_scores, h0a hne]
  · intro heq
    obtain ⟨narrow, hn⟩ := h0b heq
    obtain ⟨extended, he⟩ := h1b heq
    exact ⟨(narrow, extended), by simp only [write_scores, hn, he]⟩

theorem sample_rec_writable :
    writable_records (if true then sample_rec_session.rec_string
      else sample_rec_session.lig_string) = true := by decide

/-- C6, as the code has it, on the two-atom receptor: a map holding the key of the first
record is written, a map holding a key that no record has stops the pass. -/
theorem write_scores_consistency_witness :
    writable_records (if true then sample_rec_session.rec_string
      else sample_rec_session.lig_string) = true ∧
    (∃ files, write_scores sample_rec_session [("11.1046.134-6.504".toList, 1 / 3)] true
        "masking".toList = .ok files) ∧
    write_scores sample_rec_session [("9.0009.0009.000".toList, 1 / 3)] true
        "masking".toList = .error .assertion_failed :=
  ⟨sample_rec_writable,
    (write_scores_consistency sample_rec_session [("11.1046.134-6.504".toList, 1 / 3)] true
      "masking".toList sample_rec_writable).2 (by decide),
    (write_scores_consistency sample_rec_session [("9.0009.0009.000".toList, 1 / 3)] true
      "masking".toList sample_rec_writable).1 (by decide)⟩

/-- C6 as stated fails: with a map whose only entry is zero and whose key no record has, no
record is annotated with a nonzero score and the map has no nonzero entry, the two numbers
are equal, yet `write_scores` stops on the failed assertion. -/
theorem write_scores_nonzero_counts_counterexample :
    nonzero_annotations [("9.0009.0009.000".toList, 0)] sample_rec_session.rec_string
      = nonzero_entries [("9.0009.0009.000".toList, 0)] ∧
    write_scores sample_rec_session [("9.0009.0009.000".toList, 0)] true "masking".toList
      = .error .assertion_failed := by
  decide!

/-! ### Single precision -/

theorem two_pow_eq (e : Int) : two_pow e = (2 : ℚ) ^ e := by
  unfold two_pow
  by_cases h : 0 ≤ e
  · rw [if_pos h]
    obtain ⟨n, rfl⟩ := Int.eq_ofNat_of_zero_le h
    simp
  · rw [if_neg h]
    obtain ⟨n, hn⟩ := Int.exists_eq_neg_ofNat (by omega : e ≤ 0)
    subst hn
    simp

theorem two_pow_pos (e : Int) : 0 < two_pow e := by
  rw [two_pow_eq]
  positivity

theorem binary_digits_zero (fuel : Nat) : binary_digits fuel 0 = 0 := by
  cases fuel <;> simp [binary_digits]

theorem binary_digits_spec (fuel n : Nat) (hf : n ≤ fuel) (hn : n ≠ 0) :
    2 ^ binary_digits fuel n ≤ 2 * n ∧ n < 2 ^ binary_digits fuel n := by
  induction fuel generalizing n with
  | zero => omega
  | succ fuel ih =>
    simp only [binary_digits, hn, if_false]
    by_cases h2 : n / 2 = 0
    · rw [h2, binary_digits_zero]
      have : n = 1 := by omega
      subst this
      simp
    · obtain ⟨h3, h4⟩ := ih (n / 2) (by omega) h2
      rw [pow_succ]
      constructor <;> omega

/-- For `q` other than zero, `binary_exponent q` is the exponent `e` with
`2 ^ e ≤ |q| < 2 ^ (e + 1)`. -/
theorem binary_exponent_spec (q : ℚ) (hq : q ≠ 0) :
    two_pow (binary_exponent q) ≤ |q| ∧ |q| < two_pow (binary_exponent q + 1) := by
  have ha0 : q.num.natAbs ≠ 0 := by
    simpa using hq
  have hb0 : q.den ≠ 0 := q.den_nz
  obtain ⟨ha1, ha2⟩ := binary_digits_spec q.num.natAbs q.num.natAbs (Nat.le_refl _) ha0
  obtain ⟨hb1, hb2⟩ := binary_digits_spec q.den q.den (Nat.le_refl _) hb0
  have habs : |q| = (q.num.natAbs : ℚ) / (q.den : ℚ) := by
    have h1 : |q| = |(q.num : ℚ)| / |(q.den : ℚ)| := by
      rw [← abs_div, Rat.num_div_den]
    rw [h1, Nat.abs_cast]
    simp [Nat.cast_natAbs, Int.cast_abs]
  have hbpos : (0 : ℚ) < (q.den : ℚ) := by exact_mod_cast Nat.pos_of_ne_zero hb0
  have ha1' : (2 : ℚ) ^ binary_digits q.num.natAbs q.num.natAbs ≤ 2 * (q.num.natAbs : ℚ) := by
    exact_mod_cast ha1
  have ha2' : (q.num.natAbs : ℚ) < (2 : ℚ) ^ binary_digits q.num.natAbs q.num.natAbs := by
    exact_mod_cast ha2
  have hb1' : (2 : ℚ) ^ binary_digits q.den q.den ≤ 2 * (q.den : ℚ) := by
    exact_mod_cast hb1
  have hb2' : (q.den : ℚ) < (2 : ℚ) ^ binary_digits q.den q.den := by
    exact_mod_cast hb2
  have hA : (0 : ℚ) < (2 : ℚ) ^ binary_digits q.num.natAbs q.num.natAbs := by positivity
  have hB : (0 : ℚ) < (2 : ℚ) ^ binary_digits q.den q.den := by positivity
  have hapos : (0 : ℚ) < (q.num.natAbs : ℚ) := by
    exact_mod_cast Nat.pos_of_ne_zero ha0
  have he0 : ∀ k : Int,
      two_pow ((binary_digits q.num.natAbs q.num.natAbs : Int)
        - (binary_digits q.den q.den : Int) + k)
      = (2 : ℚ) ^ binary_digits q.num.natAbs q.num.natAbs
        / (2 : ℚ) ^ binary_digits q.den q.den * (2 : ℚ) ^ k := by
    intro k
    rw [two_pow_eq, zpow_add₀ (by norm_num), zpow_sub₀ (by norm_num), zpow_natCast, zpow_natCast]
  have hlow : two_pow ((binary_digits q.num.natAbs q.num.natAbs : Int)
      - (binary_digits q.den q.den : Int) + (-1)) ≤ |q| := by
    rw [he0, habs, zpow_neg, zpow_one, div_mul_eq_mul_div, div_le_div_iff₀ hB hbpos]
    have h1 : (2 : ℚ) ^ binary_digits q.num.natAbs q.num.natAbs * 2⁻¹ ≤ (q.num.natAbs : ℚ) := by
      linarith
    calc (2 : ℚ) ^ binary_digits q.num.natAbs q.num.natAbs * 2⁻¹ * (q.den : ℚ)
        ≤ (q.num.natAbs : ℚ) * (q.den : ℚ) := mul_le_mul_of_nonneg_right h1 hbpos.le
      _ ≤ (q.num.natAbs : ℚ) * (2 : ℚ) ^ binary_digits q.den q.den :=
        mul_le_mul_of_nonneg_left hb2'.le hapos.le
  have hup : |q| < two_pow ((binary_digits q.num.natAbs q.num.natAbs : Int)
      - (binary_digits q.den q.den : Int) + 1) := by
    rw [he0, habs, zpow_one, div_mul_eq_mul_div, div_lt_div_iff₀ hbpos hB]
    calc (q.num.natAbs : ℚ) * (2 : ℚ) ^ binary_digits q.den q.den
        ≤ (q.num.natAbs : ℚ) * (2 * (q.den : ℚ)) := mul_le_mul_of_nonneg_left hb1' hapos.le
      _ < (2 : ℚ) ^ binary_digits q.num.natAbs q.num.natAbs * (2 * (q.den : ℚ)) :=
        mul_lt_mul_of_pos_right ha2' (by positivity)
      _ = (2 : ℚ) ^ binary_digits q.num.natAbs q.num.natAbs * 2 * (q.den : ℚ) := by ring
  unfold binary_exponent
  simp only []
  by_cases h : two_pow ((binary_digits q.num.natAbs q.num.natAbs : Int)
      - (binary_digits q.den q.den : Int)) ≤ |q|
  · rw [if_pos h]
    exact ⟨h, hup⟩
  · rw [if_neg h]
    refine ⟨by simpa [sub_eq_add_neg] using hlow, ?_⟩
    rw [sub_add_cancel]
    exact not_le.mp h

theorem round_half_even_near (q : ℚ) : |q - (round_half_even q : ℚ)| ≤ 1 / 2 := by
  have h1 := Int.floor_le q
  have h2 := Int.lt_floor_add_one q
  unfold round_half_even
  rw [abs_le]
  by_cases c1 : q - ⌊q⌋ < 1 / 2
  · rw [if_pos c1]
    constructor <;> linarith
  · rw [if_neg c1]
    by_cases c2 : 1 / 2 < q - ⌊q⌋
    · rw [if_pos c2]
      push_cast
      constructor <;> linarith
    · rw [if_neg c2]
      by_cases c3 : ⌊q⌋ % 2 = 0
      · rw [if_pos c3]
        constructor <;> linarith
      · rw [if_neg c3]
        push_cast
        constructor <;> linarith

/-- A finite value of `round_float` is a multiple of the spacing of the numbers of type
`float` around `q`, by an integer of at most 24 bits, and no further from `q` than half that
spacing. -/
theorem round_float_near (q r : ℚ) (h : round_float q = .finite r) (hq : q ≠ 0) :
    ∃ m : Int, r = (m : ℚ) * two_pow (max (binary_exponent q) (-126) - 23) ∧
      |m| ≤ 2 ^ 24 ∧
      |q - r| ≤ two_pow (max (binary_exponent q) (-126) - 23) / 2 := by
  have hpos := two_pow_pos (max (binary_exponent q) (-126) - 23)
  unfold round_float at h
  rw [if_neg hq] at h
  simp only [] at h
  split at h
  · cases h
  · split at h
    · cases h
    · simp only [FloatValue.finite.injEq] at h
      refine ⟨round_half_even (q / two_pow (max (binary_exponent q) (-126) - 23)), h.symm, ?_, ?_⟩
      · have hn := round_half_even_near (q / two_pow (max (binary_exponent q) (-126) - 23))
        have hlt : |q / two_pow (max (binary_exponent q) (-126) - 23)| < 2 ^ 24 := by
          rw [abs_div, abs_of_pos hpos, div_lt_iff₀ hpos]
          have h1 := (binary_exponent_spec q hq).2
          have h2 : two_pow (binary_exponent q + 1)
              ≤ 2 ^ 24 * two_pow (max (binary_exponent q) (-126) - 23) := by
            rw [two_pow_eq, two_pow_eq]
            have : (2 : ℚ) ^ 24 = (2 : ℚ) ^ (24 : Int) := by norm_num
            rw [this, ← zpow_add₀ (by norm_num)]
            apply zpow_le_zpow_right₀ (by norm_num)
            have := le_max_left (binary_exponent q) (-126)
            omega
          linarith
        have hb : |((round_half_even (q / two_pow (max (binary_exponent q) (-126) - 23)) : Int) : ℚ)|
            < 2 ^ 24 + 1 := by
          have h3 := abs_sub_abs_le_abs_sub
            ((round_half_even (q / two_pow (max (binary_exponent q) (-126) - 23)) : Int) : ℚ)
            (q / two_pow (max (binary_exponent q) (-126) - 23))
          rw [abs_sub_comm] at h3
          linarith
        have hb' : |round_half_even (q / two_pow (max (binary_exponent q) (-126) - 23))|
            < 2 ^ 24 + 1 := by
          have : ((|round_half_even (q / two_pow (max (binary_exponent q) (-126) - 23))| : Int) : ℚ)
              < ((2 ^ 24 + 1 : Int) : ℚ) := by
            rw [Int.cast_abs]
            push_cast
            linarith
          exact_mod_cast this
        omega
      · rw [← h]
        have hn := round_half_even_near (q / two_pow (max (binary_exponent q) (-126) - 23))
        have e : q - (round_half_even (q / two_pow (max (binary_exponent q) (-126) - 23)) : ℚ)
              * two_pow (max (binary_exponent q) (-126) - 23)
            = (q / two_pow (max (binary_exponent q) (-126) - 23)
                - (round_half_even (q / two_pow (max (binary_exponent q) (-126) - 23)) : ℚ))
              * two_pow (max (binary_exponent q) (-126) - 23) := by
          field_simp
          ring
        rw [e, abs_mul, abs_of_pos hpos]
        calc _ ≤ 1 / 2 * two_pow (max (binary_exponent q) (-126) - 23) :=
              mul_le_mul_of_nonneg_right hn hpos.le
          _ = _ := by ring

/-! ### The spatial filter -/

theorem check_in_range_spec (env : Session) (atom_xyzs : List Str)
    (h : keys_resolve env atom_xyzs = true) :
    ∃ b, check_in_range env atom_xyzs = .ok b ∧
      (b = true ↔ ∃ k ∈ atom_xyzs, ∃ atom, receptor_atom env k = .ok atom ∧
        within_box env atom = true) := by
  induction atom_xyzs with
  | nil => exact ⟨false, rfl, by simp⟩
  | cons k rest ih =>
    have hk : (receptor_atom env k).toBool = true := List.all_eq_true.mp h k (by simp)
    have hrest : keys_resolve env rest = true := by
      apply List.all_eq_true.mpr
      intro x hx
      exact List.all_eq_true.mp h x (by simp [hx])
    cases hr : receptor_atom env k with
    | error e => simp [hr, Except.toBool] at hk
    | ok atom =>
      by_cases hb : within_box env atom = true
      · refine ⟨true, by simp [check_in_range, hr, hb], ?_⟩
        simp only [true_iff]
        exact ⟨k, by simp, atom, hr, hb⟩
      · obtain ⟨b, he, hiff⟩ := ih hrest
        refine ⟨b, by simp [check_in_range, hr, hb, he], ?_⟩
        rw [hiff]
        constructor
        · rintro ⟨k', hk', atom', ha', hb'⟩
          exact ⟨k', by simp [hk'], atom', ha', hb'⟩
        · rintro ⟨k', hk', atom', ha', hb'⟩
          rcases List.mem_cons.mp hk' with rfl | hk''
          · rw [hr] at ha'
            cases ha'
            exact absurd hb' hb
          · exact ⟨k', hk'', atom', ha', hb'⟩

theorem two_residue_keys_resolve :
    keys_resolve two_residue_session [key_gly_n, key_ala_n] = true := by decide!

theorem two_residue_far_atom :
    check_in_range two_residue_session [key_gly_n] = .ok false := by decide!

/-! ### The residue pass with and without the spatial filter -/

theorem map_find_map_set {κ β : Type} [DecidableEq κ] (m : List (κ × β)) (k g : κ) (v : β) :
    map_find (map_set m k v) g = if g = k then some v else map_find m g := by
  induction m with
  | nil =>
    by_cases h : g = k
    · simp [map_set, map_find, h]
    · have : ¬ k = g := fun e => h e.symm
      simp [map_set, map_find, h, this]
  | cons p rest ih =>
    obtain ⟨k0, w⟩ := p
    by_cases h0 : k0 = k
    · by_cases h : g = k
      · simp [map_set, map_find, h0, h]
      · have : ¬ k = g := fun e => h e.symm
        simp [map_set, map_find, h0, h, this]
    · by_cases h : g = k
      · subst h
        simp [map_set, map_find, h0, ih]
      · by_cases h1 : k0 = g
        · simp [map_set, map_find, h0, h, h1]
        · simp [map_set, map_find, h0, h, h1, ih]

theorem flat_keys_perm (order residues : List (Str × List Str)) (h : order.Perm residues) :
    (flat_keys order).Perm (flat_keys residues) := by
  unfold flat_keys
  exact List.Perm.flatten (h.map _)

theorem single_turn_some (env : Session) (line : Str) (i : Int) (s : ℚ)
    (h : single_turn env line = .ok (some (i, s))) :
    index6 line = .ok i ∧ 1 ≤ i ∧ single_removal_score env i = .ok s ∧
      ∃ atom, env.lig_mol.GetAtom i = some atom ∧ atom.atomic_num ≠ 1 := by
  unfold single_turn at h
  cases hi : index6 line with
  | error e => simp [hi] at h
  | ok j =>
    cases hg : env.lig_mol.GetAtom j with
    | none => simp [hi, hg] at h
    | some atom =>
      by_cases hh : atom.atomic_num ≠ 1
      · cases hs : single_removal_score env j with
        | error e => simp [hi, hg, hh, hs] at h
        | ok t =>
          have hrange := GetAtom_range env.lig_mol j (by rw [hg]; rfl)
          simp only [hi, hg, hh, hs, ne_eq, not_false_eq_true, if_true, Except.ok.injEq,
            Option.some.injEq, Prod.mk.injEq] at h
          obtain ⟨rfl, rfl⟩ := h
          exact ⟨rfl, hrange.1, hs, atom, hg, hh⟩
      · simp [hi, hg, hh] at h

theorem capacity_after_one_eq (env : Session) (c : Nat) :
    capacity_after_one env c = if 1 ≤ c then c else env.set_rehash c 1 := by
  unfold capacity_after_one insert_rehashing
  by_cases h : 1 ≤ c <;> simp [h]

theorem capacity_after_one_idem (env : Session) (c : Nat) :
    capacity_after_one env (capacity_after_one env c) = capacity_after_one env c := by
  rw [capacity_after_one_eq env c]
  by_cases h : 1 ≤ c
  · rw [if_pos h, capacity_after_one_eq, if_pos h]
  · rw [if_neg h, capacity_after_one_eq]
    by_cases h2 : 1 ≤ env.set_rehash c 1
    · rw [if_pos h2]
    · have h0 : c = 0 := by omega
      have h3 : env.set_rehash c 1 = 0 := by omega
      rw [if_neg h2]
      subst h0
      rw [h3, h3]

theorem insert_rehashing_first (env : Session) (i : Int) (c : Nat) :
    insert_rehashing env i ([], c) = ([i], capacity_after_one env c) := by
  rw [capacity_after_one_eq]
  unfold insert_rehashing
  by_cases h : 1 ≤ c <;> simp [h]

/-- A turn of the single-atom pass depends on the capacity of the set through the capacity
left by the first insertion only, and hands that capacity on. -/
theorem removal_score_eq (env : Session) (c : Nat) (i : Int) :
    removal_score env c i =
      match add_adjacent_hydrogens env [i] false (capacity_after_one env c) with
      | .error e => .error e
      | .ok atoms_to_remove =>
        match modify_pdbqt_idx atoms_to_remove env.lig_string with
        | .error e => .error e
        | .ok modified_mol_string =>
          match (score_modified_ligand env modified_mol_string).result with
          | .error e => .error e
          | .ok score_val => .ok (score_val, capacity_after_one env c) := by
  unfold removal_score
  rw [insert_rehashing_first]

theorem removal_score_capacity (env : Session) (c : Nat) (i : Int) (s : ℚ) (c' : Nat)
    (h : removal_score env c i = .ok (s, c')) : c' = capacity_after_one env c := by
  rw [removal_score_eq] at h
  cases h1 : add_adjacent_hydrogens env [i] false (capacity_after_one env c) with
  | error e => simp [h1] at h
  | ok atoms =>
    cases h2 : modify_pdbqt_idx atoms env.lig_string with
    | error e => simp [h1, h2] at h
    | ok text =>
      cases h3 : (score_modified_ligand env text).result with
      | error e => simp [h1, h2, h3] at h
      | ok v =>
        simp only [h1, h2, h3, Except.ok.injEq, Prod.mk.injEq] at h
        exact h.2.symm

theorem removal_score_congr (env : Session) (c d : Nat) (i : Int)
    (h : capacity_after_one env c = capacity_after_one env d) :
    removal_score env c i = removal_score env d i := by
  rw [removal_score_eq, removal_score_eq, h]

theorem remove_each_atom_step (env : Session) (line : Str) (rest : List Str) (sd : List ℚ)
    (c : Nat) (ha : hasATOM line = true)
    (hc : capacity_after_one env c = capacity_after_one env env.set_capacity) :
    remove_each_atom_loop env (line :: rest) (sd, c) =
      match single_turn env line with
      | .error e => .error e
      | .ok none => remove_each_atom_loop env rest (sd, c)
      | .ok (some (i, s)) =>
        match vset sd i (env.original_score - s) with
        | .error e => .error e
        | .ok sd' => remove_each_atom_loop env rest (sd', capacity_after_one env c) := by
  simp only [remove_each_atom_loop, ha, if_true, single_turn, index6, single_removal_score]
  cases h1 : substr line 6 5 with
  | error e => rfl
  | ok st =>
    simp only []
    cases h2 : stoi st with
    | error e => rfl
    | ok j =>
      simp only []
      cases h3 : env.lig_mol.GetAtom j with
      | none => rfl
      | some atom =>
        simp only []
        by_cases hh : atom.atomic_num ≠ 1
        · simp only [hh, ne_eq, not_false_eq_true, if_true]
          rw [← removal_score_congr env c env.set_capacity j hc]
          cases h4 : removal_score env c j with
          | error e => rfl
          | ok p =>
            obtain ⟨s, c'⟩ := p
            have hc' := removal_score_capacity env c j s c' h4
            subst hc'
            rfl
        · simp only [hh, if_false]

theorem remove_each_atom_loop_ok (env : Session) (lines : List Str) (sd : List ℚ) (c : Nat)
    (hc : capacity_after_one env c = capacity_after_one env env.set_capacity)
    (h : ∀ l ∈ lines, hasATOM l = true →
      match single_turn env l with
      | .ok (some (i, _)) => i.toNat < sd.length
      | .ok none => True
      | .error _ => False) :
    ∃ sd' c', remove_each_atom_loop env lines (sd, c) = .ok (sd', c') ∧
      sd'.length = sd.length ∧
      (∀ l ∈ lines, hasATOM l = true → ∀ i s, single_turn env l = .ok (some (i, s)) →
        sd'[i.toNat]? = some (env.original_score - s)) ∧
      (∀ a : Nat, (∀ l ∈ lines, hasATOM l = true → ∀ i s,
        single_turn env l = .ok (some (i, s)) → i.toNat ≠ a) → sd'.getD a 0 = sd.getD a 0) := by
  induction lines generalizing sd c with
  | nil => exact ⟨sd, c, rfl, rfl, by simp, fun a _ => rfl⟩
  | cons l ls ih =>
    by_cases ha : hasATOM l = true
    · have hl := h l (by simp) ha
      rw [remove_each_atom_step env l ls sd c ha hc]
      cases ht : single_turn env l with
      | error e => simp [ht] at hl
      | ok o =>
        cases o with
        | none =>
          obtain ⟨sd', c', he, hlen, h1, h2⟩ := ih sd c hc (fun x hx => h x (by simp [hx]))
          refine ⟨sd', c', he, hlen, ?_, ?_⟩
          · intro x hx hax i s hxs
            rcases List.mem_cons.mp hx with rfl | hx'
            · rw [ht] at hxs
              cases hxs
            · exact h1 x hx' hax i s hxs
          · intro a hno
            exact h2 a (fun x hx => hno x (by simp [hx]))
        | some p =>
          obtain ⟨i, s⟩ := p
          simp only [ht] at hl
          obtain ⟨_, hi1, hscore, _⟩ := single_turn_some env l i s ht
          have hi0 : 0 ≤ i := by omega
          have hset : vset sd i (env.original_score - s)
              = .ok (sd.set i.toNat (env.original_score - s)) := by
            simp [vset, hi0, hl]
          obtain ⟨sd', c', he, hlen, h1, h2⟩ := ih (sd.set i.toNat (env.original_score - s))
            (capacity_after_one env c) (by rw [capacity_after_one_idem, hc])
            (fun x hx hax => by simpa using h x (by simp [hx]) hax)
          have hlen' : sd'.length = sd.length := by simpa using hlen
          refine ⟨sd', c', by simp only [hset]; exact he, hlen', ?_, ?_⟩
          · intro x hx hax j t hxs
            rcases List.mem_cons.mp hx with rfl | hx'
            · rw [ht] at hxs
              simp only [Except.ok.injEq, Option.some.injEq, Prod.mk.injEq] at hxs
              obtain ⟨rfl, rfl⟩ := hxs
              by_cases hlater : ∃ y ∈ ls, hasATOM y = true ∧ ∃ k u,
                  single_turn env y = .ok (some (k, u)) ∧ k.toNat = i.toNat
              · obtain ⟨y, hy, hay, k, u, hyt, hk⟩ := hlater
                obtain ⟨_, hk1, hku, _⟩ := single_turn_some env y k u hyt
                have hki : k = i := by omega
                subst hki
                have hus : u = s := by
                  rw [hscore] at hku
                  cases hku
                  rfl
                subst hus
                exact h1 y hy hay k u hyt
              · have hno : ∀ y ∈ ls, hasATOM y = true → ∀ k u,
                    single_turn env y = .ok (some (k, u)) → k.toNat ≠ i.toNat := by
                  intro y hy hay k u hyt hk
                  exact hlater ⟨y, hy, hay, k, u, hyt, hk⟩
                have hget := h2 i.toNat hno
                rw [getD_set _ _ _ _ _ hl, if_pos rfl] at hget
                have hlt : i.toNat < sd'.length := by omega
                rw [List.getD_eq_getElem?_getD, List.getElem?_eq_getElem hlt] at hget
                rw [List.getElem?_eq_getElem hlt]
                simpa using hget
            · exact h1 x hx' hax j t hxs
          · intro a hno
            have hne : i.toNat ≠ a := hno l (by simp) ha i s ht
            rw [h2 a (fun x hx => hno x (by simp [hx])), getD_set _ _ _ _ _ hl,
              if_neg (fun e => hne e.symm)]
    · obtain ⟨sd', c', he, hlen, h1, h2⟩ := ih sd c hc (fun x hx => h x (by simp [hx]))
      refine ⟨sd', c', ?_, hlen, ?_, ?_⟩
      · simp only [remove_each_atom_loop, ha, Bool.false_eq_true, if_false]
        exact he
      · intro x hx hax i s hxs
        rcases List.mem_cons.mp hx with rfl | hx'
        · exact absurd hax ha
        · exact h1 x hx' hax i s hxs
      · intro a hno
        exact h2 a (fun x hx => hno x (by simp [hx]))

/-- The single-atom pass where no store leaves the vector: every heavy atom record of index
`i` has entry `i` equal to the baseline minus the score of the ligand without atom `i` and
its hydrogens; the delta is not divided. -/
theorem remove_each_atom_full_delta (env : Session) (h : single_turns_in_bounds env = true) :
    ∃ score_diffs, remove_each_atom env = .ok score_diffs ∧
      score_diffs.length = (env.AddHydrogens env.lig_mol).NumAtoms ∧
      ∀ l ∈ atom_records env.lig_string, ∀ i s, single_turn env l = .ok (some (i, s)) →
        single_removal_score env i = .ok s ∧
        score_diffs[i.toNat]? = some (env.original_score - s) := by
  have hw : ∀ l ∈ getlines env.lig_string, hasATOM l = true →
      match single_turn env l with
      | .ok (some (i, _)) =>
        i.toNat < (List.replicate (env.AddHydrogens env.lig_mol).NumAtoms (0 : ℚ)).length
      | .ok none => True
      | .error _ => False := by
    intro l hl ha
    have := List.all_eq_true.mp h l (List.mem_filter.mpr ⟨hl, ha⟩)
    cases ht : single_turn env l with
    | error e => simp [ht] at this
    | ok o =>
      cases o with
      | none => trivial
      | some p =>
        obtain ⟨i, s⟩ := p
        simpa [ht] using this
  obtain ⟨sd', c', he, hlen, h1, _⟩ := remove_each_atom_loop_ok env _ _ env.set_capacity rfl hw
  refine ⟨sd', by simp only [remove_each_atom, he], by simpa using hlen, ?_⟩
  intro l hl i s ht
  obtain ⟨hl1, hl2⟩ := List.mem_filter.mp hl
  exact ⟨(single_turn_some env l i s ht).2.2.1, h1 l hl1 hl2 i s ht⟩

theorem sample_single_pass : remove_each_atom sample_session = .ok [0, 1, 2, 3] := by decide!

/-! ### The set that rehashes -/

theorem set_insert_length_le {α : Type} [DecidableEq α] (a : α) (s : List α) :
    s.length ≤ (set_insert a s).length := by
  unfold set_insert
  by_cases h : a ∈ s <;> simp [h]

theorem foldl_set_insert_length_le {α : Type} [DecidableEq α] (js : List α) (s : List α) :
    s.length ≤ (js.foldl (fun s j => set_insert j s) s).length := by
  induction js generalizing s with
  | nil => exact Nat.le_refl _
  | cons j js ih => exact Nat.le_trans (set_insert_length_le j s) (ih (set_insert j s))

theorem insert_rehashing_fst (env : Session) (a : Int) (st : List Int × Nat) :
    (insert_rehashing env a st).1 = set_insert a st.1 := by
  unfold insert_rehashing set_insert
  by_cases h : a ∈ st.1
  · simp [h]
  · by_cases h2 : st.1.length + 1 ≤ st.2 <;> simp [h, h2]

theorem insert_visiting_sound (c : Nat) (a : Int) (s r : List Int)
    (h : insert_visiting c a s = .ok r) : r = set_insert a s := by
  unfold insert_visiting at h
  unfold set_insert
  by_cases h1 : a ∈ s
  · simp only [h1, if_true, Except.ok.injEq] at h
    subst h
    simp [h1]
  · by_cases h2 : s.length + 1 ≤ c
    · simp only [h1, h2, if_true, if_false, Except.ok.injEq] at h
      subst h
      simp [h1]
    · simp [h1, h2] at h

theorem insert_visiting_fit (c : Nat) (a : Int) (s : List Int)
    (h : (set_insert a s).length ≤ c) : insert_visiting c a s = .ok (set_insert a s) := by
  unfold insert_visiting
  unfold set_insert at h ⊢
  by_cases h1 : a ∈ s
  · simp [h1]
  · simp only [h1, if_false, List.length_append, List.length_singleton] at h
    simp [h1, h]

theorem insert_hydrogens_sound (c : Nat) (js : List Int) (s r : List Int)
    (h : insert_hydrogens c js s = .ok r) : r = js.foldl (fun s j => set_insert j s) s := by
  induction js generalizing s with
  | nil =>
    simp only [insert_hydrogens, Except.ok.injEq] at h
    simp [h]
  | cons j js ih =>
    cases h1 : insert_visiting c j s with
    | error e => simp [insert_hydrogens, h1] at h
    | ok s1 =>
      simp only [insert_hydrogens, h1] at h
      rw [ih s1 h, insert_visiting_sound c j s s1 h1]
      rfl

theorem insert_hydrogens_fit (c : Nat) (js : List Int) (s : List Int)
    (h : (js.foldl (fun s j => set_insert j s) s).length ≤ c) :
    insert_hydrogens c js s = .ok (js.foldl (fun s j => set_insert j s) s) := by
  induction js generalizing s with
  | nil => rfl
  | cons j js ih =>
    have h1 : (set_insert j s).length ≤ c :=
      Nat.le_trans (foldl_set_insert_length_le js (set_insert j s)) h
    simp only [insert_hydrogens, insert_visiting_fit c j s h1, List.foldl_cons]
    exact ih (set_insert j s) h

theorem unbounded_hydrogens_loop_length_le (mol : OBMol) (todo s r : List Int)
    (h : unbounded_hydrogens_loop mol todo s = .ok r) : s.length ≤ r.length := by
  induction todo generalizing s with
  | nil =>
    simp only [unbounded_hydrogens_loop, Except.ok.injEq] at h
    simp [h]
  | cons i todo ih =>
    cases hg : mol.GetAtom i with
    | none => simp [unbounded_hydrogens_loop, hg] at h
    | some atom =>
      simp only [unbounded_hydrogens_loop, hg] at h
      exact Nat.le_trans (foldl_set_insert_length_le _ s) (ih _ h)

/-- While `add_adjacent_hydrogens` returns, it returns the members with the hydrogens bonded
to them. -/
theorem add_adjacent_hydrogens_loop_sound (mol : OBMol) (c : Nat) (todo s r : List Int)
    (h : add_adjacent_hydrogens_loop mol c todo s = .ok r) :
    unbounded_hydrogens_loop mol todo s = .ok r := by
  induction todo generalizing s with
  | nil => exact h
  | cons i todo ih =>
    cases hg : mol.GetAtom i with
    | none => simp [add_adjacent_hydrogens_loop, hg] at h
    | some atom =>
      simp only [add_adjacent_hydrogens_loop, hg] at h
      cases h1 : insert_hydrogens c ((mol.neighbors i).filter mol.is_hydrogen) s with
      | error e => simp [h1] at h
      | ok s1 =>
        simp only [h1] at h
        simp only [unbounded_hydrogens_loop, hg]
        rw [← insert_hydrogens_sound c _ s s1 h1]
        exact ih s1 h

/-- A set with room for the members and all the hydrogens bonded to them is not rehashed by
`add_adjacent_hydrogens`. -/
theorem add_adjacent_hydrogens_loop_fit (mol : OBMol) (c : Nat) (todo s r : List Int)
    (h : unbounded_hydrogens_loop mol todo s = .ok r) (hfit : r.length ≤ c) :
    add_adjacent_hydrogens_loop mol c todo s = .ok r := by
  induction todo generalizing s with
  | nil => exact h
  | cons i todo ih =>
    cases hg : mol.GetAtom i with
    | none => simp [unbounded_hydrogens_loop, hg] at h
    | some atom =>
      simp only [unbounded_hydrogens_loop, hg] at h
      have h1 := unbounded_hydrogens_loop_length_le mol todo _ r h
      simp only [add_adjacent_hydrogens_loop, hg,
        insert_hydrogens_fit c _ s (Nat.le_trans h1 hfit)]
      exact ih _ h

theorem add_adjacent_hydrogens_sound (env : Session) (s : List Int) (isRec : Bool) (c : Nat)
    (r : List Int) (h : add_adjacent_hydrogens env s isRec c = .ok r) :
    unbounded_hydrogens env s isRec = .ok r :=
  add_adjacent_hydrogens_loop_sound _ c s s r h

theorem add_adjacent_hydrogens_fit (env : Session) (s : List Int) (isRec : Bool) (c : Nat)
    (r : List Int) (h : unbounded_hydrogens env s isRec = .ok r) (hfit : r.length ≤ c) :
    add_adjacent_hydrogens env s isRec c = .ok r :=
  add_adjacent_hydrogens_loop_fit _ c s s r h hfit

theorem fragment_core_sound (env : Session) (rdkit_mol : RWMol) (bond_list : List Nat)
    (st : List Int × Nat) (r : List Int) (c' : Nat)
    (h : fragment_core env rdkit_mol bond_list st = .ok (r, c')) :
    unbounded_core rdkit_mol bond_list st.1 = .ok r := by
  induction bond_list generalizing st with
  | nil =>
    simp only [fragment_core, Except.ok.injEq] at h
    subst h
    rfl
  | cons b bl ih =>
    cases hb : rdkit_mol.getBondWithIdx b with
    | error e => simp [fragment_core, hb] at h
    | ok bond =>
      simp only [fragment_core, hb] at h
      have h1 := ih _ h
      rw [insert_rehashing_fst, insert_rehashing_fst] at h1
      simp only [unbounded_core, hb]
      exact h1

theorem unbounded_core_length_le (rdkit_mol : RWMol) (bond_list : List Nat) (s r : List Int)
    (h : unbounded_core rdkit_mol bond_list s = .ok r) : s.length ≤ r.length := by
  induction bond_list generalizing s with
  | nil =>
    simp only [unbounded_core, Except.ok.injEq] at h
    simp [h]
  | cons b bl ih =>
    cases hb : rdkit_mol.getBondWithIdx b with
    | error e => simp [unbounded_core, hb] at h
    | ok bond =>
      simp only [unbounded_core, hb] at h
      exact Nat.le_trans (Nat.le_trans (set_insert_length_le _ s) (set_insert_length_le _ _))
        (ih _ h)

theorem set_insert_ne_nil {α : Type} [DecidableEq α] (a : α) (s : List α) :
    set_insert a s ≠ [] := by
  unfold set_insert
  by_cases h : a ∈ s
  · simp only [h, if_true]
    intro h0
    rw [h0] at h
    cases h
  · simp [h]

/-- An insertion outside the loops that leaves the set within the capacity `C` it has once
it holds a member leaves it with that capacity. -/
theorem insert_rehashing_fit (env : Session) (a : Int) (s : List Int) (c C : Nat)
    (hC : capacity_after_one env c = C) (hs : s ≠ [] → c = C)
    (hfit : (set_insert a s).length ≤ C) :
    insert_rehashing env a (s, c) = (set_insert a s, C) := by
  by_cases h0 : s = []
  · subst h0
    rw [insert_rehashing_first, hC]
    rfl
  · have hc := hs h0
    subst hc
    unfold insert_rehashing
    unfold set_insert at hfit ⊢
    by_cases h1 : a ∈ s
    · simp [h1]
    · simp only [h1, if_false, List.length_append, List.length_singleton] at hfit
      simp [h1, hfit]

theorem fragment_core_fit (env : Session) (rdkit_mol : RWMol) (bond_list : List Nat)
    (s : List Int) (c C : Nat) (r : List Int)
    (hC : capacity_after_one env c = C) (hs : s ≠ [] → c = C)
    (h : unbounded_core rdkit_mol bond_list s = .ok r) (hfit : r.length ≤ C) :
    ∃ c', fragment_core env rdkit_mol bond_list (s, c) = .ok (r, c') ∧
      capacity_after_one env c' = C ∧ (r ≠ [] → c' = C) := by
  induction bond_list generalizing s c with
  | nil =>
    simp only [unbounded_core, Except.ok.injEq] at h
    subst h
    exact ⟨c, rfl, hC, hs⟩
  | cons b bl ih =>
    cases hb : rdkit_mol.getBondWithIdx b with
    | error e => simp [unbounded_core, hb] at h
    | ok bond =>
      simp only [unbounded_core, hb] at h
      have hlen := unbounded_core_length_le rdkit_mol bl _ r h
      have h2 : (set_insert ((bond.2 : Int) + 1)
          (set_insert ((bond.1 : Int) + 1) s)).length ≤ C := Nat.le_trans hlen hfit
      have h1 : (set_insert ((bond.1 : Int) + 1) s).length ≤ C :=
        Nat.le_trans (set_insert_length_le _ _) h2
      have hCC : capacity_after_one env C = C := by
        rw [← hC, capacity_after_one_idem]
      simp only [fragment_core, hb]
      rw [insert_rehashing_fit env _ s c C hC hs h1,
        insert_rehashing_fit env _ _ C C hCC (fun _ => rfl) h2]
      exact ih _ C hCC (fun _ => rfl) h

theorem score_fragment_sound (env : Session) (rdkit_mol : RWMol) (bond_list : List Nat)
    (c : Nat) (u : FragmentUnit) (c' : Nat)
    (h : score_fragment env rdkit_mol bond_list c = .ok (u, c')) :
    unbounded_unit env rdkit_mol bond_list = .ok u := by
  unfold score_fragment at h
  cases h1 : fragment_core env rdkit_mol bond_list ([], c) with
  | error e => simp [h1] at h
  | ok p =>
    obtain ⟨core, c1⟩ := p
    simp only [h1] at h
    have hc : unbounded_core rdkit_mol bond_list [] = .ok core :=
      fragment_core_sound env rdkit_mol bond_list ([], c) core c1 h1
    cases h2 : add_adjacent_hydrogens env core false c1 with
    | error e => simp [h2] at h
    | ok atoms =>
      simp only [h2] at h
      have ha := add_adjacent_hydrogens_sound env core false c1 atoms h2
      unfold unbounded_unit
      simp only [hc, ha]
      cases h3 : modify_pdbqt_idx atoms env.lig_string with
      | error e => simp [h3] at h
      | ok text =>
        simp only [h3] at h ⊢
        cases h4 : (score_modified_ligand env text).result with
        | error e => simp [h4] at h
        | ok v =>
          simp only [h4, Except.ok.injEq, Prod.mk.injEq] at h ⊢
          exact h.1

theorem score_fragment_fit (env : Session) (rdkit_mol : RWMol) (bond_list : List Nat)
    (c C : Nat) (u : FragmentUnit) (hC : capacity_after_one env c = C)
    (h : unbounded_unit env rdkit_mol bond_list = .ok u)
    (hfit : u.atoms_to_remove.length ≤ C) :
    ∃ c', score_fragment env rdkit_mol bond_list c = .ok (u, c') ∧
      capacity_after_one env c' = C := by
  unfold unbounded_unit at h
  cases h1 : unbounded_core rdkit_mol bond_list [] with
  | error e => simp [h1] at h
  | ok core =>
    simp only [h1] at h
    cases h2 : unbounded_hydrogens env core false with
    | error e => simp [h2] at h
    | ok atoms =>
      simp only [h2] at h
      cases h3 : modify_pdbqt_idx atoms env.lig_string with
      | error e => simp [h3] at h
      | ok text =>
        simp only [h3] at h
        cases h4 : (score_modified_ligand env text).result with
        | error e => simp [h4] at h
        | ok v =>
          simp only [h4, Except.ok.injEq] at h
          subst h
          simp only [] at hfit
          have hle : core.length ≤ atoms.length :=
            unbounded_hydrogens_loop_length_le _ core core atoms h2
          obtain ⟨c1, hf, hc1, hne⟩ := fragment_core_fit env rdkit_mol bond_list [] c C core hC
            (fun hn => absurd rfl hn) h1 (Nat.le_trans hle hfit)
          have hroom : atoms.length ≤ c1 := by
            by_cases h0 : core = []
            · subst h0
              simp only [unbounded_hydrogens, unbounded_hydrogens_loop, Except.ok.injEq] at h2
              subst h2
              exact Nat.zero_le _
            · rw [hne h0]
              exact hfit
          refine ⟨c1, ?_, hc1⟩
          unfold score_fragment
          simp only [hf, add_adjacent_hydrogens_fit env core false c1 atoms h2 hroom, h3, h4]

theorem remove_fragments_loop_sound (env : Session) (rdkit_mol : RWMol)
    (units : List (List Nat)) (st : List ℚ × List Int) (c : Nat) (st' : List ℚ × List Int)
    (c' : Nat) (h : remove_fragments_loop env rdkit_mol units (st, c) = .ok (st', c')) :
    unbounded_loop env rdkit_mol units st = .ok st' := by
  induction units generalizing st c with
  | nil =>
    simp only [remove_fragments_loop, Except.ok.injEq, Prod.mk.injEq] at h
    simp [unbounded_loop, h.1]
  | cons u rest ih =>
    simp only [remove_fragments_loop] at h
    cases h1 : score_fragment env rdkit_mol u c with
    | error e => simp [h1] at h
    | ok p =>
      obtain ⟨f, c1⟩ := p
      simp only [h1] at h
      simp only [unbounded_loop, score_fragment_sound env rdkit_mol u c f c1 h1]
      cases h2 : accumulate ((env.original_score - f.score) / (f.size_without_hydrogens : ℚ))
          f.atoms_to_remove st with
      | error e => simp [h2] at h
      | ok st1 =>
        simp only [h2] at h ⊢
        exact ih st1 c1 h

theorem remove_fragments_loop_fit (env : Session) (rdkit_mol : RWMol)
    (units : List (List Nat)) (st : List ℚ × List Int) (c C : Nat)
    (hC : capacity_after_one env c = C)
    (hu : ∀ u ∈ units, ∃ f, unbounded_unit env rdkit_mol u = .ok f ∧
      f.atoms_to_remove.length ≤ C) :
    (remove_fragments_loop env rdkit_mol units (st, c)).map Prod.fst
      = unbounded_loop env rdkit_mol units st := by
  induction units generalizing st c with
  | nil => rfl
  | cons u rest ih =>
    obtain ⟨f, hf, hfit⟩ := hu u (by simp)
    obtain ⟨c1, hs, hc1⟩ := score_fragment_fit env rdkit_mol u c C f hC hf hfit
    simp only [remove_fragments_loop, unbounded_loop, hs, hf]
    cases h2 : accumulate ((env.original_score - f.score) / (f.size_without_hydrogens : ℚ))
        f.atoms_to_remove st with
    | error e => rfl
    | ok st1 =>
      simp only []
      exact ih st1 c1 hc1 (fun x hx => hu x (by simp [hx]))

/-- Whenever the fragment pass returns a vector, it is the vector of the pass in a set that
never has to rehash. -/
theorem remove_fragments_over_sound (env : Session) (rdkit_mol : RWMol)
    (paths : List (Nat × List (List Nat))) (v : List ℚ)
    (h : remove_fragments_over env rdkit_mol paths = .ok v) :
    unbounded_pass env rdkit_mol paths = .ok v := by
  unfold remove_fragments_over at h
  simp only [] at h
  cases h1 : remove_fragments_loop env rdkit_mol (all_paths paths)
      ((List.replicate ((env.AddHydrogens env.lig_mol).NumAtoms + 1) 0,
        List.replicate ((env.AddHydrogens env.lig_mol).NumAtoms + 1) 0), env.set_capacity) with
  | error e => rw [h1] at h; cases h
  | ok p =>
    obtain ⟨⟨sd, sc⟩, c⟩ := p
    rw [h1] at h
    unfold unbounded_pass
    simp only [remove_fragments_loop_sound env rdkit_mol _ _ _ _ _ h1]
    exact h

theorem fragments_fit_units (env : Session) (rdkit_mol : RWMol)
    (paths : List (Nat × List (List Nat)))
    (hu : fragments_scored env rdkit_mol paths = true)
    (hf : fragments_fit env rdkit_mol paths = true) :
    ∀ u ∈ all_paths paths, ∃ f, unbounded_unit env rdkit_mol u = .ok f ∧
      f.atoms_to_remove.length ≤ capacity_after_one env env.set_capacity := by
  intro u hmem
  have h1 := List.all_eq_true.mp hu u hmem
  have h2 := List.all_eq_true.mp hf u hmem
  cases hf' : unbounded_unit env rdkit_mol u with
  | error e => simp [hf', Except.toBool] at h1
  | ok f =>
    refine ⟨f, rfl, ?_⟩
    simpa [removal_set, hf'] using h2

/-- While no removal set has more members than the set holds without rehashing, the fragment
pass is the pass in a set that never has to rehash. -/
theorem remove_fragments_over_fit (env : Session) (rdkit_mol : RWMol)
    (paths : List (Nat × List (List Nat)))
    (hu : fragments_scored env rdkit_mol paths = true)
    (hf : fragments_fit env rdkit_mol paths = true) :
    remove_fragments_over env rdkit_mol paths = unbounded_pass env rdkit_mol paths := by
  have hl := remove_fragments_loop_fit env rdkit_mol (all_paths paths)
    (List.replicate ((env.AddHydrogens env.lig_mol).NumAtoms + 1) 0,
      List.replicate ((env.AddHydrogens env.lig_mol).NumAtoms + 1) 0)
    env.set_capacity _ rfl (fragments_fit_units env rdkit_mol paths hu hf)
  unfold remove_fragments_over unbounded_pass
  simp only []
  rw [← hl]
  cases h1 : remove_fragments_loop env rdkit_mol (all_paths paths)
      ((List.replicate ((env.AddHydrogens env.lig_mol).NumAtoms + 1) 0,
        List.replicate ((env.AddHydrogens env.lig_mol).NumAtoms + 1) 0), env.set_capacity) with
  | error e => rfl
  | ok p =>
    obtain ⟨⟨sd, sc⟩, c⟩ := p
    rfl

/-- The fragment pass where every path gets scored and no removal set has more members than
the set holds without rehashing: the entry at the index `a` of a heavy atom
(`1 .. rdkit_mol.numAtoms`) is `S / c` if `c > 0` and `0` if `c = 0`, where `c` counts the
paths whose removal set holds `a` and `S` adds, over those paths, (baseline - perturbed
score) / (size of the core before hydrogens). -/
theorem remove_fragments_over_mean_of_shares (env : Session) (rdkit_mol : RWMol)
    (paths : List (Nat × List (List Nat)))
    (hu : fragments_scored env rdkit_mol paths = true)
    (hf : fragments_fit env rdkit_mol paths = true)
    (hn : rdkit_mol.numAtoms ≤ env.lig_mol.NumAtoms)
    (hh : env.lig_mol.NumAtoms ≤ (env.AddHydrogens env.lig_mol).NumAtoms) :
    ∃ avg, remove_fragments_over env rdkit_mol paths = .ok avg ∧
      ∀ a : Nat, 1 ≤ a → a ≤ rdkit_mol.numAtoms →
        avg[a]? = some
          (if 0 < (touching env rdkit_mol (all_paths paths) a).length then
            ((touching env rdkit_mol (all_paths paths) a).map (unit_share env rdkit_mol)).sum
              / ((touching env rdkit_mol (all_paths paths) a).length : ℚ)
          else 0) := by
  obtain ⟨avg, he, hv, _⟩ := unbounded_pass_mean_of_shares env rdkit_mol paths hu hn hh
  exact ⟨avg, by rw [remove_fragments_over_fit env rdkit_mol paths hu hf]; exact he, hv⟩

/-- Two enumerations of the same collection of paths, none of whose removal sets has more
members than the set holds without rehashing, give the same vector. -/
theorem remove_fragments_over_order_irrelevant (env : Session) (rdkit_mol : RWMol)
    (paths1 paths2 : List (Nat × List (List Nat)))
    (hperm : (all_paths paths1).Perm (all_paths paths2))
    (hu : fragments_scored env rdkit_mol paths1 = true)
    (hf : fragments_fit env rdkit_mol paths1 = true) :
    remove_fragments_over env rdkit_mol paths1 = unbounded_pass env rdkit_mol paths1 ∧
    (remove_fragments_over env rdkit_mol paths1).toOption
      = (remove_fragments_over env rdkit_mol paths2).toOption := by
  have hu2 : fragments_scored env rdkit_mol paths2 = true := by
    apply List.all_eq_true.mpr
    intro u hmem
    exact List.all_eq_true.mp hu u (hperm.mem_iff.mpr hmem)
  have hf2 : fragments_fit env rdkit_mol paths2 = true := by
    apply List.all_eq_true.mpr
    intro u hmem
    exact List.all_eq_true.mp hf u (hperm.mem_iff.mpr hmem)
  refine ⟨remove_fragments_over_fit env rdkit_mol paths1 hu hf, ?_⟩
  rw [remove_fragments_over_fit env rdkit_mol paths1 hu hf,
    remove_fragments_over_fit env rdkit_mol paths2 hu2 hf2]
  exact unbounded_pass_order_irrelevant env rdkit_mol paths1 paths2 hperm

/-- Whenever the fragment pass returns in two enumerations of the same collection of paths,
it returns the same vector. -/
theorem remove_fragments_over_returned_equal (env : Session) (rdkit_mol : RWMol)
    (paths1 paths2 : List (Nat × List (List Nat)))
    (hperm : (all_paths paths1).Perm (all_paths paths2)) (v1 v2 : List ℚ)
    (h1 : remove_fragments_over env rdkit_mol paths1 = .ok v1)
    (h2 : remove_fragments_over env rdkit_mol paths2 = .ok v2) : v1 = v2 := by
  have e := unbounded_pass_order_irrelevant env rdkit_mol paths1 paths2 hperm
  rw [remove_fragments_over_sound env rdkit_mol paths1 v1 h1,
    remove_fragments_over_sound env rdkit_mol paths2 v2 h2] at e
  simpa [Except.toOption] using e

/-! ### A removal set of more members than the set holds -/

theorem sample_fragments_fit :
    fragments_fit sample_session sample_rdkit sample_paths = true := by decide!

theorem butanol_fragments_scored :
    fragments_scored butanol_session butanol_rdkit butanol_paths = true := by decide!

theorem butanol_means :
    unbounded_pass butanol_session butanol_rdkit butanol_paths
      = .ok [0, 317 / 480, 71 / 120, 527 / 960, 149 / 280, 21 / 40, 0] := by decide!

theorem butanol_oxygen_shares :
    (touching butanol_session butanol_rdkit (all_paths butanol_paths) 1).length = 4 ∧
    ((touching butanol_session butanol_rdkit (all_paths butanol_paths) 1).map
      (unit_share butanol_session butanol_rdkit)).sum = 317 / 120 := by decide!

theorem butanol_whole_turn :
    (removal_set butanol_session butanol_rdkit [0, 1, 2, 3]).length = 15 ∧
    capacity_after_one butanol_session butanol_session.set_capacity = 13 ∧
    score_fragment butanol_session butanol_rdkit [0, 1, 2, 3] 13
      = .error .invalidated_iterator := by decide!

theorem butanol_pass : remove_fragments butanol_session 6 = .error .invalidated_iterator := by
  decide!

theorem amine_paths_perm : (all_paths amine_paths).Perm (all_paths amine_paths_reversed) := by
  decide

theorem amine_means :
    unbounded_pass amine_session amine_rdkit amine_paths
      = .ok [0, 79 / 100, 217 / 270, 116 / 165, 69 / 110, 319 / 540, 43 / 75, 0, 0] := by
  decide!

theorem amine_means_reversed :
    unbounded_pass amine_session amine_rdkit amine_paths_reversed
      = .ok [0, 79 / 100, 217 / 270, 116 / 165, 69 / 110, 319 / 540, 43 / 75, 0, 0] := by
  decide!

theorem amine_pass :
    remove_fragments_over amine_session amine_rdkit amine_paths
      = .error .invalidated_iterator := by decide!

theorem amine_pass_reversed :
    remove_fragments_over amine_session amine_rdkit amine_paths_reversed
      = .error .invalidated_iterator := by decide!

theorem amine_turn :
    score_fragment amine_session amine_rdkit [1, 2, 3, 4] 13 = .error .invalidated_iterator ∧
    score_fragment amine_session amine_rdkit [0, 1, 2, 3] 13 = .error .invalidated_iterator ∧
    (score_fragment amine_session amine_rdkit [1, 2, 3, 4] 29).toBool = true := by decide!

/-- C1: on 1-butanol every path gets scored and the means of the shares exist (for the
oxygen, 317/120 over 4 paths), but the path through all four bonds has a removal set of 15
members where the set holds 13 without rehashing: the fourteenth is inserted while the loop
of `add_adjacent_hydrogens` runs over the set, the rehash invalidates the iterator of that
loop, and `remove_fragments` does not return the vector of the means. -/
theorem remove_fragments_butanol_rehash :
    fragments_scored butanol_session butanol_rdkit butanol_paths = true ∧
    unbounded_pass butanol_session butanol_rdkit butanol_paths
      = .ok [0, 317 / 480, 71 / 120, 527 / 960, 149 / 280, 21 / 40, 0] ∧
    (touching butanol_session butanol_rdkit (all_paths butanol_paths) 1).length = 4 ∧
    ((touching butanol_session butanol_rdkit (all_paths butanol_paths) 1).map
      (unit_share butanol_session butanol_rdkit)).sum = 317 / 120 ∧
    (removal_set butanol_session butanol_rdkit [0, 1, 2, 3]).length = 15 ∧
    capacity_after_one butanol_session butanol_session.set_capacity = 13 ∧
    score_fragment butanol_session butanol_rdkit [0, 1, 2, 3] 13
      = .error .invalidated_iterator ∧
    remove_fragments butanol_session 6 = .error .invalidated_iterator :=
  ⟨butanol_fragments_scored, butanol_means, butanol_oxygen_shares.1, butanol_oxygen_shares.2,
    butanol_whole_turn.1, butanol_whole_turn.2.1, butanol_whole_turn.2.2, butanol_pass⟩

/-- C10: on N-methylbutylamine the fifteen paths, enumerated from the methyl end or from the
butyl end, have the same means of the shares, but in either order the first path of four
bonds inserts a fourteenth member while the loop of `add_adjacent_hydrogens` runs over the
set, and `remove_fragments` returns a vector in neither order; whether the turn of a path
returns depends on what the turns before it have left of the set, the turn of the path
`[1, 2, 3, 4]` returning on a set that holds 29 members and not on one that holds 13. -/
theorem remove_fragments_amine_orders :
    (all_paths amine_paths).Perm (all_paths amine_paths_reversed) ∧
    unbounded_pass amine_session amine_rdkit amine_paths
      = .ok [0, 79 / 100, 217 / 270, 116 / 165, 69 / 110, 319 / 540, 43 / 75, 0, 0] ∧
    unbounded_pass amine_session amine_rdkit amine_paths_reversed
      = .ok [0, 79 / 100, 217 / 270, 116 / 165, 69 / 110, 319 / 540, 43 / 75, 0, 0] ∧
    remove_fragments_over amine_session amine_rdkit amine_paths
      = .error .invalidated_iterator ∧
    remove_fragments_over amine_session amine_rdkit amine_paths_reversed
      = .error .invalidated_iterator ∧
    score_fragment amine_session amine_rdkit [0, 1, 2, 3] 13 = .error .invalidated_iterator ∧
    score_fragment amine_session amine_rdkit [1, 2, 3, 4] 13 = .error .invalidated_iterator ∧
    (score_fragment amine_session amine_rdkit [1, 2, 3, 4] 29).toBool = true :=
  ⟨amine_paths_perm, amine_means, amine_means_reversed, amine_pass, amine_pass_reversed,
    amine_turn.2.1, amine_turn.1, amine_turn.2.2⟩

/-! ### The totals of the additivity record -/

theorem foldl_cond_add (l : List Nat) (p : Nat → Bool) (f : Nat → ℚ) (acc : ℚ) :
    l.foldl (fun total i => if p i = true then total + f i else total) acc
      = acc + ((l.filter p).map f).sum := by
  induction l generalizing acc with
  | nil => simp
  | cons x xs ih =>
    by_cases hx : p x = true
    · simp only [List.foldl_cons, hx, if_true, ih, List.filter_cons, List.map_cons,
        List.sum_cons]
      ring
    · simp only [List.foldl_cons, hx, if_false, ih, List.filter_cons]
      simp

theorem additivity_total_eq (env : Session) (diffs : List ℚ) :
    additivity_total env diffs
      = (((List.range' 1 (diffs.length - 1)).filter (counted_in_total env)).map
          (fun i => diffs.getD i 0)).sum := by
  unfold additivity_total
  have hstep : (fun (total : ℚ) (i : Nat) =>
      if i ≤ env.lig_mol.NumAtoms then
        match env.lig_mol.GetAtom (i : Int) with
        | some atom => if atom.atomic_num ≠ 1 then total + diffs.getD i 0 else total
        | none => total
      else total)
      = (fun total i => if counted_in_total env i = true then total + diffs.getD i 0
          else total) := by
    funext total i
    unfold counted_in_total
    by_cases h1 : i ≤ env.lig_mol.NumAtoms
    · cases hg : env.lig_mol.GetAtom (i : Int) with
      | none => simp [h1]
      | some atom =>
        by_cases h2 : atom.atomic_num = 1
        · simp [h1, h2]
        · simp [h1, h2]
    · simp [h1]
  rw [hstep, foldl_cond_add]
  simp

/-- The fragment total of the additivity record: with the vector `remove_fragments` returns
(one entry more than `lig_mol` has atoms), every heavy atom of `lig_mol` and no hydrogen is
added. -/
theorem frag_total_all_heavy_atoms (env : Session) (frag_score_diffs : List ℚ)
    (single_score_diffs : List ℚ) (ha : env.visopts.atoms_only = false)
    (hlen : frag_score_diffs.length = env.lig_mol.NumAtoms + 1) :
    (write_additivity env single_score_diffs frag_score_diffs).2.2
      = (((List.range' 1 env.lig_mol.NumAtoms).filter (counted_in_total env)).map
          (fun i => frag_score_diffs.getD i 0)).sum := by
  simp only [write_additivity, ha, Bool.not_false, if_true, additivity_total_eq, hlen,
    Nat.add_sub_cancel]

/-! ### Heavy atoms beyond the RDKit molecule -/

theorem unbounded_core_mem (rdkit_mol : RWMol) (bond_list : List Nat) (s r : List Int)
    (h : unbounded_core rdkit_mol bond_list s = .ok r) (a : Int) (ha : a ∈ r) :
    a ∈ s ∨ ∃ b ∈ rdkit_mol.bonds, a = (b.1 : Int) + 1 ∨ a = (b.2 : Int) + 1 := by
  induction bond_list generalizing s with
  | nil =>
    simp only [unbounded_core, Except.ok.injEq] at h
    exact Or.inl (h ▸ ha)
  | cons b bl ih =>
    cases hb : rdkit_mol.getBondWithIdx b with
    | error e => simp [unbounded_core, hb] at h
    | ok bond =>
      simp only [unbounded_core, hb] at h
      have hmem : bond ∈ rdkit_mol.bonds := by
        unfold RWMol.getBondWithIdx at hb
        cases hg : rdkit_mol.bonds.get? b with
        | none => rw [hg] at hb; cases hb
        | some x =>
          rw [hg] at hb
          simp only [Except.ok.injEq] at hb
          subst hb
          exact List.get?_mem hg
      rcases ih _ h with h1 | h1
      · rcases (mem_set_insert _ _ _).mp h1 with h2 | h2
        · exact Or.inr ⟨bond, hmem, Or.inr h2⟩
        · rcases (mem_set_insert _ _ _).mp h2 with h3 | h3
          · exact Or.inr ⟨bond, hmem, Or.inl h3⟩
          · exact Or.inl h3
      · exact Or.inr h1

theorem unbounded_hydrogens_loop_mem (mol : OBMol) (todo s r : List Int)
    (h : unbounded_hydrogens_loop mol todo s = .ok r) (a : Int) (ha : a ∈ r) :
    a ∈ s ∨ mol.is_hydrogen a = true := by
  induction todo generalizing s with
  | nil =>
    simp only [unbounded_hydrogens_loop, Except.ok.injEq] at h
    exact Or.inl (h ▸ ha)
  | cons i todo ih =>
    cases hg : mol.GetAtom i with
    | none => simp [unbounded_hydrogens_loop, hg] at h
    | some at_i =>
      simp only [unbounded_hydrogens_loop, hg] at h
      rcases ih _ h with h1 | h1
      · rcases (mem_foldl_set_insert _ _ _).mp h1 with h2 | h2
        · exact Or.inr (by simpa using (List.mem_filter.mp h2).2)
        · exact Or.inl h2
      · exact Or.inr h1

/-- An index beyond the atoms of the RDKit molecule that is not a hydrogen of the completed
ligand is in no removal set, and its entry in the vector of `remove_fragments` is 0. -/
theorem unbounded_pass_untouched_index (env : Session) (rdkit_mol : RWMol)
    (paths : List (Nat × List (List Nat)))
    (hu : fragments_scored env rdkit_mol paths = true)
    (hn : rdkit_mol.numAtoms ≤ env.lig_mol.NumAtoms)
    (hh : env.lig_mol.NumAtoms ≤ (env.AddHydrogens env.lig_mol).NumAtoms)
    (hb : ∀ b ∈ rdkit_mol.bonds, b.1 < rdkit_mol.numAtoms ∧ b.2 < rdkit_mol.numAtoms)
    (a : Nat) (ha : rdkit_mol.numAtoms < a)
    (hheavy : (env.AddHydrogens env.lig_mol).is_hydrogen (a : Int) = false) :
    touching env rdkit_mol (all_paths paths) a = [] ∧
      ∃ avg, unbounded_pass env rdkit_mol paths = .ok avg ∧ avg.getD a 0 = 0 := by
  constructor
  · apply List.filter_eq_nil_iff.mpr
    intro u hu1
    simp only [decide_eq_true_eq]
    intro hmem
    obtain ⟨core, atoms, _, _, hc, hadd, _, _, hrem, _⟩ :=
      unbounded_unit_steps env rdkit_mol u (List.all_eq_true.mp hu u hu1)
    rw [hrem] at hmem
    unfold unbounded_hydrogens at hadd
    simp only [Bool.false_eq_true, if_false] at hadd
    rcases unbounded_hydrogens_loop_mem _ core core atoms hadd _ hmem with h1 | h1
    · rcases unbounded_core_mem rdkit_mol u [] core hc _ h1 with h2 | ⟨b, hbm, h2⟩
      · simp at h2
      · have := hb b hbm
        omega
    · rw [hheavy] at h1
      cases h1
  · obtain ⟨avg, he, _, hp⟩ := unbounded_pass_ok env rdkit_mol paths hu hn hh
    refine ⟨avg, he, ?_⟩
    rw [hp a, if_neg (by omega)]

/-- The single-atom total of the additivity record when the vector has an entry for every
atom of `lig_mol` (more entries than `lig_mol` has atoms): every heavy atom of `lig_mol`
and no hydrogen is added. -/
theorem single_total_all_heavy_atoms (env : Session) (single_score_diffs : List ℚ)
    (frag_score_diffs : List ℚ) (hf : env.visopts.frags_only = false)
    (hlen : env.lig_mol.NumAtoms < single_score_diffs.length) :
    (write_additivity env single_score_diffs frag_score_diffs).2.1
      = (((List.range' 1 env.lig_mol.NumAtoms).filter (counted_in_total env)).map
          (fun i => single_score_diffs.getD i 0)).sum := by
  simp only [write_additivity, hf, Bool.not_false, if_true, additivity_total_eq]
  have hsplit : List.range' 1 (single_score_diffs.length - 1)
      = List.range' 1 env.lig_mol.NumAtoms
        ++ List.range' (1 + env.lig_mol.NumAtoms)
          (single_score_diffs.length - 1 - env.lig_mol.NumAtoms) := by
    rw [List.range'_append_1]
    congr 1
    omega
  have hnone : (List.range' (1 + env.lig_mol.NumAtoms)
      (single_score_diffs.length - 1 - env.lig_mol.NumAtoms)).filter (counted_in_total env)
        = [] := by
    apply List.filter_eq_nil_iff.mpr
    intro i hi
    have hi' := (List.mem_range'_1.mp hi).1
    unfold counted_in_total
    have : ¬ i ≤ env.lig_mol.NumAtoms := by omega
    simp [this]
  rw [hsplit, List.filter_append, hnone, List.append_nil]

/-! ### The store of the single-atom pass -/

/-- C15 on carbon dioxide: the records carry the indices 1, 2, 3 and the hydrogen-completed
ligand has 3 atoms, yet the turn of the heavy atom of index 3 stores at position 3, which a
vector of 3 entries does not have. -/
theorem remove_each_atom_store_outside_vector :
    (atom_records co2_session.lig_string).map index6 = [.ok 1, .ok 2, .ok 3] ∧
    (co2_session.AddHydrogens co2_session.lig_mol).NumAtoms = 3 ∧
    single_turn co2_session
      "ATOM      3  O3  LIG A   1       1.160   0.000   0.000  0.00  0.00    -0.200 OA".toList
      = .ok (some (3, 3)) ∧
    vset (List.replicate 3 (0 : ℚ)) 3 (co2_session.original_score - 3) = .error .vector_bounds ∧
    single_turns_in_bounds co2_session = false := by
  decide!

/-! ### The columns the index is read from -/

/-- C16 on a record of serial 10001: the single-atom pass and the writer read the index
10001, the builder reads 1. Asked to remove index 10001 the builder keeps the record; asked
to remove index 1 it drops the record of serial 1 and the record of serial 10001. -/
theorem modify_pdbqt_index_columns_differ :
    index6 record_10001 = .ok 10001 ∧
    index7 record_10001 = .ok 1 ∧
    modify_pdbqt_idx [10001] wide_serial_string
      = .ok (ROOT ++ wide_serial_string ++ ENDROOT ++ TORSDOF0) ∧
    modify_pdbqt_idx [1] wide_serial_string = .ok (ROOT ++ ENDROOT ++ TORSDOF0) := by
  decide!

/-! ### The spatial key -/

/-- C17 on two records that differ in the sign of `z`: the coordinate fields, each a number
printed with three decimals and right-justified, differ, and the spatial keys are the same,
the sign column of `z` not being among the columns read. On the
receptor made of these two records the residue pass ends with one entry for the two atoms,
and the writer stops on its assertion. -/
theorem get_xyz_mirror_records_share_key :
    coordinate_fields mirror_record_below
      = .ok ("  11.104".toList, "   6.134".toList, " -16.504".toList) ∧
    coordinate_fields mirror_record_above
      = .ok ("  11.104".toList, "   6.134".toList, "  16.504".toList) ∧
    coordinate_text " -16.504".toList = true ∧
    coordinate_text "  16.504".toList = true ∧
    coordinate_text "  11.104".toList = true ∧
    coordinate_text "   6.134".toList = true ∧
    get_xyz mirror_record_below = .ok "11.1046.13416.504".toList ∧
    get_xyz mirror_record_above = .ok "11.1046.13416.504".toList ∧
    remove_residues_scores mirror_session = .ok [("11.1046.13416.504".toList, 2)] ∧
    remove_residues mirror_session = .error .assertion_failed := by
  decide!

/-! ### The two identity maps -/

/-- C18 on a receptor with the serials 1 and 10001: the keys of the two records differ and
so do their serials, both records are entered under the index 1, and the key of the first
record is sent to 1 and 1 to the key of the second. -/
theorem identity_maps_wide_serial :
    record_keys wide_serial_string = [key_ala_n, key_ala_ca] ∧
    (atom_records wide_serial_string).map index6 = [.ok 1, .ok 10001] ∧
    (atom_records wide_serial_string).map index7 = [.ok 1, .ok 1] ∧
    get_openbabel_index wide_serial_session key_ala_n true = .ok 1 ∧
    get_xyz_from_index wide_serial_session 1 true = .ok key_ala_ca ∧
    key_ala_n ≠ key_ala_ca := by
  decide!

/-! ### The frame of the annotated structure -/

theorem resize_length (s : Str) (n : Nat) : (resize s n).length = n := by
  simp only [resize, List.length_append, List.length_take, List.length_replicate]
  omega

theorem right_aligned_wide (w : Nat) (c : Char) (s : Str) (h : w ≤ s.length) :
    right_aligned w c s = s := by
  simp [right_aligned, Nat.sub_eq_zero_of_le h]

theorem score_field_length (scores : ScoreMap) (i : Nat) (line : Str) :
    (score_field scores i line).length = if i = 0 then 5 else 7 := by
  simp only [score_field, resize_length]

theorem write_scores_line_text (scores : ScoreMap) (i : Nat) (line : Str) (fc : Nat)
    (h : is_atom_line line = true → 77 ≤ line.length ∧ (index6 line).toBool = true) :
    write_scores_line scores i line fc
      = .ok (written_line scores i line ++ ['\n'],
          fc + if is_atom_line line && key_found scores line then 1 else 0) := by
  by_cases ha : is_atom_line line = true
  · obtain ⟨hlen, hidx⟩ := h ha
    have h6 : 6 ≤ line.length := by omega
    have h66 : 66 ≤ line.length := by omega
    obtain ⟨xyz, hxyz⟩ := get_xyz_ok line (by omega)
    have hs6 : substr line 6 5 = .ok ((line.drop 6).take 5) := by simp [substr, h6]
    have hst : ∃ n, stoi ((line.drop 6).take 5) = .ok n := by
      unfold index6 at hidx
      rw [hs6] at hidx
      cases hv : stoi ((line.drop 6).take 5) with
      | error e => simp [hv, Except.toBool] at hidx
      | ok n => exact ⟨n, rfl⟩
    obtain ⟨n, hn⟩ := hst
    have hs77 : substr line 77 2 = .ok ((line.drop 77).take 2) := by simp [substr, hlen]
    have hs0 : substr line 0 61 = .ok (line.take 61) := by simp [substr]
    have hsf : substrFrom line 66 = .ok (line.drop 66) := by simp [substrFrom, h66]
    have hfield : right_aligned 5 '.'
        (resize (fixed5 ((map_find scores xyz).getD 0)) (if i = 0 then 5 else 7))
        = score_field scores i line := by
      rw [right_aligned_wide]
      · simp only [score_field, record_score, hxyz]
      · rw [resize_length]
        split <;> omega
    have hfc : (if (map_find scores xyz).isSome = true then fc + 1 else fc)
        = fc + if is_atom_line line && key_found scores line then 1 else 0 := by
      simp only [key_found, hxyz, ha, Bool.true_and]
      by_cases hf : (map_find scores xyz).isSome = true
      · simp [hf]
      · simp [hf]
    simp only [write_scores_line, ha, if_true, hs6, hs77, hn, hxyz, hs0, hsf, hfield, hfc,
      written_line, List.append_assoc]
  · simp [write_scores_line, written_line, ha]

theorem write_scores_lines_text (scores : ScoreMap) (i : Nat) (lines : List Str) (out : Str)
    (fc : Nat)
    (h : ∀ l ∈ lines, is_atom_line l = true → 77 ≤ l.length ∧ (index6 l).toBool = true) :
    write_scores_lines scores i lines (out, fc)
      = .ok (out ++ unlines (lines.map (written_line scores i)),
          fc + (lines.filter (fun l => is_atom_line l && key_found scores l)).length) := by
  induction lines generalizing out fc with
  | nil => simp [write_scores_lines, unlines]
  | cons l ls ih =>
    have ht := write_scores_line_text scores i l fc (h l (by simp))
    have ho := ih (out ++ (written_line scores i l ++ ['\n']))
      (fc + if is_atom_line l && key_found scores l then 1 else 0)
      (fun x hx => h x (by simp [hx]))
    simp only [write_scores_lines, ht, ho]
    by_cases hc : (is_atom_line l && key_found scores l) = true
    · simp [List.filter_cons, hc, unlines]
      omega
    · simp [List.filter_cons, hc, unlines]

theorem write_scores_file_text (env : Session) (scores : ScoreMap) (isRec : Bool)
    (method : Str) (i : Nat)
    (h : writable_records (if isRec then env.rec_string else env.lig_string) = true)
    (hc : found_records scores (if isRec then env.rec_string else env.lig_string)
      = map_size scores) :
    write_scores_file env scores isRec method i
      = .ok (write_scores_header env method ++ unlines
          ((getlines (if isRec then env.rec_string else env.lig_string)).map
            (written_line scores i))) := by
  have hw : ∀ l ∈ getlines (if isRec then env.rec_string else env.lig_string),
      is_atom_line l = true → 77 ≤ l.length ∧ (index6 l).toBool = true := by
    intro l hl ha
    have := List.all_eq_true.mp h l (List.mem_filter.mpr ⟨hl, ha⟩)
    simpa using this
  have ho := write_scores_lines_text scores i _ (write_scores_header env method) 0 hw
  simp only [Nat.zero_add] at ho
  unfold found_records at hc
  simp only [write_scores_file, ho]
  rw [if_pos hc]

theorem written_line_frame (scores : ScoreMap) (i : Nat) (line : Str)
    (ha : is_atom_line line = true) (hlen : 66 ≤ line.length) :
    (written_line scores i line).take 61 = line.take 61 ∧
    ((written_line scores i line).drop 61).take (if i = 0 then 5 else 7)
      = score_field scores i line ∧
    (written_line scores i line).drop (if i = 0 then 66 else 68) = line.drop 66 := by
  have h61 : (line.take 61).length = 61 := by simp; omega
  have hf := score_field_length scores i line
  refine ⟨?_, ?_, ?_⟩
  · simp only [written_line, ha, if_true, List.append_assoc]
    rw [List.take_left' h61]
  · simp only [written_line, ha, if_true, List.append_assoc]
    rw [List.drop_left' h61, List.take_left' hf]
  · simp only [written_line, ha, if_true]
    rw [List.drop_left']
    simp only [List.length_append, h61, hf]
    split <;> rfl

theorem fixed5_zero_narrow : resize (fixed5 0) 5 = "0.000".toList := by decide!

theorem written_line_no_key (scores : ScoreMap) (line : Str)
    (hk : key_found scores line = false) :
    score_field scores 0 line = "0.000".toList := by
  have h0 : record_score scores line = 0 := by
    unfold key_found at hk
    unfold record_score
    cases hx : get_xyz line with
    | error e => rfl
    | ok xyz =>
      rw [hx] at hk
      simp only [] at hk
      cases hm : map_find scores xyz with
      | none => simp [hm]
      | some v => rw [hm] at hk; simp at hk
  simp only [score_field, h0, if_true]
  exact fixed5_zero_narrow

theorem written_line_columns (scores : ScoreMap) (line : Str)
    (ha : is_atom_line line = true) (hlen : 66 ≤ line.length) (c : Nat)
    (hc : c < 61 ∨ 66 ≤ c) :
    (written_line scores 0 line)[c]? = (line)[c]? := by
  obtain ⟨h1, _, h3⟩ := written_line_frame scores 0 line ha hlen
  simp only [if_true] at h3
  rcases hc with hc | hc
  · have e1 : ((written_line scores 0 line).take 61)[c]? = (written_line scores 0 line)[c]? := by
      simp [List.getElem?_take, hc]
    have e2 : (line.take 61)[c]? = (line)[c]? := by simp [List.getElem?_take, hc]
    rw [← e1, h1, e2]
  · have e1 : ((written_line scores 0 line).drop 66)[c - 66]?
        = (written_line scores 0 line)[66 + (c - 66)]? := List.getElem?_drop _ _ _
    have e2 : (line.drop 66)[c - 66]? = (line)[66 + (c - 66)]? := List.getElem?_drop _ _ _
    have e3 : 66 + (c - 66) = c := by omega
    rw [e3] at e1 e2
    rw [← e1, h3, e2]

theorem written_line_length (scores : ScoreMap) (i : Nat) (line : Str)
    (ha : is_atom_line line = true) (hlen : 66 ≤ line.length) :
    (written_line scores i line).length = line.length + if i = 0 then 0 else 2 := by
  simp only [written_line, ha, if_true, List.length_append, score_field_length,
    List.length_take, List.length_drop]
  split <;> omega

/-- C13: on a structure whose atom records carry the columns read, and with a map that
passes the consistency check, `write_scores` writes both files, each the header followed by
one line for every line of the structure. In the narrow file a line that is no atom record
is the source line; an atom record has the length of the source line, agrees with it in
every column below 61 and from 66 on, and holds `0.000` in the columns 61 to 65 when its key
is not in the map. The extended line agrees with the narrow one before column 61, has the
score in a field of 7 columns, hence 2 more in all, and goes on after the field as the
narrow one does. -/
theorem write_scores_frame (env : Session) (scores : ScoreMap) (isRec : Bool) (method : Str)
    (h : writable_records (if isRec then env.rec_string else env.lig_string) = true)
    (hc : found_records scores (if isRec then env.rec_string else env.lig_string)
      = map_size scores) :
    ∃ narrow extended, write_scores env scores isRec method = .ok (narrow, extended) ∧
      narrow = write_scores_header env method ++ unlines
        ((getlines (if isRec then env.rec_string else env.lig_string)).map
          (written_line scores 0)) ∧
      extended = write_scores_header env method ++ unlines
        ((getlines (if isRec then env.rec_string else env.lig_string)).map
          (written_line scores 1)) ∧
      ∀ l ∈ getlines (if isRec then env.rec_string else env.lig_string),
        (is_atom_line l = false → written_line scores 0 l = l ∧ written_line scores 1 l = l) ∧
        (is_atom_line l = true →
          (written_line scores 0 l).length = l.length ∧
          (∀ c, c < 61 ∨ 66 ≤ c → (written_line scores 0 l)[c]? = (l)[c]?) ∧
          ((written_line scores 0 l).drop 61).take 5
            = resize (fixed5 (record_score scores l)) 5 ∧
          (key_found scores l = false →
            ((written_line scores 0 l).drop 61).take 5 = "0.000".toList) ∧
          (written_line scores 1 l).length = (written_line scores 0 l).length + 2 ∧
          (written_line scores 1 l).take 61 = (written_line scores 0 l).take 61 ∧
          ((written_line scores 1 l).drop 61).take 7
            = resize (fixed5 (record_score scores l)) 7 ∧
          (written_line scores 1 l).drop 68 = (written_line scores 0 l).drop 66) := by
  have h0 := write_scores_file_text env scores isRec method 0 h hc
  have h1 := write_scores_file_text env scores isRec method 1 h hc
  refine ⟨_, _, by simp only [write_scores, h0, h1], rfl, rfl, ?_⟩
  intro l hl
  constructor
  · intro hna
    simp [written_line, hna]
  · intro ha
    have hlen : 66 ≤ l.length := by
      have := List.all_eq_true.mp h l (List.mem_filter.mpr ⟨hl, ha⟩)
      simp only [Bool.and_eq_true, decide_eq_true_eq] at this
      omega
    obtain ⟨a1, a2, a3⟩ := written_line_frame scores 0 l ha hlen
    obtain ⟨b1, b2, b3⟩ := written_line_frame scores 1 l ha hlen
    simp only [if_true] at a2 a3
    simp only [Nat.one_ne_zero, if_false] at b2 b3
    have l0 := written_line_length scores 0 l ha hlen
    have l1 := written_line_length scores 1 l ha hlen
    simp only [if_true, Nat.add_zero] at l0
    simp only [Nat.one_ne_zero, if_false] at l1
    refine ⟨l0, written_line_columns scores l ha hlen, ?_, ?_, ?_, ?_, ?_, ?_⟩
    · rw [a2]; simp [score_field]
    · intro hk
      rw [a2]
      exact written_line_no_key scores l hk
    · rw [l1, l0]
    · rw [b1, a1]
    · rw [b2]; simp [score_field]
    · rw [b3, a3]

/-- C13 on the two-atom receptor with a map that holds the key of the first record. -/
theorem write_scores_frame_witness :
    writable_records (if true then sample_rec_session.rec_string
      else sample_rec_session.lig_string) = true ∧
    found_records [("11.1046.134-6.504".toList, 1 / 3)]
      (if true then sample_rec_session.rec_string else sample_rec_session.lig_string)
      = map_size [("11.1046.134-6.504".toList, 1 / 3)] ∧
    ∃ narrow extended, write_scores sample_rec_session [("11.1046.134-6.504".toList, 1 / 3)]
      true "masking".toList = .ok (narrow, extended) := by
  obtain ⟨narrow, extended, hw, _⟩ := write_scores_frame sample_rec_session
    [("11.1046.134-6.504".toList, 1 / 3)] true "masking".toList sample_rec_writable
    (by decide)
  exact ⟨sample_rec_writable, by decide, narrow, extended, hw⟩

/-! ### An unknown scoring target -/

/-- With a target that is neither `"pose"` nor `"affinity"`, `setup` reports the unknown
target and leaves every member as it was. -/
theorem setup_unknown_target (env : Session) (base_score : ℚ × ℚ)
    (hp : env.visopts.target ≠ pose) (ha : env.visopts.target ≠ affinity) :
    setup env base_score = (env, "Unknown scoring target\n".toList) := by
  simp [setup, hp, ha]

/-- C14 on the two-residue receptor with the target `"energy"`: `setup` reports the unknown
target; the call of `masking` that follows scores the receptor without each residue and
writes both annotated receptor files, the atoms of the alanine at 2.000, and then the ligand
pass runs off the end of `score_modified_ligand`. -/
theorem masking_runs_after_unknown_target :
    (setup unknown_target_session (4, 7)).2 = "Unknown scoring target\n".toList ∧
    remove_residues_scores (setup unknown_target_session (4, 7)).1
      = .ok [(key_ala_n, 2), (key_ala_ca, 2)] ∧
    (masking (setup unknown_target_session (4, 7)).1).receptor_pass
      = some (.ok
        ("VIS METHOD: masking\nMASKING TARGET: energy\nCNN SCORE: \nMODEL: \nWEIGHTS: \nATOM      1  N   ALA A   1      11.104   6.134  -6.504  0.00 2.000    -0.066 N \nATOM      2  CA  ALA A   1      11.639   6.071  -5.147  0.00 2.000    +0.029 C \nATOM      3  N   GLY A   2      91.104   6.134  -6.504  0.00 0.000    -0.066 N \n".toList,
         "VIS METHOD: masking\nMASKING TARGET: energy\nCNN SCORE: \nMODEL: \nWEIGHTS: \nATOM      1  N   ALA A   1      11.104   6.134  -6.504  0.00 2.00000    -0.066 N \nATOM      2  CA  ALA A   1      11.639   6.071  -5.147  0.00 2.00000    +0.029 C \nATOM      3  N   GLY A   2      91.104   6.134  -6.504  0.00 0.00000    -0.066 N \n".toList)) ∧
    (masking (setup unknown_target_session (4, 7)).1).ligand_pass
      = some (.error .no_return) := by
  decide!

/-! ### The average of the two ligand passes -/

/-- C11 on methanol: the single-atom vector has the 6 entries of the hydrogen-completed
ligand, the fragment vector the 4 entries of the ligand and one more; the averaging loop,
which runs over the 6 positions, reads the fragment vector at position 4, which it does not
have, and no vector is handed to the writer. -/
theorem remove_ligand_atoms_methanol :
    methanol_session.visopts.atoms_only = false ∧
    methanol_session.visopts.frags_only = false ∧
    remove_each_atom methanol_session = .ok [0, 1, 3, 0, 0, 0] ∧
    remove_fragments methanol_session 6 = .ok [0, 5 / 2, 5 / 2, 0] ∧
    vget [0, 5 / 2, 5 / 2, (0 : ℚ)] 4 = .error .vector_bounds ∧
    both_score_diffs [0, 1, 3, 0, 0, 0] [0, 5 / 2, 5 / 2, 0] = .error .vector_bounds ∧
    ligand_score_diffs methanol_session = .error .vector_bounds ∧
    remove_ligand_atoms methanol_session = .error .vector_bounds := by
  decide!

theorem both_score_diffs_loop_ok (individual frag : List ℚ) :
    ∀ (positions : List Nat) (both : List ℚ),
      (∀ i ∈ positions, i < individual.length ∧ i < frag.length ∧ i < both.length) →
      ∃ r, both_score_diffs_loop individual frag positions both = .ok r ∧
        r.length = both.length ∧
        ∀ j, r.getD j 0 = if j ∈ positions then (individual.getD j 0 + frag.getD j 0) / 2
          else both.getD j 0 := by
  intro positions
  induction positions with
  | nil =>
    intro both _
    exact ⟨both, rfl, rfl, fun j => by simp⟩
  | cons i rest ih =>
    intro both h
    obtain ⟨h1, h2, h3⟩ := h i (by simp)
    have hi0 : (0 : Int) ≤ (i : Int) := Int.ofNat_nonneg i
    have e1 := vget_ok individual (i : Int) 0 hi0 (by simpa using h1)
    have e2 := vget_ok frag (i : Int) 0 hi0 (by simpa using h2)
    have e3 : vset both (i : Int) ((individual.getD i 0 + frag.getD i 0) / 2)
        = .ok (both.set i ((individual.getD i 0 + frag.getD i 0) / 2)) := by
      simp [vset, h3]
    simp only [Int.toNat_ofNat] at e1 e2
    obtain ⟨r, hr, hlen, hval⟩ := ih (both.set i ((individual.getD i 0 + frag.getD i 0) / 2))
      (fun x hx => by
        obtain ⟨a, b, c⟩ := h x (by simp [hx])
        exact ⟨a, b, by simpa using c⟩)
    refine ⟨r, ?_, ?_, ?_⟩
    · simp only [both_score_diffs_loop, e1, e2, e3, hr]
    · simpa using hlen
    · intro j
      rw [hval j, getD_set _ _ _ _ _ h3]
      by_cases hj : j ∈ rest
      · simp [hj]
      · by_cases hji : j = i
        · subst hji
          simp
        · simp [hj, hji]

/-- The averaging loop of `remove_ligand_atoms` where the fragment vector is at least as
long as the single-atom vector: the result has the length of the single-atom vector and
holds the mean of the two entries at each of its positions. -/
theorem both_score_diffs_ok (individual frag : List ℚ)
    (h : individual.length ≤ frag.length) :
    ∃ both, both_score_diffs individual frag = .ok both ∧
      both.length = individual.length ∧
      ∀ i, i < individual.length →
        both.getD i 0 = (individual.getD i 0 + frag.getD i 0) / 2 := by
  obtain ⟨r, hr, hlen, hval⟩ := both_score_diffs_loop_ok individual frag
    (List.range individual.length) (List.replicate individual.length 0)
    (fun i hi => by
      have := List.mem_range.mp hi
      simp only [List.length_replicate]
      omega)
  refine ⟨r, hr, by simpa using hlen, ?_⟩
  intro i hi
  rw [hval i, if_pos (List.mem_range.mpr hi)]

theorem both_score_diffs_loop_append (individual frag : List ℚ) :
    ∀ (p q : List Nat) (both : List ℚ),
      both_score_diffs_loop individual frag (p ++ q) both
        = match both_score_diffs_loop individual frag p both with
          | .error e => .error e
          | .ok r => both_score_diffs_loop individual frag q r := by
  intro p
  induction p with
  | nil => intro q both; rfl
  | cons i rest ih =>
    intro q both
    simp only [List.cons_append, both_score_diffs_loop]
    cases vget individual (i : Int) with
    | error e => rfl
    | ok a =>
      cases vget frag (i : Int) with
      | error e => rfl
      | ok b =>
        simp only []
        cases vset both (i : Int) ((a + b) / 2) with
        | error e => rfl
        | ok both1 => exact ih q both1

theorem range_split (f k : Nat) :
    List.range (f + (k + 1)) = List.range f ++ f :: List.range' (f + 1) k := by
  have h := List.range'_append_1 0 f (k + 1)
  rw [List.range_eq_range', List.range_eq_range', Nat.add_comm f (k + 1), ← h]
  simp [List.range'_succ]

/-- The averaging loop of `remove_ligand_atoms` where the single-atom vector is longer than
the fragment vector: the loop reads the fragment vector past its end. -/
theorem both_score_diffs_short (individual frag : List ℚ)
    (h : frag.length < individual.length) :
    both_score_diffs individual frag = .error .vector_bounds := by
  obtain ⟨k, hk⟩ := Nat.exists_eq_add_of_lt h
  have hsplit : List.range individual.length
      = List.range frag.length ++ frag.length :: List.range' (frag.length + 1) k := by
    rw [hk, Nat.add_assoc]
    exact range_split _ _
  obtain ⟨r, hr, hlen, _⟩ := both_score_diffs_loop_ok individual frag
    (List.range frag.length) (List.replicate individual.length 0)
    (fun i hi => by
      have := List.mem_range.mp hi
      simp only [List.length_replicate]
      omega)
  unfold both_score_diffs
  rw [hsplit, both_score_diffs_loop_append, hr]
  have e1 := vget_ok individual (frag.length : Int) 0 (Int.ofNat_nonneg _) (by simpa using h)
  have e2 : vget frag (frag.length : Int) = .error .vector_bounds := by
    simp [vget]
  simp only [both_score_diffs_loop, e1, e2]

theorem vset_length {α : Type} (v r : List α) (i : Int) (x : α) (h : vset v i x = .ok r) :
    r.length = v.length := by
  unfold vset at h
  split at h
  · cases h
    simp
  · cases h

theorem remove_each_atom_loop_length (env : Session) (lines : List Str) (sd r : List ℚ)
    (c c' : Nat) (h : remove_each_atom_loop env lines (sd, c) = .ok (r, c')) :
    r.length = sd.length := by
  induction lines generalizing sd c with
  | nil =>
    simp only [remove_each_atom_loop] at h
    cases h
    rfl
  | cons l ls ih =>
    by_cases ha : hasATOM l = true
    · simp only [remove_each_atom_loop, ha, if_true] at h
      cases h1 : substr l 6 5 with
      | error e => rw [h1] at h; cases h
      | ok st =>
        rw [h1] at h
        simp only [] at h
        cases h2 : stoi st with
        | error e => rw [h2] at h; cases h
        | ok j =>
          rw [h2] at h
          simp only [] at h
          cases h3 : env.lig_mol.GetAtom j with
          | none => rw [h3] at h; cases h
          | some atom =>
            rw [h3] at h
            simp only [] at h
            by_cases hh : atom.atomic_num ≠ 1
            · rw [if_pos hh] at h
              cases h4 : removal_score env c j with
              | error e => rw [h4] at h; cases h
              | ok p =>
                obtain ⟨s, c1⟩ := p
                rw [h4] at h
                simp only [] at h
                cases h5 : vset sd j (env.original_score - s) with
                | error e => rw [h5] at h; cases h
                | ok sd1 =>
                  rw [h5] at h
                  rw [ih sd1 c1 h]
                  exact vset_length _ _ _ _ h5
            · rw [if_neg hh] at h
              exact ih sd c h
    · simp only [remove_each_atom_loop, ha] at h
      exact ih sd c h

/-- The vector of `remove_each_atom` has as many entries as the hydrogen-completed ligand
has atoms. -/
theorem remove_each_atom_length (env : Session) (v : List ℚ)
    (h : remove_each_atom env = .ok v) :
    v.length = (env.AddHydrogens env.lig_mol).NumAtoms := by
  unfold remove_each_atom at h
  simp only [] at h
  cases h1 : remove_each_atom_loop env (getlines env.lig_string)
      (List.replicate (env.AddHydrogens env.lig_mol).NumAtoms 0, env.set_capacity) with
  | error e => rw [h1] at h; cases h
  | ok p =>
    obtain ⟨sd, c⟩ := p
    rw [h1] at h
    cases h
    have := remove_each_atom_loop_length env _ _ _ _ _ h1
    simpa using this

theorem average_loop_length (sd : List ℚ) (sc : List Int) (rs : List Nat) (avg r : List ℚ)
    (h : average_loop sd sc rs avg = .ok r) : r.length = avg.length := by
  induction rs generalizing avg with
  | nil =>
    simp only [average_loop] at h
    cases h
    rfl
  | cons x rest ih =>
    simp only [average_loop] at h
    cases h1 : vget sc ((x : Int) + 1) with
    | error e => rw [h1] at h; cases h
    | ok count =>
      rw [h1] at h
      simp only [] at h
      by_cases hc : 0 < count
      · rw [if_pos hc] at h
        cases h2 : vget sd ((x : Int) + 1) with
        | error e => rw [h2] at h; cases h
        | ok diff =>
          rw [h2] at h
          simp only [] at h
          cases h3 : vset avg ((x : Int) + 1) (diff / (count : ℚ)) with
          | error e => rw [h3] at h; cases h
          | ok avg1 =>
            rw [h3] at h
            rw [ih avg1 h]
            exact vset_length _ _ _ _ h3
      · rw [if_neg hc] at h
        cases h3 : vset avg ((x : Int) + 1) 0 with
        | error e => rw [h3] at h; cases h
        | ok avg1 =>
          rw [h3] at h
          rw [ih avg1 h]
          exact vset_length _ _ _ _ h3

/-- The vector of `remove_fragments` has one entry more than the ligand has atoms. -/
theorem remove_fragments_length (env : Session) (size : Nat) (v : List ℚ)
    (h : remove_fragments env size = .ok v) : v.length = env.lig_mol.NumAtoms + 1 := by
  unfold remove_fragments remove_fragments_over at h
  simp only [] at h
  cases h1 : remove_fragments_loop env (env.to_rdkit env.lig_mol)
      (all_paths (env.findAllSubgraphsOfLengthsMtoN (env.to_rdkit env.lig_mol) 1 size))
      ((List.replicate ((env.AddHydrogens env.lig_mol).NumAtoms + 1) 0,
        List.replicate ((env.AddHydrogens env.lig_mol).NumAtoms + 1) 0), env.set_capacity) with
  | error e => rw [h1] at h; cases h
  | ok p =>
    obtain ⟨⟨sd, sc⟩, c⟩ := p
    rw [h1] at h
    have := average_loop_length _ _ _ _ _ h
    simpa using this

/-- The vector `remove_ligand_atoms` hands to the writer when neither pass is switched off:
there is one only if the hydrogen-completed ligand has at most one atom more than the
ligand, and then it has as many entries as the hydrogen-completed ligand has atoms, each the
mean of the entries of the two passes. -/
theorem ligand_score_diffs_both (env : Session)
    (ha : env.visopts.atoms_only = false) (hf : env.visopts.frags_only = false) :
    (env.lig_mol.NumAtoms + 1 < (env.AddHydrogens env.lig_mol).NumAtoms →
      ∃ e, ligand_score_diffs env = .error e) ∧
    (∀ individual frag both, ligand_score_diffs env = .ok (individual, frag, both) →
      remove_each_atom env = .ok individual ∧ remove_fragments env 6 = .ok frag ∧
      (env.AddHydrogens env.lig_mol).NumAtoms ≤ env.lig_mol.NumAtoms + 1 ∧
      both.length = (env.AddHydrogens env.lig_mol).NumAtoms ∧
      ∀ i, i < both.length → both.getD i 0 = (individual.getD i 0 + frag.getD i 0) / 2) := by
  unfold ligand_score_diffs
  simp only [ha, hf, Bool.false_eq_true, if_false]
  cases h1 : remove_each_atom env with
  | error e => exact ⟨fun _ => ⟨e, rfl⟩, fun _ _ _ h => by cases h⟩
  | ok individual =>
    cases h2 : remove_fragments env 6 with
    | error e => exact ⟨fun _ => ⟨e, rfl⟩, fun _ _ _ h => by cases h⟩
    | ok frag =>
      have l1 := remove_each_atom_length env individual h1
      have l2 := remove_fragments_length env 6 frag h2
      simp only []
      by_cases hlen : individual.length ≤ frag.length
      · obtain ⟨both, hb, hbl, hbv⟩ := both_score_diffs_ok individual frag hlen
        rw [hb]
        constructor
        · intro hgt
          omega
        · intro i f b h
          simp only [Except.ok.injEq, Prod.mk.injEq] at h
          obtain ⟨rfl, rfl, rfl⟩ := h
          refine ⟨rfl, rfl, by omega, by omega, ?_⟩
          intro j hj
          exact hbv j (by omega)
      · rw [both_score_diffs_short individual frag (by omega)]
        exact ⟨fun _ => ⟨_, rfl⟩, fun _ _ _ h => by cases h⟩

/-! ### A score at an index that is not tracked -/

theorem get_xyz_from_index_ok (env : Session) (isRec : Bool)
    (hb : identity_index_builds env = true) (i : Int) :
    ∃ k, get_xyz_from_index env i isRec = .ok k ∧ (index_tracked env i isRec = false → k = []) := by
  unfold identity_index_builds index_map at hb
  unfold get_xyz_from_index index_tracked index_map
  cases h1 : xyz_index_loop (getlines env.lig_string) [] with
  | error e => rw [h1] at hb; simp [Except.toBool] at hb
  | ok lig_indices =>
    cases h2 : xyz_index_loop (getlines env.rec_string) [] with
    | error e => rw [h2] at hb; simp [Except.toBool] at hb
    | ok rec_indices =>
      refine ⟨_, rfl, ?_⟩
      cases isRec with
      | true =>
        simp only [if_true, h2]
        intro hn
        cases hm : map_find rec_indices i with
        | none => rfl
        | some v => rw [hm] at hn; simp at hn
      | false =>
        simp only [Bool.false_eq_true, if_false, h1]
        intro hn
        cases hm : map_find lig_indices i with
        | none => rfl
        | some v => rw [hm] at hn; simp at hn

theorem score_map_loop_keys (env : Session) (scores : List ℚ) (isRec : Bool)
    (hb : identity_index_builds env = true) :
    ∀ (positions : List Nat) (m0 : ScoreMap),
      ∃ m, score_map_loop env scores isRec positions m0 = .ok m ∧
        (∀ k, (map_find m0 k).isSome = true → (map_find m k).isSome = true) ∧
        (∀ i ∈ positions, scores.getD i 0 ≠ 0 → ∀ k,
          get_xyz_from_index env (i : Int) isRec = .ok k → (map_find m k).isSome = true) := by
  intro positions
  induction positions with
  | nil =>
    intro m0
    exact ⟨m0, rfl, fun _ h => h, by simp⟩
  | cons i rest ih =>
    intro m0
    by_cases hz : scores.getD i 0 ≠ 0
    · obtain ⟨k, hk, _⟩ := get_xyz_from_index_ok env isRec hb (i : Int)
      obtain ⟨m, hm, hkeep, hnew⟩ := ih (map_set m0 k (scores.getD i 0))
      refine ⟨m, ?_, ?_, ?_⟩
      · simp only [score_map_loop, hk, hm]
        rw [if_pos hz]
      · intro g hg
        apply hkeep
        rw [map_find_map_set]
        by_cases hgk : g = k
        · simp [hgk]
        · simpa [hgk] using hg
      · intro j hj hjz g hg
        rcases List.mem_cons.mp hj with rfl | hj
        · rw [hk] at hg
          cases hg
          apply hkeep
          rw [map_find_map_set]
          simp
        · exact hnew j hj hjz g hg
    · obtain ⟨m, hm, hkeep, hnew⟩ := ih m0
      refine ⟨m, ?_, hkeep, ?_⟩
      · simp only [score_map_loop, hm]
        rw [if_neg hz]
      · intro j hj hjz g hg
        rcases List.mem_cons.mp hj with rfl | hj
        · exact absurd hjz hz
        · exact hnew j hj hjz g hg

theorem map_find_isSome_iff (m : ScoreMap) (k : Str) :
    (map_find m k).isSome = true ↔ k ∈ m.map (fun p => p.1) := by
  induction m with
  | nil => simp [map_find]
  | cons p rest ih =>
    obtain ⟨a, v⟩ := p
    by_cases h : a = k
    · simp [map_find, h]
    · have hne : ¬ k = a := fun e => h e.symm
      simp [map_find, h, ih, hne]

theorem found_records_lt (m : ScoreMap) (mol_string : Str)
    (hw : writable_records mol_string = true)
    (hk : (written_keys mol_string).Nodup)
    (he : [] ∉ written_keys mol_string)
    (hm : (map_find m []).isSome = true) :
    found_records m mol_string < map_size m := by
  -- the keys of the records that are found
  have hfound : found_records m mol_string
      = (((getlines mol_string).filter is_atom_line).filter (fun l => key_found m l)).length := by
    simp only [found_records, List.filter_filter]
    congr 1
    apply List.filter_congr
    intro l _
    exact Bool.and_comm _ _
  have hkeys : ∀ (F : List Str), (∀ l ∈ F, ∃ k, get_xyz l = .ok k) →
      (F.filterMap (fun l => (get_xyz l).toOption)).length = F.length := by
    intro F hF
    induction F with
    | nil => rfl
    | cons l ls ih =>
      obtain ⟨k, hk⟩ := hF l (by simp)
      have ih' := ih (fun x hx => hF x (by simp [hx]))
      have e : List.filterMap (fun l => (get_xyz l).toOption) (l :: ls)
          = k :: List.filterMap (fun l => (get_xyz l).toOption) ls := by
        simp [List.filterMap_cons, hk, Except.toOption]
      rw [e, List.length_cons, List.length_cons, ih']
  have hL : ∀ l ∈ (getlines mol_string).filter is_atom_line, ∃ k, get_xyz l = .ok k := by
    intro l hl
    have := List.all_eq_true.mp hw l hl
    simp only [Bool.and_eq_true, decide_eq_true_eq] at this
    exact get_xyz_ok l (by omega)
  rw [hfound, ← hkeys _ (fun l hl => hL l (List.mem_filter.mp hl).1)]
  have hsub : List.Sublist ((((getlines mol_string).filter is_atom_line).filter
      (fun l => key_found m l)).filterMap (fun l => (get_xyz l).toOption))
      (written_keys mol_string) :=
    (List.filter_sublist _).filterMap _
  have hnd := hk.sublist hsub
  have hin : ∀ k ∈ (((getlines mol_string).filter is_atom_line).filter
      (fun l => key_found m l)).filterMap (fun l => (get_xyz l).toOption),
      k ∈ ((m.map (fun p => p.1)).dedup).erase [] := by
    intro k hkm
    have hne : k ≠ [] := fun e => he (e ▸ hsub.subset hkm)
    obtain ⟨l, hl, hlk⟩ := List.mem_filterMap.mp hkm
    obtain ⟨_, hkf⟩ := List.mem_filter.mp hl
    have hsome : (map_find m k).isSome = true := by
      unfold key_found at hkf
      cases hx : get_xyz l with
      | error e => rw [hx] at hlk; simp [Except.toOption] at hlk
      | ok x =>
        rw [hx] at hlk hkf
        simp only [Except.toOption, Option.some.injEq] at hlk
        subst hlk
        simpa using hkf
    exact (List.mem_erase_of_ne hne).mpr
      (List.mem_dedup.mpr ((map_find_isSome_iff m k).mp hsome))
  have hle := (List.subperm_of_subset hnd hin).length_le
  have hmem : ([] : Str) ∈ (m.map (fun p => p.1)).dedup :=
    List.mem_dedup.mpr ((map_find_isSome_iff m []).mp hm)
  have hers := List.length_erase_of_mem hmem
  have hpos : 0 < ((m.map (fun p => p.1)).dedup).length := List.length_pos_of_mem hmem
  unfold map_size
  omega

theorem xyz_index_loop_values (lines : List Str) :
    ∀ (m0 m : List (Int × Str)), xyz_index_loop lines m0 = .ok m →
      ∀ i k, map_find m i = some k →
        map_find m0 i = some k ∨
        k ∈ (lines.filter is_atom_line).filterMap (fun l => (get_xyz l).toOption) := by
  induction lines with
  | nil =>
    intro m0 m h i k hk
    simp only [xyz_index_loop] at h
    cases h
    exact Or.inl hk
  | cons l ls ih =>
    intro m0 m h i k hk
    by_cases ha : is_atom_line l = true
    · simp only [xyz_index_loop, ha, if_true] at h
      cases h1 : get_xyz l with
      | error e => rw [h1] at h; cases h
      | ok xyz =>
        rw [h1] at h
        simp only [] at h
        cases h2 : substr l 7 5 with
        | error e => rw [h2] at h; cases h
        | ok st =>
          rw [h2] at h
          simp only [] at h
          cases h3 : stoi st with
          | error e => rw [h3] at h; cases h
          | ok n =>
            rw [h3] at h
            simp only [] at h
            have hmem : ∀ x, x ∈ (ls.filter is_atom_line).filterMap
                (fun l => (get_xyz l).toOption) ∨ x = xyz →
                x ∈ ((l :: ls).filter is_atom_line).filterMap
                  (fun l => (get_xyz l).toOption) := by
              intro x hx
              simp only [List.filter_cons, ha, if_true, List.filterMap_cons, h1, Except.toOption,
                List.mem_cons]
              rcases hx with hx | hx
              · exact Or.inr hx
              · exact Or.inl hx
            rcases ih _ m h i k hk with h4 | h4
            · rw [map_find_map_set] at h4
              by_cases hin : i = n
              · rw [if_pos hin] at h4
                cases h4
                exact Or.inr (hmem _ (Or.inr rfl))
              · rw [if_neg hin] at h4
                exact Or.inl h4
            · exact Or.inr (hmem _ (Or.inl h4))
    · simp only [xyz_index_loop, ha] at h
      rcases ih m0 m h i k hk with h4 | h4
      · exact Or.inl h4
      · refine Or.inr ?_
        simpa [List.filter_cons, ha] using h4

theorem get_xyz_from_index_tracked (env : Session) (isRec : Bool) (i : Int) (k : Str)
    (ht : index_tracked env i isRec = true)
    (hk : get_xyz_from_index env i isRec = .ok k) :
    k ∈ written_keys (if isRec then env.rec_string else env.lig_string) := by
  unfold get_xyz_from_index at hk
  unfold index_tracked index_map at ht
  cases h1 : xyz_index_loop (getlines env.lig_string) [] with
  | error e => rw [h1] at hk; cases hk
  | ok lig_indices =>
    cases h2 : xyz_index_loop (getlines env.rec_string) [] with
    | error e => rw [h1, h2] at hk; cases hk
    | ok rec_indices =>
      rw [h1, h2] at hk
      simp only [Except.ok.injEq] at hk
      cases isRec with
      | true =>
        simp only [if_true, h2] at ht hk ⊢
        cases hm : map_find rec_indices i with
        | none => rw [hm] at ht; simp at ht
        | some v =>
          rw [hm] at hk
          simp only [Option.getD_some] at hk
          subst hk
          rcases xyz_index_loop_values _ _ _ h2 i v hm with h | h
          · simp [map_find] at h
          · exact h
      | false =>
        simp only [Bool.false_eq_true, if_false, h1] at ht hk ⊢
        cases hm : map_find lig_indices i with
        | none => rw [hm] at ht; simp at ht
        | some v =>
          rw [hm] at hk
          simp only [Option.getD_some] at hk
          subst hk
          rcases xyz_index_loop_values _ _ _ h1 i v hm with h | h
          · simp [map_find] at h
          · exact h

theorem score_map_loop_sources (env : Session) (scores : List ℚ) (isRec : Bool) :
    ∀ (positions : List Nat) (m0 m : ScoreMap),
      score_map_loop env scores isRec positions m0 = .ok m →
      ∀ g, (map_find m g).isSome = true →
        (map_find m0 g).isSome = true ∨
        ∃ i ∈ positions, scores.getD i 0 ≠ 0 ∧ get_xyz_from_index env (i : Int) isRec = .ok g := by
  intro positions
  induction positions with
  | nil =>
    intro m0 m h g hg
    simp only [score_map_loop] at h
    cases h
    exact Or.inl hg
  | cons i rest ih =>
    intro m0 m h g hg
    by_cases hz : scores.getD i 0 ≠ 0
    · simp only [score_map_loop] at h
      rw [if_pos hz] at h
      cases h1 : get_xyz_from_index env (i : Int) isRec with
      | error e => rw [h1] at h; cases h
      | ok k =>
        rw [h1] at h
        simp only [] at h
        rcases ih _ m h g hg with h2 | ⟨j, hj, hjz, hjk⟩
        · rw [map_find_map_set] at h2
          by_cases hgk : g = k
          · exact Or.inr ⟨i, by simp, hz, by rw [h1, hgk]⟩
          · rw [if_neg hgk] at h2
            exact Or.inl h2
        · exact Or.inr ⟨j, by simp [hj], hjz, hjk⟩
    · simp only [score_map_loop] at h
      rw [if_neg hz] at h
      rcases ih m0 m h g hg with h2 | ⟨j, hj, hjz, hjk⟩
      · exact Or.inl h2
      · exact Or.inr ⟨j, by simp [hj], hjz, hjk⟩

theorem found_records_eq (m : ScoreMap) (mol_string : Str)
    (hw : writable_records mol_string = true)
    (hk : (written_keys mol_string).Nodup)
    (hm : ∀ g, (map_find m g).isSome = true → g ∈ written_keys mol_string) :
    found_records m mol_string = map_size m := by
  have hfound : found_records m mol_string
      = (((getlines mol_string).filter is_atom_line).filter (fun l => key_found m l)).length := by
    simp only [found_records, List.filter_filter]
    congr 1
    apply List.filter_congr
    intro l _
    exact Bool.and_comm _ _
  have hkeys : ∀ (F : List Str), (∀ l ∈ F, ∃ k, get_xyz l = .ok k) →
      (F.filterMap (fun l => (get_xyz l).toOption)).length = F.length := by
    intro F hF
    induction F with
    | nil => rfl
    | cons l ls ih =>
      obtain ⟨k, hk⟩ := hF l (by simp)
      have ih' := ih (fun x hx => hF x (by simp [hx]))
      have e : List.filterMap (fun l => (get_xyz l).toOption) (l :: ls)
          = k :: List.filterMap (fun l => (get_xyz l).toOption) ls := by
        simp [List.filterMap_cons, hk, Except.toOption]
      rw [e, List.length_cons, List.length_cons, ih']
  have hL : ∀ l ∈ (getlines mol_string).filter is_atom_line, ∃ k, get_xyz l = .ok k := by
    intro l hl
    have := List.all_eq_true.mp hw l hl
    simp only [Bool.and_eq_true, decide_eq_true_eq] at this
    exact get_xyz_ok l (by omega)
  rw [hfound, ← hkeys _ (fun l hl => hL l (List.mem_filter.mp hl).1)]
  have hsub : List.Sublist ((((getlines mol_string).filter is_atom_line).filter
      (fun l => key_found m l)).filterMap (fun l => (get_xyz l).toOption))
      (written_keys mol_string) :=
    (List.filter_sublist _).filterMap _
  have hnd := hk.sublist hsub
  have hiff : ∀ k, k ∈ (((getlines mol_string).filter is_atom_line).filter
      (fun l => key_found m l)).filterMap (fun l => (get_xyz l).toOption)
      ↔ k ∈ (m.map (fun p => p.1)).dedup := by
    intro k
    constructor
    · intro hkm
      obtain ⟨l, hl, hlk⟩ := List.mem_filterMap.mp hkm
      obtain ⟨_, hkf⟩ := List.mem_filter.mp hl
      have hsome : (map_find m k).isSome = true := by
        unfold key_found at hkf
        cases hx : get_xyz l with
        | error e => rw [hx] at hlk; simp [Except.toOption] at hlk
        | ok x =>
          rw [hx] at hlk hkf
          simp only [Except.toOption, Option.some.injEq] at hlk
          subst hlk
          simpa using hkf
      exact List.mem_dedup.mpr ((map_find_isSome_iff m k).mp hsome)
    · intro hkm
      have hsome := (map_find_isSome_iff m k).mpr (List.mem_dedup.mp hkm)
      obtain ⟨l, hl, hlk⟩ := List.mem_filterMap.mp (hm k hsome)
      refine List.mem_filterMap.mpr ⟨l, List.mem_filter.mpr ⟨hl, ?_⟩, hlk⟩
      unfold key_found
      cases hx : get_xyz l with
      | error e => rw [hx] at hlk; simp [Except.toOption] at hlk
      | ok x =>
        rw [hx] at hlk
        simp only [Except.toOption, Option.some.injEq] at hlk
        subst hlk
        simpa using hsome
  exact ((List.perm_ext_iff_of_nodup hnd (List.nodup_dedup _)).mpr hiff).length_eq

/-- C12 as stated fails: on the two-residue receptor, whose records carry the indices 1 to
3, the vector with the nonzero score 7 at the index 4, which is not tracked, stops the pass
on the failed assertion, while the same vector without that score is written. -/
theorem write_scores_vector_untracked_counterexample :
    index_tracked two_residue_session 4 true = false ∧
    ([0, 2, 2, 0, 7] : List ℚ).getD 4 0 ≠ 0 ∧
    write_scores_vector two_residue_session [0, 2, 2, 0, 7] true "masking".toList
      = .error .assertion_failed ∧
    (write_scores_vector two_residue_session [0, 2, 2, 0, 0] true "masking".toList).toBool
      = true := by
  decide!

/-- C12, as the code has it: on texts from which the identity index gets filled, and a
structure whose atom records carry the columns read and have pairwise distinct spatial keys,
none of them empty, the vector form of `write_scores` writes its files if and only if every
nonzero score of the vector sits at an index that is tracked; a nonzero score at an index
that is not tracked stops the pass on the failed assertion. -/
theorem write_scores_vector_untracked_fatal (env : Session) (scores : List ℚ) (isRec : Bool)
    (method : Str)
    (hb : identity_index_builds env = true)
    (hw : writable_records (if isRec then env.rec_string else env.lig_string) = true)
    (hk : (written_keys (if isRec then env.rec_string else env.lig_string)).Nodup)
    (he : [] ∉ written_keys (if isRec then env.rec_string else env.lig_string)) :
    ((∃ i, i < scores.length ∧ scores.getD i 0 ≠ 0 ∧
        index_tracked env (i : Int) isRec = false) →
      write_scores_vector env scores isRec method = .error .assertion_failed) ∧
    ((∃ files, write_scores_vector env scores isRec method = .ok files) ↔
      ∀ i, i < scores.length → scores.getD i 0 ≠ 0 →
        index_tracked env (i : Int) isRec = true) := by
  obtain ⟨m, hm, _, hnew⟩ := score_map_loop_keys env scores isRec hb
    (List.range scores.length) []
  have hfatal : (∃ i, i < scores.length ∧ scores.getD i 0 ≠ 0 ∧
      index_tracked env (i : Int) isRec = false) →
      write_scores_vector env scores isRec method = .error .assertion_failed := by
    rintro ⟨i, hi, hz, hu⟩
    obtain ⟨k, hk1, hk2⟩ := get_xyz_from_index_ok env isRec hb (i : Int)
    have hempty : (map_find m []).isSome = true := by
      have := hnew i (List.mem_range.mpr hi) hz k hk1
      rwa [hk2 hu] at this
    have hlt := found_records_lt m _ hw hk he hempty
    have hfile := (write_scores_file_check env m isRec method 0 hw).1 (by omega)
    simp only [write_scores_vector, hm, write_scores, hfile]
  refine ⟨hfatal, ?_, ?_⟩
  · rintro ⟨files, hfiles⟩ i hi hz
    by_contra hu
    have hu' : index_tracked env (i : Int) isRec = false := by simpa using hu
    rw [hfatal ⟨i, hi, hz, hu'⟩] at hfiles
    cases hfiles
  · intro hall
    have hkeys : ∀ g, (map_find m g).isSome = true →
        g ∈ written_keys (if isRec then env.rec_string else env.lig_string) := by
      intro g hg
      rcases score_map_loop_sources env scores isRec _ _ _ hm g hg with h | ⟨i, hi, hz, hik⟩
      · simp [map_find] at h
      · exact get_xyz_from_index_tracked env isRec (i : Int) g
          (hall i (List.mem_range.mp hi) hz) hik
    have heq := found_records_eq m _ hw hk hkeys
    obtain ⟨narrow, hn⟩ := (write_scores_file_check env m isRec method 0 hw).2 heq
    obtain ⟨extended, hx⟩ := (write_scores_file_check env m isRec method 1 hw).2 heq
    exact ⟨(narrow, extended), by simp only [write_scores_vector, hm, write_scores, hn, hx]⟩

theorem two_residue_index_builds : identity_index_builds two_residue_session = true := by
  decide

theorem two_residue_writable :
    writable_records (if true then two_residue_session.rec_string
      else two_residue_session.lig_string) = true := by decide

theorem two_residue_written_keys :
    written_keys (if true then two_residue_session.rec_string
      else two_residue_session.lig_string) = [key_ala_n, key_ala_ca, key_gly_n] := by decide

/-- C12, as the code has it, on the two-residue receptor: the score 7 at the index 4 stops
the pass, the scores at the indices 1 and 2 are written. -/
theorem write_scores_vector_untracked_fatal_witness :
    identity_index_builds two_residue_session = true ∧
    writable_records (if true then two_residue_session.rec_string
      else two_residue_session.lig_string) = true ∧
    (written_keys (if true then two_residue_session.rec_string
      else two_residue_session.lig_string)).Nodup ∧
    [] ∉ written_keys (if true then two_residue_session.rec_string
      else two_residue_session.lig_string) ∧
    write_scores_vector two_residue_session [0, 2, 2, 0, 7] true "masking".toList
      = .error .assertion_failed ∧
    ∃ files, write_scores_vector two_residue_session [0, 2, 2, 0] true "masking".toList
      = .ok files :=
  ⟨two_residue_index_builds, two_residue_writable,
    by rw [two_residue_written_keys]; decide,
    by rw [two_residue_written_keys]; decide,
    (write_scores_vector_untracked_fatal two_residue_session [0, 2, 2, 0, 7] true
      "masking".toList two_residue_index_builds two_residue_writable
      (by rw [two_residue_written_keys]; decide)
      (by rw [two_residue_written_keys]; decide)).1 ⟨4, by decide, by decide, by decide⟩,
    (write_scores_vector_untracked_fatal two_residue_session [0, 2, 2, 0] true
      "masking".toList two_residue_index_builds two_residue_writable
      (by rw [two_residue_written_keys]; decide)
      (by rw [two_residue_written_keys]; decide)).2.mpr (by decide)⟩

/-! ### Serial numbers of at most four digits -/

theorem digitChar_digit (d : Nat) (h : d < 10) :
    (Nat.digitChar d).isDigit = true ∧ (Nat.digitChar d).toNat - '0'.toNat = d := by
  interval_cases d <;> decide

theorem digitsValue_snoc (ds : Str) (c : Char) :
    digitsValue (ds ++ [c]) = 10 * digitsValue ds + (c.toNat - '0'.toNat) := by
  simp [digitsValue, List.foldl_append]

theorem toDigitsCore_spec :
    ∀ (fuel n : Nat) (ds : Str), n < fuel →
      ∃ body, Nat.toDigitsCore 10 fuel n ds = body ++ ds ∧ body ≠ [] ∧
        (∀ c ∈ body, c.isDigit = true) ∧ digitsValue body = n ∧
        (∀ k, n < 10 ^ (k + 1) → body.length ≤ k + 1) := by
  intro fuel
  induction fuel with
  | zero => intro n ds h; omega
  | succ fuel ih =>
    intro n ds h
    obtain ⟨hd1, hd2⟩ := digitChar_digit (n % 10) (Nat.mod_lt _ (by decide))
    rw [Nat.toDigitsCore.eq_2]
    by_cases h0 : n / 10 = 0
    · rw [if_pos h0]
      refine ⟨[Nat.digitChar (n % 10)], rfl, by simp, ?_, ?_, ?_⟩
      · intro c hc
        simp only [List.mem_singleton] at hc
        rw [hc]
        exact hd1
      · have := digitsValue_snoc [] (Nat.digitChar (n % 10))
        simp only [List.nil_append] at this
        rw [this, hd2]
        simp only [digitsValue, List.foldl_nil]
        omega
      · intro k _
        simp
    · rw [if_neg h0]
      obtain ⟨body, hb, _, hdig, hval, hlen⟩ := ih (n / 10) (Nat.digitChar (n % 10) :: ds)
        (by omega)
      refine ⟨body ++ [Nat.digitChar (n % 10)], by simp [hb], by simp, ?_, ?_, ?_⟩
      · intro c hc
        rcases List.mem_append.mp hc with hc | hc
        · exact hdig c hc
        · simp only [List.mem_singleton] at hc
          rw [hc]
          exact hd1
      · rw [digitsValue_snoc, hval, hd2]
        omega
      · intro k hk
        cases k with
        | zero => omega
        | succ k =>
          have : n / 10 < 10 ^ (k + 1) := by
            rw [Nat.div_lt_iff_lt_mul (by decide)]
            rw [pow_succ] at hk
            exact hk
          have := hlen k this
          simp only [List.length_append, List.length_singleton]
          omega

theorem toDigits_spec (n : Nat) :
    Nat.toDigits 10 n ≠ [] ∧ (∀ c ∈ Nat.toDigits 10 n, c.isDigit = true) ∧
      digitsValue (Nat.toDigits 10 n) = n ∧
      (∀ k, n < 10 ^ (k + 1) → (Nat.toDigits 10 n).length ≤ k + 1) := by
  obtain ⟨body, hb, hne, hdig, hval, hlen⟩ := toDigitsCore_spec (n + 1) n [] (by omega)
  have : Nat.toDigits 10 n = body := by simpa [Nat.toDigits] using hb
  rw [this]
  exact ⟨hne, hdig, hval, hlen⟩

theorem isDigit_not_space (c : Char) (h : c.isDigit = true) :
    isspace c = false ∧ c ≠ '-' ∧ c ≠ '+' := by
  refine ⟨?_, ?_, ?_⟩
  · unfold isspace
    simp only [Bool.or_eq_false_iff, decide_eq_false_iff_not]
    refine ⟨⟨⟨⟨⟨?_, ?_⟩, ?_⟩, ?_⟩, ?_⟩, ?_⟩ <;> (intro e; rw [e] at h; revert h; decide)
  · intro e; rw [e] at h; revert h; decide
  · intro e; rw [e] at h; revert h; decide

/-- `std::stoi` on blanks, then digits, then nothing or a blank and more: the value of the
digits. -/
theorem stoi_padded (p : Nat) (digits rest : Str) (hne : digits ≠ [])
    (hdig : ∀ c ∈ digits, c.isDigit = true)
    (hrest : rest = [] ∨ ∃ tail, rest = ' ' :: tail)
    (hv : digitsValue digits ≤ 2147483647) :
    stoi (List.replicate p ' ' ++ digits ++ rest) = .ok (digitsValue digits : Int) := by
  obtain ⟨c, cs, rfl⟩ := List.exists_cons_of_ne_nil hne
  obtain ⟨hc1, hc2, hc3⟩ := isDigit_not_space c (hdig c (by simp))
  have hdrop : (List.replicate p ' ' ++ (c :: cs) ++ rest).dropWhile isspace
      = (c :: cs) ++ rest := by
    rw [List.append_assoc]
    induction p with
    | zero => simp [List.dropWhile_cons, hc1]
    | succ p ih =>
      rw [List.replicate_succ, List.cons_append, List.dropWhile_cons]
      have : isspace ' ' = true := by decide
      rw [if_pos this]
      exact ih
  have htake : ((c :: cs) ++ rest).takeWhile Char.isDigit = c :: cs := by
    rw [List.takeWhile_append_of_pos hdig]
    rcases hrest with rfl | ⟨tail, rfl⟩
    · simp
    · have : Char.isDigit ' ' = false := by decide
      simp [List.takeWhile_cons, this]
  unfold stoi
  simp only [hdrop]
  have hhead : ((c :: cs) ++ rest).head? = some c := rfl
  have hnn : ¬ (some c = some '-') := by
    simp only [Option.some.injEq]
    exact hc2
  have hnp : ¬ (some c = some '+') := by
    simp only [Option.some.injEq]
    exact hc3
  simp only [hhead, hnn, hnp, or_self, if_false, htake, decide_False, Bool.false_eq_true]
  have hne2 : ¬ (c :: cs = []) := by simp
  rw [if_neg hne2]
  have hr : ¬ ((digitsValue (c :: cs) : Int) < -2147483648 ∨
      2147483647 < (digitsValue (c :: cs) : Int)) := by
    omega
  rw [if_neg hr]

/-- A record whose serial number, at most 9999, stands right-justified in the columns 6 to
10 and is followed by a blank: `modify_pdbqt`, `remove_each_atom` and `write_scores` read
the same index, the serial number. -/
theorem index_columns_agree (before rest : Str) (n : Nat) (hb : before.length = 6)
    (hn : n ≤ 9999) :
    index6 (before ++ serial_field n ++ ' ' :: rest) = .ok (n : Int) ∧
    index7 (before ++ serial_field n ++ ' ' :: rest) = .ok (n : Int) := by
  obtain ⟨hne, hdig, hval, hlen⟩ := toDigits_spec n
  have hl4 : (Nat.toDigits 10 n).length ≤ 4 := hlen 3 (by norm_num; omega)
  have hl1 : 1 ≤ (Nat.toDigits 10 n).length := by
    cases hD : Nat.toDigits 10 n with
    | nil => exact absurd hD hne
    | cons c cs => simp
  obtain ⟨q, hq⟩ : ∃ q, 5 - (Nat.toDigits 10 n).length = q + 1 := ⟨4 - (Nat.toDigits 10 n).length, by omega⟩
  have hfield : serial_field n = ' ' :: (List.replicate q ' ' ++ Nat.toDigits 10 n) := by
    simp only [serial_field, right_aligned, hq, List.replicate_succ, List.cons_append]
  have hqlen : q + (Nat.toDigits 10 n).length = 4 := by omega
  have hv : digitsValue (Nat.toDigits 10 n) ≤ 2147483647 := by omega
  constructor
  · have e1 : before ++ serial_field n ++ ' ' :: rest
        = before ++ ((List.replicate (q + 1) ' ' ++ Nat.toDigits 10 n) ++ ' ' :: rest) := by
      rw [hfield]
      simp [List.replicate_succ]
    have e2 : substr (before ++ serial_field n ++ ' ' :: rest) 6 5
        = .ok (List.replicate (q + 1) ' ' ++ Nat.toDigits 10 n ++ []) := by
      have hle : 6 ≤ (before ++ serial_field n ++ ' ' :: rest).length := by
        simp only [List.length_append]
        omega
      have e0 : substr (before ++ serial_field n ++ ' ' :: rest) 6 5
          = .ok (((before ++ serial_field n ++ ' ' :: rest).drop 6).take 5) := by
        unfold substr
        rw [if_pos hle]
      rw [e0, e1, List.drop_left' hb, List.take_left' (by
        simp only [List.length_append, List.length_replicate]
        omega)]
      simp
    unfold index6
    rw [e2]
    simp only []
    rw [stoi_padded (q + 1) _ [] hne hdig (Or.inl rfl) hv, hval]
  · have e1 : before ++ serial_field n ++ ' ' :: rest
        = (before ++ [' ']) ++ ((List.replicate q ' ' ++ Nat.toDigits 10 n ++ [' ']) ++ rest) := by
      rw [hfield]
      simp
    have e2 : substr (before ++ serial_field n ++ ' ' :: rest) 7 5
        = .ok (List.replicate q ' ' ++ Nat.toDigits 10 n ++ [' ']) := by
      have hle : 7 ≤ (before ++ serial_field n ++ ' ' :: rest).length := by
        simp only [List.length_append, List.length_cons]
        omega
      have e0 : substr (before ++ serial_field n ++ ' ' :: rest) 7 5
          = .ok (((before ++ serial_field n ++ ' ' :: rest).drop 7).take 5) := by
        unfold substr
        rw [if_pos hle]
      rw [e0, e1, List.drop_left' (by simp [hb]), List.take_left' (by
        simp only [List.length_append, List.length_replicate, List.length_singleton]
        omega)]
    unfold index7
    rw [e2]
    simp only []
    rw [stoi_padded q _ [' '] hne hdig (Or.inr ⟨[], rfl⟩) hv, hval]

/-- The builder on a structure whose records all carry a serial number of at most 9999,
right-justified and followed by a blank: the records dropped are those whose index, as the
single-atom pass and the writer read it, is in the removal set. -/
theorem modify_pdbqt_idx_small_serials (rm : List Int) (s : Str)
    (h : ∀ l ∈ atom_records s, ∃ before rest n,
      l = before ++ serial_field n ++ ' ' :: rest ∧ before.length = 6 ∧ n ≤ 9999) :
    modify_pdbqt_idx rm s =
      .ok (ROOT ++ unlines ((atom_records s).filter (fun l =>
        match index6 l with
        | .ok i => decide (i ∉ rm)
        | .error _ => true)) ++ ENDROOT ++ TORSDOF0) := by
  have hagree : ∀ l ∈ atom_records s, ∃ n : Nat, index6 l = .ok (n : Int) ∧
      index7 l = .ok (n : Int) := by
    intro l hl
    obtain ⟨before, rest, n, rfl, hb, hn⟩ := h l hl
    exact ⟨n, index_columns_agree before rest n hb hn⟩
  have hidx : indexed_records s = true := by
    unfold indexed_records
    apply List.all_eq_true.mpr
    intro l hl
    obtain ⟨n, _, h7⟩ := hagree l hl
    simp [h7, Except.toBool]
  rw [modify_pdbqt_idx_eq rm s hidx]
  congr 5
  apply List.filter_congr
  intro l hl
  obtain ⟨n, h6, h7⟩ := hagree l hl
  simp [idx_removed, h6, h7]

/-! ### The identity maps on distinct indices -/

theorem map_find_foldl_pairs {κ β : Type} [DecidableEq κ] (pairs : List (κ × β)) :
    (pairs.map Prod.fst).Nodup → ∀ (m0 : List (κ × β)) (x : κ) (y : β),
      (map_find (pairs.foldl (fun acc p => map_set acc p.1 p.2) m0) x = some y ↔
        ((x, y) ∈ pairs ∨ (x ∉ pairs.map Prod.fst ∧ map_find m0 x = some y))) := by
  induction pairs with
  | nil => intro _ m0 x y; simp
  | cons p rest ih =>
    obtain ⟨a, b⟩ := p
    intro hnd m0 x y
    simp only [List.map_cons, List.nodup_cons] at hnd
    obtain ⟨ha, hrest⟩ := hnd
    rw [List.foldl_cons, ih hrest, map_find_map_set]
    by_cases hx : x = a
    · subst hx
      have hno : (x, y) ∉ rest := fun h => ha (List.mem_map.mpr ⟨(x, y), h, rfl⟩)
      simp only [if_true, Option.some.injEq, List.mem_cons, Prod.mk.injEq, true_and,
        List.map_cons, true_or, not_true_eq_false, false_and, or_false]
      constructor
      · rintro (h | ⟨_, h⟩)
        · exact absurd h hno
        · exact Or.inl h.symm
      · rintro (h | h)
        · exact Or.inr ⟨ha, h.symm⟩
        · exact absurd h hno
    · have hxa : ¬ a = x := fun e => hx e.symm
      simp only [if_neg hx, List.mem_cons, Prod.mk.injEq, hx, false_and, false_or,
        List.map_cons, not_or, hxa, not_false_eq_true, true_and, if_false]

theorem xyz_index_loop_pairs (lines : List Str) :
    index_readable lines = true → ∀ m0 : List (Int × Str),
      xyz_index_loop lines m0
        = .ok ((index_pairs lines).foldl (fun acc p => map_set acc p.2 p.1) m0) := by
  induction lines with
  | nil => intro _ m0; rfl
  | cons l ls ih =>
    intro hr m0
    by_cases ha : is_atom_line l = true
    · have hr' : index_readable ls = true := by
        simp only [index_readable, List.filter_cons, ha, if_true, List.all_cons,
          Bool.and_eq_true] at hr
        exact hr.2
      have hl : (get_xyz l).toBool = true ∧ (index7 l).toBool = true := by
        simp only [index_readable, List.filter_cons, ha, if_true, List.all_cons,
          Bool.and_eq_true] at hr
        exact hr.1
      cases h1 : get_xyz l with
      | error e => rw [h1] at hl; simp [Except.toBool] at hl
      | ok k =>
        cases h2 : index7 l with
        | error e => rw [h2] at hl; simp [Except.toBool] at hl
        | ok i =>
          have hp : index_pairs (l :: ls) = (k, i) :: index_pairs ls := by
            simp [index_pairs, List.filter_cons, ha, h1, h2]
          unfold index7 at h2
          cases h3 : substr l 7 5 with
          | error e => rw [h3] at h2; cases h2
          | ok st =>
            rw [h3] at h2
            simp only [] at h2
            simp only [xyz_index_loop, ha, if_true, h1, h3, h2, hp, List.foldl_cons]
            exact ih hr' _
    · have hr' : index_readable ls = true := by
        simpa [index_readable, List.filter_cons, ha] using hr
      have hp : index_pairs (l :: ls) = index_pairs ls := by
        simp [index_pairs, List.filter_cons, ha]
      simp only [xyz_index_loop, ha, hp]
      exact ih hr' m0

theorem openbabel_index_loop_pairs (lines : List Str) :
    index_readable lines = true → ∀ m0 : List (Str × Int),
      openbabel_index_loop lines m0
        = .ok ((index_pairs lines).foldl (fun acc p => map_set acc p.1 p.2) m0) := by
  induction lines with
  | nil => intro _ m0; rfl
  | cons l ls ih =>
    intro hr m0
    by_cases ha : is_atom_line l = true
    · have hr' : index_readable ls = true := by
        simp only [index_readable, List.filter_cons, ha, if_true, List.all_cons,
          Bool.and_eq_true] at hr
        exact hr.2
      have hl : (get_xyz l).toBool = true ∧ (index7 l).toBool = true := by
        simp only [index_readable, List.filter_cons, ha, if_true, List.all_cons,
          Bool.and_eq_true] at hr
        exact hr.1
      cases h1 : get_xyz l with
      | error e => rw [h1] at hl; simp [Except.toBool] at hl
      | ok k =>
        cases h2 : index7 l with
        | error e => rw [h2] at hl; simp [Except.toBool] at hl
        | ok i =>
          have hp : index_pairs (l :: ls) = (k, i) :: index_pairs ls := by
            simp [index_pairs, List.filter_cons, ha, h1, h2]
          unfold index7 at h2
          cases h3 : substr l 7 5 with
          | error e => rw [h3] at h2; cases h2
          | ok st =>
            rw [h3] at h2
            simp only [] at h2
            simp only [openbabel_index_loop, ha, if_true, h1, h3, h2, hp, List.foldl_cons]
            exact ih hr' _
    · have hr' : index_readable ls = true := by
        simpa [index_readable, List.filter_cons, ha] using hr
      have hp : index_pairs (l :: ls) = index_pairs ls := by
        simp [index_pairs, List.filter_cons, ha]
      simp only [openbabel_index_loop, ha, hp]
      exact ih hr' m0

/-- The two identity maps where the records of the structure have pairwise distinct spatial
keys and pairwise distinct indices as read: a record of key `k` and index `i` has `k` sent
to `i` and `i` sent to `k`, so that the two maps are inverse to each other on what they
track. -/
theorem identity_maps_inverse (env : Session) (isRec : Bool)
    (hl : index_readable (getlines env.lig_string) = true)
    (hr : index_readable (getlines env.rec_string) = true)
    (hk : ((index_pairs (getlines (if isRec then env.rec_string
      else env.lig_string))).map Prod.fst).Nodup)
    (hi : ((index_pairs (getlines (if isRec then env.rec_string
      else env.lig_string))).map Prod.snd).Nodup) :
    ∀ k i, (k, i) ∈ index_pairs (getlines (if isRec then env.rec_string else env.lig_string)) →
      get_openbabel_index env k isRec = .ok i ∧ get_xyz_from_index env i isRec = .ok k := by
  intro k i hmem
  have hswap : ∀ (pairs : List (Str × Int)) (m0 : List (Int × Str)),
      pairs.foldl (fun acc p => map_set acc p.2 p.1) m0
        = (pairs.map Prod.swap).foldl (fun acc p => map_set acc p.1 p.2) m0 := by
    intro pairs
    induction pairs with
    | nil => intro m0; rfl
    | cons p rest ih => intro m0; simp [List.foldl_cons, ih]
  have hfst : ∀ pairs : List (Str × Int),
      (pairs.map Prod.swap).map Prod.fst = pairs.map Prod.snd := by
    intro pairs
    simp [List.map_map, Function.comp_def]
  have e1 : ∀ s, index_readable (getlines s) = true →
      ((index_pairs (getlines s)).map Prod.fst).Nodup → (k, i) ∈ index_pairs (getlines s) →
      map_find ((index_pairs (getlines s)).foldl (fun acc p => map_set acc p.1 p.2) []) k
        = some i := by
    intro s _ hnd hm
    exact (map_find_foldl_pairs _ hnd [] k i).mpr (Or.inl hm)
  have e2 : ∀ s, index_readable (getlines s) = true →
      ((index_pairs (getlines s)).map Prod.snd).Nodup → (k, i) ∈ index_pairs (getlines s) →
      map_find ((index_pairs (getlines s)).foldl (fun acc p => map_set acc p.2 p.1) []) i
        = some k := by
    intro s _ hnd hm
    rw [hswap]
    refine (map_find_foldl_pairs _ (by rw [hfst]; exact hnd) [] i k).mpr (Or.inl ?_)
    exact List.mem_map.mpr ⟨(k, i), hm, rfl⟩
  unfold get_openbabel_index get_xyz_from_index
  rw [openbabel_index_loop_pairs _ hl, openbabel_index_loop_pairs _ hr,
    xyz_index_loop_pairs _ hl, xyz_index_loop_pairs _ hr]
  cases isRec with
  | true =>
    simp only [if_true] at hk hi hmem ⊢
    rw [e1 _ hr hk hmem, e2 _ hr hi hmem]
    exact ⟨rfl, rfl⟩
  | false =>
    simp only [Bool.false_eq_true, if_false] at hk hi hmem ⊢
    rw [e1 _ hl hk hmem, e2 _ hl hi hmem]
    exact ⟨rfl, rfl⟩

/-! ### The columns of the spatial key -/

/-- The spatial key depends on the columns 31 to 37, 39 to 45 and 48 to 53 only. -/
theorem get_xyz_reads_columns (l1 l2 : Str)
    (hx : substr l1 31 7 = substr l2 31 7) (hy : substr l1 39 7 = substr l2 39 7)
    (hz : substr l1 48 6 = substr l2 48 6) : get_xyz l1 = get_xyz l2 := by
  simp only [get_xyz, hx, hy, hz]

theorem decimal_text_parts (t : Str) (h : decimal_text t = true) :
    ∃ sign whole frac, t = sign ++ whole ++ '.' :: frac ∧ (sign = [] ∨ sign = ['-']) ∧
      whole ≠ [] ∧ (∀ c ∈ whole, c.isDigit = true) ∧ frac.length = 3 := by
  unfold decimal_text at h
  simp only [Bool.and_eq_true, Bool.not_eq_true', decide_eq_true_eq] at h
  obtain ⟨⟨⟨h1, h2⟩, h3⟩, _⟩ := h
  have hsplit : ∀ u : Str, (u.takeWhile Char.isDigit).isEmpty = false →
      (u.dropWhile Char.isDigit).head? = some '.' →
      (u.dropWhile Char.isDigit).tail.length = 3 →
      ∃ whole frac, u = whole ++ '.' :: frac ∧ whole ≠ [] ∧
        (∀ c ∈ whole, c.isDigit = true) ∧ frac.length = 3 := by
    intro u a b c
    refine ⟨u.takeWhile Char.isDigit, (u.dropWhile Char.isDigit).tail, ?_, ?_, ?_, c⟩
    · have e := (List.takeWhile_append_dropWhile Char.isDigit u).symm
      cases hd : u.dropWhile Char.isDigit with
      | nil => rw [hd] at b; simp at b
      | cons x xs =>
        rw [hd] at b e
        simp only [List.head?_cons, Option.some.injEq] at b
        rw [b] at e
        simpa using e
    · intro hn
      rw [hn] at a
      simp at a
    · intro x hx
      exact List.mem_takeWhile_imp hx
  by_cases hs : t.head? = some '-'
  · simp only [hs, if_true] at h1 h2 h3
    obtain ⟨whole, frac, e, a, b, c⟩ := hsplit t.tail h1 h2 h3
    refine ⟨['-'], whole, frac, ?_, Or.inr rfl, a, b, c⟩
    cases ht : t with
    | nil => rw [ht] at hs; simp at hs
    | cons x xs =>
      rw [ht] at hs e
      simp only [List.head?_cons, Option.some.injEq] at hs
      simp only [List.tail_cons] at e
      rw [hs, e]
      simp
  · simp only [hs, if_false] at h1 h2 h3
    obtain ⟨whole, frac, e, a, b, c⟩ := hsplit t h1 h2 h3
    exact ⟨[], whole, frac, by simpa using e, Or.inl rfl, a, b, c⟩

theorem digits_then_point (whole frac r : Str) (hd : ∀ c ∈ whole, c.isDigit = true) :
    (whole ++ '.' :: frac ++ r).takeWhile Char.isDigit = whole ∧
    (whole ++ '.' :: frac ++ r).dropWhile Char.isDigit = '.' :: frac ++ r := by
  have hp : Char.isDigit '.' = false := by decide
  constructor
  · rw [List.append_assoc, List.takeWhile_append_of_pos hd]
    simp [List.takeWhile_cons, hp]
  · rw [List.append_assoc]
    induction whole with
    | nil => simp [List.dropWhile_cons, hp]
    | cons x xs ih =>
      have hx := hd x (by simp)
      rw [List.cons_append, List.dropWhile_cons, if_pos hx]
      exact ih (fun c hc => hd c (by simp [hc]))

/-- Two numbers printed with three decimals, each followed by some text: when the two texts
as a whole are the same, so are the numbers and what follows them. -/
theorem decimal_text_unique (t1 t2 r1 r2 : Str) (h1 : decimal_text t1 = true)
    (h2 : decimal_text t2 = true) (h : t1 ++ r1 = t2 ++ r2) : t1 = t2 ∧ r1 = r2 := by
  obtain ⟨s1, w1, f1, e1, hs1, hw1, hd1, hf1⟩ := decimal_text_parts t1 h1
  obtain ⟨s2, w2, f2, e2, hs2, hw2, hd2, hf2⟩ := decimal_text_parts t2 h2
  obtain ⟨c1, cs1, rfl⟩ := List.exists_cons_of_ne_nil hw1
  obtain ⟨c2, cs2, rfl⟩ := List.exists_cons_of_ne_nil hw2
  have hc1 : c1 ≠ '-' := (isDigit_not_space c1 (hd1 c1 (by simp))).2.1
  have hc2 : c2 ≠ '-' := (isDigit_not_space c2 (hd2 c2 (by simp))).2.1
  have hrest : (c1 :: cs1) ++ '.' :: f1 ++ r1 = (c2 :: cs2) ++ '.' :: f2 ++ r2 ∧ s1 = s2 := by
    rw [e1, e2] at h
    rcases hs1 with rfl | rfl <;> rcases hs2 with rfl | rfl
    · exact ⟨by simpa using h, rfl⟩
    · simp only [List.nil_append, List.cons_append, List.cons.injEq] at h
      exact absurd h.1 hc1
    · simp only [List.nil_append, List.cons_append, List.cons.injEq] at h
      exact absurd h.1.symm hc2
    · simp only [List.cons_append, List.nil_append, List.cons.injEq, true_and] at h
      exact ⟨by simpa using h, rfl⟩
  obtain ⟨hr, hs⟩ := hrest
  obtain ⟨t1a, t1b⟩ := digits_then_point (c1 :: cs1) f1 r1 hd1
  obtain ⟨t2a, t2b⟩ := digits_then_point (c2 :: cs2) f2 r2 hd2
  have hw : c1 :: cs1 = c2 :: cs2 := by rw [← t1a, ← t2a, hr]
  have hfr : '.' :: f1 ++ r1 = '.' :: f2 ++ r2 := by rw [← t1b, ← t2b, hr]
  simp only [List.cons_append, List.cons.injEq, true_and] at hfr
  obtain ⟨hf, hrr⟩ := List.append_inj hfr (by rw [hf1, hf2])
  exact ⟨by rw [e1, e2, hs, hw, hf], hrr⟩

theorem decimal_text_head (c : Char) (cs : Str) (h : decimal_text (c :: cs) = true) :
    isspace c = false ∧ c ≠ ' ' := by
  obtain ⟨s, w, f, e, hs, hw, hd, _⟩ := decimal_text_parts (c :: cs) h
  obtain ⟨d, ds, rfl⟩ := List.exists_cons_of_ne_nil hw
  rcases hs with rfl | rfl
  · simp only [List.nil_append, List.cons_append, List.cons.injEq] at e
    rw [e.1]
    have hdig := hd d (by simp)
    refine ⟨(isDigit_not_space d hdig).1, ?_⟩
    intro hsp
    rw [hsp] at hdig
    revert hdig
    decide
  · simp only [List.cons_append, List.nil_append, List.cons.injEq] at e
    rw [e.1]
    exact ⟨by decide, by decide⟩

theorem trim_left_blank_field (g : Str)
    (h : decimal_text (g.dropWhile (fun c => c = ' ')) = true) :
    trim_left g = g.dropWhile (fun c => c = ' ') := by
  induction g with
  | nil => rfl
  | cons c cs ih =>
    by_cases hc : c = ' '
    · subst hc
      have e1 : List.dropWhile (fun c => decide (c = ' ')) (' ' :: cs)
          = List.dropWhile (fun c => decide (c = ' ')) cs := by
        simp [List.dropWhile_cons]
      have e2 : trim_left (' ' :: cs) = trim_left cs := by
        have : isspace ' ' = true := by decide
        simp [trim_left, List.dropWhile_cons, this]
      rw [e1] at h ⊢
      rw [e2]
      exact ih h
    · have e1 : List.dropWhile (fun c => decide (c = ' ')) (c :: cs) = c :: cs := by
        simp [List.dropWhile_cons, hc]
      rw [e1] at h ⊢
      obtain ⟨hsp, _⟩ := decimal_text_head c cs h
      simp [trim_left, List.dropWhile_cons, hsp]

theorem dropWhile_blank_drop (f : Str) (k : Nat) (hb : f.take k = List.replicate k ' ') :
    (f.drop k).dropWhile (fun c => c = ' ') = f.dropWhile (fun c => c = ' ') := by
  induction k generalizing f with
  | zero => rfl
  | succ k ih =>
    cases f with
    | nil => rfl
    | cons c cs =>
      simp only [List.take_succ_cons, List.replicate_succ, List.cons.injEq] at hb
      obtain ⟨rfl, hb⟩ := hb
      simp only [List.drop_succ_cons]
      rw [ih cs hb]
      simp [List.dropWhile_cons]

theorem blank_field_eq (f : Str) :
    f = List.replicate (f.length - (f.dropWhile (fun c => c = ' ')).length) ' '
      ++ f.dropWhile (fun c => c = ' ') := by
  induction f with
  | nil => rfl
  | cons c cs ih =>
    by_cases hc : c = ' '
    · subst hc
      have e1 : List.dropWhile (fun c => decide (c = ' ')) (' ' :: cs)
          = List.dropWhile (fun c => decide (c = ' ')) cs := by
        simp [List.dropWhile_cons]
      have hle : (List.dropWhile (fun c => decide (c = ' ')) cs).length ≤ cs.length :=
        (List.dropWhile_sublist _).length_le
      rw [e1, List.length_cons, Nat.succ_sub hle, List.replicate_succ, List.cons_append, ← ih]
    · have e1 : List.dropWhile (fun c => decide (c = ' ')) (c :: cs) = c :: cs := by
        simp [List.dropWhile_cons, hc]
      rw [e1]
      simp

theorem get_xyz_of_fields (l x y z : Str) (h : coordinate_fields l = .ok (x, y, z))
    (hlen : 54 ≤ l.length) :
    x.length = 8 ∧ y.length = 8 ∧ z.length = 8 ∧
    get_xyz l = .ok (trim_left (x.drop 1) ++ trim_left (y.drop 1) ++ trim_left (z.drop 2)) := by
  have s30 : substr l 30 8 = .ok ((l.drop 30).take 8) := by
    unfold substr; rw [if_pos (by omega)]
  have s38 : substr l 38 8 = .ok ((l.drop 38).take 8) := by
    unfold substr; rw [if_pos (by omega)]
  have s46 : substr l 46 8 = .ok ((l.drop 46).take 8) := by
    unfold substr; rw [if_pos (by omega)]
  have s31 : substr l 31 7 = .ok ((l.drop 31).take 7) := by
    unfold substr; rw [if_pos (by omega)]
  have s39 : substr l 39 7 = .ok ((l.drop 39).take 7) := by
    unfold substr; rw [if_pos (by omega)]
  have s48 : substr l 48 6 = .ok ((l.drop 48).take 6) := by
    unfold substr; rw [if_pos (by omega)]
  simp only [coordinate_fields, s30, s38, s46, Except.ok.injEq, Prod.mk.injEq] at h
  obtain ⟨rfl, rfl, rfl⟩ := h
  refine ⟨?_, ?_, ?_, ?_⟩
  · simp only [List.length_take, List.length_drop]; omega
  · simp only [List.length_take, List.length_drop]; omega
  · simp only [List.length_take, List.length_drop]; omega
  · simp only [get_xyz, s31, s39, s48, List.drop_take, List.drop_drop]

/-- The spatial key on records whose coordinates fit the columns read: for two records of at
least 54 columns whose coordinate fields hold numbers printed with three decimals,
right-justified, with the first column of the x and y fields and the first two columns of
the z field blank, the same key means the same three fields. -/
theorem get_xyz_injective_within_columns (l1 l2 x1 y1 z1 x2 y2 z2 : Str)
    (h1 : coordinate_fields l1 = .ok (x1, y1, z1))
    (h2 : coordinate_fields l2 = .ok (x2, y2, z2))
    (n1 : 54 ≤ l1.length) (n2 : 54 ≤ l2.length)
    (cx1 : coordinate_text x1 = true) (cy1 : coordinate_text y1 = true)
    (cz1 : coordinate_text z1 = true) (cx2 : coordinate_text x2 = true)
    (cy2 : coordinate_text y2 = true) (cz2 : coordinate_text z2 = true)
    (bx1 : x1.take 1 = [' ']) (by1 : y1.take 1 = [' ']) (bz1 : z1.take 2 = [' ', ' '])
    (bx2 : x2.take 1 = [' ']) (by2 : y2.take 1 = [' ']) (bz2 : z2.take 2 = [' ', ' '])
    (hk : get_xyz l1 = get_xyz l2) : x1 = x2 ∧ y1 = y2 ∧ z1 = z2 := by
  obtain ⟨lx1, ly1, lz1, g1⟩ := get_xyz_of_fields l1 x1 y1 z1 h1 n1
  obtain ⟨lx2, ly2, lz2, g2⟩ := get_xyz_of_fields l2 x2 y2 z2 h2 n2
  have tr : ∀ (f : Str) (k : Nat), f.take k = List.replicate k ' ' →
      coordinate_text f = true →
      trim_left (f.drop k) = f.dropWhile (fun c => c = ' ') := by
    intro f k hb hc
    have e := dropWhile_blank_drop f k hb
    rw [trim_left_blank_field (f.drop k) (by rw [e]; exact hc), e]
  rw [g1, g2, tr x1 1 bx1 cx1, tr y1 1 by1 cy1, tr z1 2 bz1 cz1, tr x2 1 bx2 cx2,
    tr y2 1 by2 cy2, tr z2 2 bz2 cz2] at hk
  simp only [Except.ok.injEq, List.append_assoc] at hk
  obtain ⟨ex, hk⟩ := decimal_text_unique _ _ _ _ cx1 cx2 hk
  obtain ⟨ey, ez⟩ := decimal_text_unique _ _ _ _ cy1 cy2 hk
  have fx1 := blank_field_eq x1
  have fx2 := blank_field_eq x2
  have fy1 := blank_field_eq y1
  have fy2 := blank_field_eq y2
  have fz1 := blank_field_eq z1
  have fz2 := blank_field_eq z2
  refine ⟨?_, ?_, ?_⟩
  · rw [fx1, fx2, lx1, lx2, ex]
  · rw [fy1, fy2, ly1, ly2, ey]
  · rw [fz1, fz2, lz1, lz2, ez]

/-! ### The spatial filter and the atoms behind the keys -/

theorem within_box_iff (env : Session) (atom : OBAtom) :
    within_box env atom = true ↔ inside_float_box env atom := by
  simp only [within_box, inside_float_box, between_float_bounds, Bool.and_eq_true]
  tauto

theorem mem_index_pairs (lines : List Str) (k : Str) (i : Int) :
    (k, i) ∈ index_pairs lines ↔
      ∃ l ∈ lines.filter is_atom_line, get_xyz l = .ok k ∧ index7 l = .ok i := by
  unfold index_pairs
  rw [List.mem_filterMap]
  constructor
  · rintro ⟨l, hl, h⟩
    refine ⟨l, hl, ?_⟩
    cases h1 : get_xyz l with
    | error e => simp [h1] at h
    | ok k' =>
      cases h2 : index7 l with
      | error e => simp [h1, h2] at h
      | ok i' =>
        simp only [h1, h2, Option.some.injEq, Prod.mk.injEq] at h
        rw [h.1, h.2]
        exact ⟨rfl, rfl⟩
  · rintro ⟨l, hl, h1, h2⟩
    exact ⟨l, hl, by simp [h1, h2]⟩

theorem mem_record_atoms (env : Session) (k : Str) (atom : OBAtom) :
    atom ∈ record_atoms env k ↔
      ∃ l ∈ (getlines env.rec_string).filter is_atom_line, get_xyz l = .ok k ∧
        ∃ i, index6 l = .ok i ∧ env.rec_mol.GetAtom i = some atom := by
  unfold record_atoms
  rw [List.mem_filterMap]
  constructor
  · rintro ⟨l, hl, h⟩
    refine ⟨l, hl, ?_⟩
    by_cases h1 : get_xyz l = .ok k
    · rw [if_pos h1] at h
      cases h2 : index6 l with
      | error e => simp [h2] at h
      | ok i =>
        simp only [h2] at h
        exact ⟨h1, i, rfl, h⟩
    · rw [if_neg h1] at h
      cases h
  · rintro ⟨l, hl, h1, i, h2, h3⟩
    exact ⟨l, hl, by simp [h1, h2, h3]⟩

theorem get_openbabel_index_of_pair (env : Session)
    (hl : index_readable (getlines env.lig_string) = true)
    (hr : index_readable (getlines env.rec_string) = true)
    (hk : ((index_pairs (getlines env.rec_string)).map Prod.fst).Nodup)
    (k : Str) (i : Int) (hmem : (k, i) ∈ index_pairs (getlines env.rec_string)) :
    get_openbabel_index env k true = .ok i := by
  unfold get_openbabel_index
  rw [openbabel_index_loop_pairs _ hl, openbabel_index_loop_pairs _ hr]
  simp only [if_true]
  rw [(map_find_foldl_pairs _ hk [] k i).mpr (Or.inl hmem)]
  rfl

/-- Where the serial numbers are read as they stand and no two records share a key, the
atom the filter looks up for a key is the atom behind the key. -/
theorem receptor_atom_iff (env : Session)
    (hl : index_readable (getlines env.lig_string) = true)
    (hr : index_readable (getlines env.rec_string) = true)
    (hk : ((index_pairs (getlines env.rec_string)).map Prod.fst).Nodup)
    (hserial : ∀ l ∈ (getlines env.rec_string).filter is_atom_line, index7 l = index6 l)
    (k : Str) (hne : record_atoms env k ≠ []) (atom : OBAtom) :
    receptor_atom env k = .ok atom ↔ atom ∈ record_atoms env k := by
  obtain ⟨atom0, h0⟩ := List.exists_mem_of_ne_nil _ hne
  obtain ⟨l0, hl0, hx0, i0, hi0, hg0⟩ := (mem_record_atoms env k atom0).mp h0
  have hp0 : (k, i0) ∈ index_pairs (getlines env.rec_string) :=
    (mem_index_pairs _ k i0).mpr ⟨l0, hl0, hx0, by rw [hserial l0 hl0]; exact hi0⟩
  have hidx := get_openbabel_index_of_pair env hl hr hk k i0 hp0
  have hrec : receptor_atom env k = .ok atom0 := by
    simp [receptor_atom, hidx, hg0]
  constructor
  · intro h
    rw [hrec] at h
    cases h
    exact h0
  · intro h
    obtain ⟨l, hl1, hx, i, hi, hg⟩ := (mem_record_atoms env k atom).mp h
    have hp : (k, i) ∈ index_pairs (getlines env.rec_string) :=
      (mem_index_pairs _ k i).mpr ⟨l, hl1, hx, by rw [hserial l hl1]; exact hi⟩
    have hidx' := get_openbabel_index_of_pair env hl hr hk k i hp
    rw [hidx] at hidx'
    cases hidx'
    rw [hg0] at hg
    cases hg
    exact hrec

theorem margin_filter_value : check_in_range margin_session [key_margin] = .ok false := by
  decide!

theorem margin_atom :
    record_atoms margin_session key_margin
      = [⟨7, 4348788390179635 / 281474976710656, 6134 / 1000, -6504 / 1000⟩] := by
  decide!

/-- C8, the claim as it stands fails: the atom of the set is closer to the centre than half
the box size on every axis, by 11.74999995 on `x` where half the box size is 11.75, yet
`check_in_range` returns false, the single-precision sum of 3.70000005 and 11.75 being
15.44999981, which is below the coordinate 15.45. -/
theorem check_in_range_margin_counterexample :
    (∃ atom ∈ record_atoms margin_session key_margin, inside_box margin_session atom) ∧
    check_in_range margin_session [key_margin] = .ok false := by
  refine ⟨⟨⟨7, 4348788390179635 / 281474976710656, 6134 / 1000, -6504 / 1000⟩, ?_, ?_⟩,
    margin_filter_value⟩
  · rw [margin_atom]
    exact List.mem_singleton.mpr rfl
  · simp only [inside_box, margin_session, abs_lt]
    norm_num

/-- C8, amended: where the serial numbers of the receptor records are read as they stand, no
two records share a spatial key and every key of the set has its atom in the receptor,
`check_in_range` returns true exactly if some atom of the set is, on all three axes at the
same time, strictly between the difference and the sum of the centre coordinate and half
the box size, the four of them rounded to single precision; it returns false for the empty
set. -/
theorem check_in_range_float_box (env : Session) (atom_xyzs : List Str)
    (hl : index_readable (getlines env.lig_string) = true)
    (hr : index_readable (getlines env.rec_string) = true)
    (hk : ((index_pairs (getlines env.rec_string)).map Prod.fst).Nodup)
    (hserial : ∀ l ∈ (getlines env.rec_string).filter is_atom_line, index7 l = index6 l)
    (hatoms : ∀ k ∈ atom_xyzs, record_atoms env k ≠ []) :
    (∃ b, check_in_range env atom_xyzs = .ok b ∧
      (b = true ↔ ∃ k ∈ atom_xyzs, ∃ atom ∈ record_atoms env k, inside_float_box env atom)) ∧
    check_in_range env [] = .ok false := by
  refine ⟨?_, rfl⟩
  have hres : keys_resolve env atom_xyzs = true := by
    apply List.all_eq_true.mpr
    intro k hmem
    obtain ⟨atom0, h0⟩ := List.exists_mem_of_ne_nil _ (hatoms k hmem)
    rw [(receptor_atom_iff env hl hr hk hserial k (hatoms k hmem) atom0).mpr h0]
    rfl
  obtain ⟨b, he, hiff⟩ := check_in_range_spec env atom_xyzs hres
  refine ⟨b, he, ?_⟩
  rw [hiff]
  constructor
  · rintro ⟨k, hmem, atom, ha, hb⟩
    exact ⟨k, hmem, atom, (receptor_atom_iff env hl hr hk hserial k (hatoms k hmem) atom).mp ha,
      (within_box_iff env atom).mp hb⟩
  · rintro ⟨k, hmem, atom, ha, hb⟩
    exact ⟨k, hmem, atom, (receptor_atom_iff env hl hr hk hserial k (hatoms k hmem) atom).mpr ha,
      (within_box_iff env atom).mpr hb⟩

theorem two_residue_readable :
    index_readable (getlines two_residue_session.lig_string) = true ∧
    index_readable (getlines two_residue_session.rec_string) = true ∧
    ((index_pairs (getlines two_residue_session.rec_string)).map Prod.fst).Nodup ∧
    (∀ l ∈ (getlines two_residue_session.rec_string).filter is_atom_line,
      index7 l = index6 l) ∧
    (∀ k ∈ [key_gly_n, key_ala_n], record_atoms two_residue_session k ≠ []) := by
  decide!

/-- C8, amended, on the two-residue receptor: the glycine nitrogen is inside the box on `y`
and `z` only, the alanine nitrogen on all three axes, so the set of the two is admitted and
the glycine nitrogen alone is not. -/
theorem check_in_range_float_box_witness :
    (index_readable (getlines two_residue_session.lig_string) = true ∧
      index_readable (getlines two_residue_session.rec_string) = true ∧
      ((index_pairs (getlines two_residue_session.rec_string)).map Prod.fst).Nodup ∧
      (∀ l ∈ (getlines two_residue_session.rec_string).filter is_atom_line,
        index7 l = index6 l) ∧
      (∀ k ∈ [key_gly_n, key_ala_n], record_atoms two_residue_session k ≠ [])) ∧
    ((∃ b, check_in_range two_residue_session [key_gly_n, key_ala_n] = .ok b ∧
      (b = true ↔ ∃ k ∈ [key_gly_n, key_ala_n], ∃ atom ∈ record_atoms two_residue_session k,
        inside_float_box two_residue_session atom)) ∧
    check_in_range two_residue_session [] = .ok false) ∧
    check_in_range two_residue_session [key_gly_n, key_ala_n] = .ok true ∧
    check_in_range two_residue_session [key_gly_n] = .ok false :=
  ⟨two_residue_readable,
    check_in_range_float_box two_residue_session [key_gly_n, key_ala_n]
      two_residue_readable.1 two_residue_readable.2.1 two_residue_readable.2.2.1
      two_residue_readable.2.2.2.1 two_residue_readable.2.2.2.2,
    by decide!, two_residue_far_atom⟩

end CnnVis
